import Mathlib

/-!
# Process-tree termination (marcha, `native/windows`)

A shallow embedding of the snapshot walk and tree kill of `test_kill.cpp`
(`GetDescendants`, `KillProcessTree`) and of the iterative walk duplicated in
`test_kill_final.cpp`, `test_kill_dll.cpp` and `test_conpty_tree.cpp`
(`GetAllDescendants`).

The operating system is an environment of oracles.  Every call the code makes
is appended to a trace of events, and the answer of the operating system to a
call may depend on the whole trace so far (so a process may vanish between two
calls, a snapshot may differ from the previous one, ...).  Recursion and the
`while` loop, which the source does not bound, carry a fuel argument; `none`
means the fuel ran out.
-/

namespace Marcha

/-- A Windows `DWORD`; process identifiers are only compared, never computed with. -/
abbrev DWORD := Nat

/-- The two fields of `PROCESSENTRY32` that the code reads. -/
structure PROCESSENTRY32 where
  th32ProcessID : DWORD
  th32ParentProcessID : DWORD
deriving DecidableEq, Repr

/-- One call into the operating system, with its outcome. -/
inductive Event where
  /-- A call of `CreateToolhelp32Snapshot`; `ok = false` is `INVALID_HANDLE_VALUE`. -/
  | snapshot (ok : Bool)
  /-- A call of `CloseHandle` on a snapshot handle. -/
  | closeSnapshot
  /-- A call `OpenProcess(PROCESS_TERMINATE, FALSE, pid)`; `ok = false` is a null handle. -/
  | openProcess (pid : DWORD) (ok : Bool)
  /-- A call `TerminateProcess(h, 1)` on the handle opened for `pid`, with its result. -/
  | terminateProcess (pid : DWORD) (ok : Bool)
  /-- A call of `CloseHandle` on the handle opened for `pid`. -/
  | closeProcess (pid : DWORD)
deriving DecidableEq, Repr

/-- The operating system: each oracle answers a call given the trace so far. -/
structure Env where
  /-- The entries `Process32First`/`Process32Next` enumerate, or `none` when
  the snapshot cannot be captured. -/
  CreateToolhelp32Snapshot : List Event → Option (List PROCESSENTRY32)
  /-- Whether `OpenProcess` on the pid yields a handle. -/
  OpenProcess : List Event → DWORD → Bool
  /-- Whether `TerminateProcess` on the handle of the pid succeeds. -/
  TerminateProcess : List Event → DWORD → Bool

/-- The conversion `(int)n` of a `size_t`: reduction modulo `2^32`, read as a
signed 32-bit integer. -/
def toInt32 (n : Nat) : Int :=
  if n % 2 ^ 32 < 2 ^ 31 then ((n % 2 ^ 32 : Nat) : Int) else ((n % 2 ^ 32 : Nat) : Int) - 2 ^ 32

/-- The function `GetDescendants` of `test_kill.cpp`.  Every call captures its own snapshot
and walks it entry by entry; an entry whose parent is `parentPid` (and whose
pid is not `parentPid` itself) is pushed on `out` and resolved recursively
before the walk goes on.  The state is `(out, trace)`. -/
def GetDescendants (env : Env) :
    Nat → DWORD → List DWORD × List Event → Option (List DWORD × List Event)
  | 0, _, _ => none
  | fuel + 1, parentPid, st =>
    match env.CreateToolhelp32Snapshot st.2 with
    | none => some (st.1, st.2 ++ [Event.snapshot false])
    | some snap =>
      (snap.foldlM
        (fun (s : List DWORD × List Event) (pe : PROCESSENTRY32) =>
          if pe.th32ParentProcessID = parentPid ∧ pe.th32ProcessID ≠ parentPid then
            GetDescendants env fuel pe.th32ProcessID (s.1 ++ [pe.th32ProcessID], s.2)
          else some s)
        (st.1, st.2 ++ [Event.snapshot true])).map
        (fun s => (s.1, s.2 ++ [Event.closeSnapshot]))

/-- The sweep loop of `KillProcessTree`,
`for (int i = (int)descendants.size() - 1; i >= 0; i--)`: the argument is
`i + 1`, the state is `(allKilled, trace)`. -/
def killLoop (env : Env) (descendants : List DWORD) :
    Nat → Bool × List Event → Bool × List Event
  | 0, st => st
  | i + 1, st =>
    let pid := descendants.getD i 0
    if env.OpenProcess st.2 pid then
      let tr := st.2 ++ [Event.openProcess pid true]
      if env.TerminateProcess tr pid then
        killLoop env descendants i
          (st.1, tr ++ [Event.terminateProcess pid true, Event.closeProcess pid])
      else
        killLoop env descendants i
          (false, tr ++ [Event.terminateProcess pid false, Event.closeProcess pid])
    else
      killLoop env descendants i (st.1, st.2 ++ [Event.openProcess pid false])

/-- The last block of `KillProcessTree`: open the root and, when that gives a
handle, terminate it and close the handle; the result of `TerminateProcess`
is dropped. -/
def killRoot (env : Env) (rootPid : DWORD) (tr : List Event) : List Event :=
  if env.OpenProcess tr rootPid then
    let tr1 := tr ++ [Event.openProcess rootPid true]
    tr1 ++ [Event.terminateProcess rootPid (env.TerminateProcess tr1 rootPid),
      Event.closeProcess rootPid]
  else tr ++ [Event.openProcess rootPid false]

/-- The function `KillProcessTree` of `test_kill.cpp`: resolve the descendants, sweep them
from the last index down to 0, then kill the root; returns `allKilled`
together with the trace. -/
def KillProcessTree (env : Env) (fuel : Nat) (rootPid : DWORD) (tr0 : List Event) :
    Option (Bool × List Event) :=
  match GetDescendants env fuel rootPid ([], tr0) with
  | none => none
  | some (descendants, tr) =>
    let st := killLoop env descendants (toInt32 descendants.length).toNat (true, tr)
    some (st.1, killRoot env rootPid st.2)

/-- The inner `do ... while (Process32Next)` of `GetAllDescendants`: every
entry whose parent is `parent` and whose pid is not `rootPid` is pushed on
both `out` and `toVisit`.  The state is `(out, toVisit)`. -/
def scanChildren (rootPid parent : DWORD) (snap : List PROCESSENTRY32)
    (st : List DWORD × List DWORD) : List DWORD × List DWORD :=
  snap.foldl
    (fun s pe =>
      if pe.th32ParentProcessID = parent ∧ pe.th32ProcessID ≠ rootPid then
        (s.1 ++ [pe.th32ProcessID], s.2 ++ [pe.th32ProcessID])
      else s)
    st

/-- One turn of `while (!toVisit.empty())`: `none` when the loop exits, else
the state after popping the back of `toVisit` and scanning the snapshot. -/
def visitStep (snap : List PROCESSENTRY32) (rootPid : DWORD)
    (st : List DWORD × List DWORD) : Option (List DWORD × List DWORD) :=
  match st.2.getLast? with
  | none => none
  | some parent => some (scanChildren rootPid parent snap (st.1, st.2.dropLast))

/-- The `while` loop of `GetAllDescendants` run to its exit; returns `out`. -/
def visitLoop (snap : List PROCESSENTRY32) (rootPid : DWORD) :
    Nat → List DWORD × List DWORD → Option (List DWORD)
  | 0, _ => none
  | fuel + 1, st =>
    match visitStep snap rootPid st with
    | none => some st.1
    | some st1 => visitLoop snap rootPid fuel st1

/-- The state of the `while` loop of `GetAllDescendants` after `n` turns (or
at its exit, when that comes first). -/
def visitIter (snap : List PROCESSENTRY32) (rootPid : DWORD) :
    Nat → List DWORD × List DWORD → List DWORD × List DWORD
  | 0, st => st
  | n + 1, st =>
    match visitStep snap rootPid st with
    | none => st
    | some st1 => visitIter snap rootPid n st1

/-- The function `GetAllDescendants` (`test_kill_final.cpp`, `test_kill_dll.cpp`,
`test_conpty_tree.cpp`): one snapshot, an explicit stack `toVisit` that starts
as `{rootPid}`.  The state is `(out, trace)`. -/
def GetAllDescendants (env : Env) (fuel : Nat) (rootPid : DWORD)
    (st : List DWORD × List Event) : Option (List DWORD × List Event) :=
  match env.CreateToolhelp32Snapshot st.2 with
  | none => some (st.1, st.2 ++ [Event.snapshot false])
  | some snap =>
    (visitLoop snap rootPid fuel (st.1, [rootPid])).map
      (fun out => (out, st.2 ++ [Event.snapshot true, Event.closeSnapshot]))

/-! ## Specification vocabulary -/

/-- The pids one call of `GetDescendants` on `p` pushes itself, in snapshot
order: the filter of its `if`, `th32ParentProcessID == p && th32ProcessID != p`. -/
def kids (snap : List PROCESSENTRY32) (p : DWORD) : List DWORD :=
  (snap.filter
    (fun pe => decide (pe.th32ParentProcessID = p ∧ pe.th32ProcessID ≠ p))).map
    (fun pe => pe.th32ProcessID)

/-- The pids one turn of the `while` loop of `GetAllDescendants` pushes when it
pops `p`: the filter of its `if`,
`th32ParentProcessID == p && th32ProcessID != rootPid`. -/
def kidsOf (snap : List PROCESSENTRY32) (rootPid p : DWORD) : List DWORD :=
  (snap.filter
    (fun pe => decide (pe.th32ParentProcessID = p ∧ pe.th32ProcessID ≠ rootPid))).map
    (fun pe => pe.th32ProcessID)

/-- Depth-first preorder of the pids below `p`, cut `n` levels below the
children of `p`. -/
def dfs (snap : List PROCESSENTRY32) : Nat → DWORD → List DWORD
  | 0, _ => []
  | n + 1, p => (kids snap p).flatMap (fun c => c :: dfs snap n c)

/-- The snapshot events of the walk that `dfs` describes: each call captures a
snapshot, lets the calls on its children run, and closes the snapshot. -/
def dfsTrace (snap : List PROCESSENTRY32) : Nat → DWORD → List Event
  | 0, _ => [Event.snapshot true, Event.closeSnapshot]
  | n + 1, p =>
    Event.snapshot true :: ((kids snap p).flatMap (dfsTrace snap n) ++ [Event.closeSnapshot])

/-- No chain of `kids` steps that starts at `p` is longer than `n`. -/
def complete (snap : List PROCESSENTRY32) : Nat → DWORD → Bool
  | 0, p => (kids snap p).isEmpty
  | n + 1, p => (kids snap p).all (complete snap n)

/-- A pid `x` is reachable from `root` by following `parentPid` edges of the
snapshot forward: some record names `root` as the parent of `x`, or names as
its parent a pid that is itself reachable. -/
inductive Reachable (snap : List PROCESSENTRY32) (root : DWORD) : DWORD → Prop where
  | child (pe : PROCESSENTRY32) : pe ∈ snap → pe.th32ParentProcessID = root →
      Reachable snap root pe.th32ProcessID
  | step (pe : PROCESSENTRY32) : pe ∈ snap →
      Reachable snap root pe.th32ParentProcessID → Reachable snap root pe.th32ProcessID

/-- No two records of the snapshot carry the same pid. -/
def UniquePids (snap : List PROCESSENTRY32) : Prop :=
  (snap.map (fun pe => pe.th32ProcessID)).Nodup

/-- The parent relation of the snapshot has no cycle: no record has its
recorded parent among the pids reachable from its own pid.  A record that
names itself as its parent (the idle process, pid 0 with parent 0, in a real
snapshot) is left out: no walk follows it. -/
def Acyclic (snap : List PROCESSENTRY32) : Prop :=
  ∀ pe ∈ snap, pe.th32ProcessID ≠ pe.th32ParentProcessID →
    ¬ Reachable snap pe.th32ProcessID pe.th32ParentProcessID

/-- The parent relation has no cycle below `root`: no record whose parent is
`root` or reachable from `root` has that parent among the pids reachable from
its own pid (records that name themselves left out, as in `Acyclic`).  The
snapshot forms a tree under `root`, whatever it holds elsewhere. -/
def AcyclicBelow (snap : List PROCESSENTRY32) (root : DWORD) : Prop :=
  ∀ pe ∈ snap, pe.th32ProcessID ≠ pe.th32ParentProcessID →
    (pe.th32ParentProcessID = root ∨ Reachable snap root pe.th32ParentProcessID) →
      ¬ Reachable snap pe.th32ProcessID pe.th32ParentProcessID

/-- A chain of records below `p`: the first names `p` as its parent, each
next one names the pid of the one before, and no record names itself. -/
def Chain (snap : List PROCESSENTRY32) : DWORD → List PROCESSENTRY32 → Prop
  | _, [] => True
  | p, pe :: rest =>
    pe ∈ snap ∧ pe.th32ParentProcessID = p ∧ pe.th32ProcessID ≠ p ∧
      Chain snap pe.th32ProcessID rest

/-- The list `l` holds exactly the descendants of `root`: no pid twice, a pid
is listed if and only if it differs from `root` and is reachable from it, and
so `l` has as many entries as any finite set of exactly those pids. -/
def ExactDescendants (snap : List PROCESSENTRY32) (root : DWORD) (l : List DWORD) : Prop :=
  l.Nodup ∧ (∀ x, x ∈ l ↔ x ≠ root ∧ Reachable snap root x) ∧
    ∀ S : Finset DWORD, (∀ x, x ∈ S ↔ x ≠ root ∧ Reachable snap root x) → l.length = S.card

/-- In the list every pid is followed, further right, by each of its children. -/
def ChildrenFollow (snap : List PROCESSENTRY32) : List DWORD → Prop
  | [] => True
  | q :: rest => (∀ c ∈ kids snap q, c ∈ rest) ∧ ChildrenFollow snap rest

/-- The pids of the `OpenProcess` calls of a trace, in order. -/
def openAttempts (tr : List Event) : List DWORD :=
  tr.filterMap (fun e => match e with
    | Event.openProcess pid _ => some pid
    | _ => none)

/-- The pids of the `TerminateProcess` calls of a trace, in order. -/
def terminateCalls (tr : List Event) : List DWORD :=
  tr.filterMap (fun e => match e with
    | Event.terminateProcess pid _ => some pid
    | _ => none)

/-- A trace that holds no `OpenProcess` and no `TerminateProcess` call. -/
def Quiet (tr : List Event) : Prop :=
  openAttempts tr = [] ∧ terminateCalls tr = []

/-- An operating system whose process table stays `snap` and whose
`OpenProcess` and `TerminateProcess` answer by pid alone. -/
def staticEnv (snap : List PROCESSENTRY32) (canOpen canKill : DWORD → Bool) : Env :=
  ⟨fun _ => some snap, fun _ pid => canOpen pid, fun _ pid => canKill pid⟩

/-- An operating system that refuses every snapshot and lets every process be
opened and terminated. -/
def noSnapshotEnv : Env :=
  ⟨fun _ => none, fun _ _ => true, fun _ _ => true⟩

/-- A shell 1 with children 2 and 4, grandchildren 3 (of 2) and 5 (of 4),
next to the idle process 0 and the parent 0 of the shell. -/
def sampleSnap : List PROCESSENTRY32 :=
  [⟨0, 0⟩, ⟨1, 0⟩, ⟨2, 1⟩, ⟨3, 2⟩, ⟨4, 1⟩, ⟨5, 4⟩]

/-- A snapshot after pid reuse: 1 is recorded as the child of 2 and 2 as the
child of 1. -/
def cyclicSnap : List PROCESSENTRY32 :=
  [⟨1, 2⟩, ⟨2, 1⟩]

/-- The second state carries the output and the trace of the first, each
extended, the trace by events that open and terminate nothing. -/
def Extends (s t : List DWORD × List Event) : Prop :=
  (∃ l, t.1 = s.1 ++ l) ∧ ∃ evs, t.2 = s.2 ++ evs ∧ Quiet evs

/-- The table `sampleSnap` where every process can be opened and terminated. -/
def obligingEnv : Env :=
  staticEnv sampleSnap (fun _ => true) (fun _ => true)

/-- The table `sampleSnap` where pid 3 cannot be opened and terminating pid 4 fails. -/
def stubbornEnv : Env :=
  staticEnv sampleSnap (fun pid => pid != 3) (fun pid => pid != 4)

/-- The table `sampleSnap` where only the root 1 can still be opened. -/
def allGoneEnv : Env :=
  staticEnv sampleSnap (fun pid => pid == 1) (fun _ => true)

/-- The table `cyclicSnap`, every process of which can be opened and terminated. -/
def cyclicEnv : Env :=
  staticEnv cyclicSnap (fun _ => true) (fun _ => true)

/-! ## Job objects (`process_manager.cpp`) -/

/-- A Windows `HANDLE`, also as the `intptr_t` the exported functions trade
it for; 0 is `NULL`. -/
abbrev HANDLE := Nat

/-- One job-object call into the operating system, with its outcome. -/
inductive JobEvent where
  /-- A call `CreateJobObjectA(NULL, NULL)` and the handle it gave (0 on failure). -/
  | createJob (hJob : HANDLE)
  /-- A call of `SetInformationJobObject` asking for kill-on-close, with its result. -/
  | setInformation (hJob : HANDLE) (ok : Bool)
  /-- A call `OpenProcess(PROCESS_SET_QUOTA | PROCESS_TERMINATE, FALSE, pid)` and
  the handle it gave (0 on failure). -/
  | openProcess (pid : DWORD) (hProcess : HANDLE)
  /-- A call of `AssignProcessToJobObject`, with its result. -/
  | assignProcess (hJob hProcess : HANDLE) (ok : Bool)
  /-- A call of `TerminateJobObject(hJob, 1)`, with its result. -/
  | terminateJob (hJob : HANDLE) (ok : Bool)
  /-- A call of `CloseHandle` on a job handle, with its result. -/
  | closeJob (hJob : HANDLE) (ok : Bool)
  /-- A call of `CloseHandle` on a process handle. -/
  | closeProcess (hProcess : HANDLE)
deriving DecidableEq, Repr

/-- The operating system as the job-object functions see it: each oracle
answers a call given the trace so far. -/
structure JobEnv where
  /-- The handle `CreateJobObjectA` returns; 0 when no job object can be allocated. -/
  CreateJobObjectA : List JobEvent → HANDLE
  /-- Whether `SetInformationJobObject` succeeds on the job handle. -/
  SetInformationJobObject : List JobEvent → HANDLE → Bool
  /-- The handle `OpenProcess` returns for the pid; 0 when it cannot be opened. -/
  OpenProcess : List JobEvent → DWORD → HANDLE
  /-- Whether `AssignProcessToJobObject` succeeds on the job and process handles. -/
  AssignProcessToJobObject : List JobEvent → HANDLE → HANDLE → Bool
  /-- Whether `TerminateJobObject` succeeds on the job handle. -/
  TerminateJobObject : List JobEvent → HANDLE → Bool
  /-- Whether `CloseHandle` succeeds on the handle. -/
  CloseHandle : List JobEvent → HANDLE → Bool

/-- The function `create_job_for_process` of `process_manager.cpp`: create an
anonymous job object, ask for kill-on-close, open the process, assign it, and
return the job handle; 0 on the three failure returns.  Returns the value
together with the trace. -/
def create_job_for_process (env : JobEnv) (processId : DWORD) (tr : List JobEvent) :
    HANDLE × List JobEvent :=
  let hJob := env.CreateJobObjectA tr
  let tr1 := tr ++ [JobEvent.createJob hJob]
  if hJob = 0 then (0, tr1)
  else
    let configured := env.SetInformationJobObject tr1 hJob
    let tr2 := tr1 ++ [JobEvent.setInformation hJob configured]
    if !configured then (0, tr2 ++ [JobEvent.closeJob hJob (env.CloseHandle tr2 hJob)])
    else
      let hProcess := env.OpenProcess tr2 processId
      let tr3 := tr2 ++ [JobEvent.openProcess processId hProcess]
      if hProcess = 0 then (0, tr3 ++ [JobEvent.closeJob hJob (env.CloseHandle tr3 hJob)])
      else
        let assigned := env.AssignProcessToJobObject tr3 hJob hProcess
        let tr4 := tr3 ++ [JobEvent.assignProcess hJob hProcess assigned]
        (hJob, tr4 ++ [JobEvent.closeProcess hProcess])

/-- The function `terminate_job` of `process_manager.cpp`: `false` for handle
0, else terminate the job, close the handle and return whether the close
succeeded.  Returns the value together with the trace. -/
def terminate_job (env : JobEnv) (jobHandle : HANDLE) (tr : List JobEvent) :
    Bool × List JobEvent :=
  if jobHandle = 0 then (false, tr)
  else
    let tr1 := tr ++ [JobEvent.terminateJob jobHandle (env.TerminateJobObject tr jobHandle)]
    let closed := env.CloseHandle tr1 jobHandle
    (closed, tr1 ++ [JobEvent.closeJob jobHandle closed])

/-- The handles of `open0` that no successful `CloseHandle` of the trace has closed. -/
def openHandles (open0 : List HANDLE) (tr : List JobEvent) : List HANDLE :=
  open0.filter (fun h => decide (JobEvent.closeJob h true ∉ tr))

/-- A handle table: the handles of `open0` are open at the start, a
successful `CloseHandle` closes a handle for good, and `TerminateJobObject`
and `CloseHandle` succeed exactly on a handle that is open.  Creation,
configuration and assignment are not used by `terminate_job`. -/
def handleTableEnv (open0 : List HANDLE) : JobEnv :=
  ⟨fun _ => 0, fun _ _ => false, fun _ _ => 0, fun _ _ _ => false,
   fun tr h => decide (h ∈ openHandles open0 tr),
   fun tr h => decide (h ∈ openHandles open0 tr)⟩

/-- An operating system whose job-object calls answer the same whatever the
trace: the job handle, whether it can be configured, the process handle,
whether the assignment is accepted, whether `TerminateJobObject` and
`CloseHandle` succeed. -/
def fixedJobEnv (hJob : HANDLE) (configured : Bool) (hProcess : HANDLE)
    (assigned terminated closed : Bool) : JobEnv :=
  ⟨fun _ => hJob, fun _ _ => configured, fun _ _ => hProcess, fun _ _ _ => assigned,
   fun _ _ => terminated, fun _ _ => closed⟩

/-- The job-object calls among the events appended after `tr` that close a
job handle. -/
def jobCloses (tr : List JobEvent) : List HANDLE :=
  tr.filterMap (fun e => match e with
    | JobEvent.closeJob h _ => some h
    | _ => none)

/-! ## Liveness report (`test_kill.cpp`) -/

/-- One call of the liveness check into the operating system, with its outcome. -/
inductive LiveEvent where
  /-- A call `OpenProcess(PROCESS_QUERY_LIMITED_INFORMATION, FALSE, pid)`;
  `ok = false` is a null handle. -/
  | openQuery (pid : DWORD) (ok : Bool)
  /-- A call of `GetExitCodeProcess` on the handle opened for `pid` and the
  value `exitCode` holds after it. -/
  | getExitCode (pid : DWORD) (exitCode : DWORD)
  /-- A call of `CloseHandle` on the handle opened for `pid`. -/
  | closeQuery (pid : DWORD)
deriving DecidableEq, Repr

/-- The operating system as the liveness check sees it: each oracle answers a
call given the trace so far. -/
structure LiveEnv where
  /-- Whether `OpenProcess` with query rights yields a handle for the pid. -/
  OpenProcess : List LiveEvent → DWORD → Bool
  /-- The value the variable `exitCode` holds after `GetExitCodeProcess` on
  the handle of the pid (the result of the call itself is not looked at). -/
  GetExitCodeProcess : List LiveEvent → DWORD → DWORD

/-- The constant `STILL_ACTIVE` of the Windows headers. -/
def STILL_ACTIVE : DWORD := 259

/-- The function `IsProcessAlive` of `test_kill.cpp`: `false` when the process
cannot be opened, else whether its exit code reads `STILL_ACTIVE`.  Returns
the value together with the trace. -/
def IsProcessAlive (env : LiveEnv) (pid : DWORD) (tr : List LiveEvent) :
    Bool × List LiveEvent :=
  if env.OpenProcess tr pid then
    let tr1 := tr ++ [LiveEvent.openQuery pid true]
    let exitCode := env.GetExitCodeProcess tr1 pid
    (decide (exitCode = STILL_ACTIVE),
      tr1 ++ [LiveEvent.getExitCode pid exitCode, LiveEvent.closeQuery pid])
  else (false, tr ++ [LiveEvent.openQuery pid false])

/-- One line `CheckOrphans` prints. -/
inductive Report where
  /-- The line `[ORPHAN!] PID ... is STILL RUNNING`. -/
  | orphan (pid : DWORD)
  /-- The line `[DEAD]    PID ... terminated`. -/
  | dead (pid : DWORD)
  /-- The line `>> n ORPHANS DETECTED <<`. -/
  | orphansDetected (n : Int)
  /-- The line `>> ALL CLEAN - no orphans <<`. -/
  | allClean
deriving DecidableEq, Repr

/-- The loop `for (DWORD pid : pids)` of `CheckOrphans`; the state is the
number of increments of `orphanCount`, the lines printed and the trace. -/
def checkLoop (env : LiveEnv) :
    List DWORD → Nat × List Report × List LiveEvent → Nat × List Report × List LiveEvent
  | [], st => st
  | pid :: rest, st =>
    let alive := IsProcessAlive env pid st.2.2
    if alive.1 then
      checkLoop env rest (st.1 + 1, st.2.1 ++ [Report.orphan pid], alive.2)
    else
      checkLoop env rest (st.1, st.2.1 ++ [Report.dead pid], alive.2)

/-- The function `CheckOrphans` of `test_kill.cpp`: one liveness check and one
line per listed pid, then the summary line, decided by the `int orphanCount`.
Returns the lines printed together with the trace. -/
def CheckOrphans (env : LiveEnv) (pids : List DWORD) (tr : List LiveEvent) :
    List Report × List LiveEvent :=
  let st := checkLoop env pids (0, [], tr)
  let orphanCount := toInt32 st.1
  (st.2.1 ++ [if orphanCount > 0 then Report.orphansDetected orphanCount else Report.allClean],
    st.2.2)

/-- The results of the liveness checks on the listed pids, made in order, each
on the trace the check before it left. -/
def livenessChecks (env : LiveEnv) : List DWORD → List LiveEvent → List Bool
  | [], _ => []
  | pid :: rest, tr =>
    (IsProcessAlive env pid tr).1 :: livenessChecks env rest (IsProcessAlive env pid tr).2

/-- The line for a listed pid, by the result of its liveness check. -/
def reportLine (pid : DWORD) (alive : Bool) : Report :=
  if alive then Report.orphan pid else Report.dead pid

/-- An operating system in which the query rights are granted on the pids of
`openable` and the exit code of a pid reads as `exitCode` says. -/
def fixedLiveEnv (openable : List DWORD) (exitCode : DWORD → DWORD) : LiveEnv :=
  ⟨fun _ pid => decide (pid ∈ openable), fun _ pid => exitCode pid⟩

/-! ## Desktop names (`virtual_desktop_manager.cpp`) -/

/-- The string the loop `for (int i = 1; i <= 10; i++)` of `get_desktop_names`
has built after the turns for `i = 1, ..., n`, started from `result`. -/
def desktopNamesLoop (n : Nat) (result : String) : String :=
  (List.range' 1 n).foldl
    (fun result i =>
      (if i > 1 then result ++ "|" else result) ++ ("Desktop " ++ toString i))
    result

/-- The function `get_desktop_names` of `virtual_desktop_manager.cpp`.  The
buffer `names` is `none` for a null pointer, else the characters it holds;
`strcpy_s` writes the string and its terminating NUL at the front of the
buffer and, as in a release build, leaves what lies behind the NUL as it was.
Returns the value together with the buffer. -/
def get_desktop_names (names : Option (List Char)) (maxLength : Int) :
    Int × Option (List Char) :=
  match names with
  | none => (0, none)
  | some buf =>
    if maxLength < 1 then (0, some buf)
    else
      let result := desktopNamesLoop 10 ""
      if result.length ≥ maxLength.toNat then (0, some buf)
      else
        (toInt32 result.length,
          some (result.toList ++ [Char.ofNat 0] ++ buf.drop (result.length + 1)))

/-! ## A process table that forgets the processes killed -/

/-- The pids on which the trace holds a successful `TerminateProcess`. -/
def killedPids (tr : List Event) : List DWORD :=
  tr.filterMap (fun e => match e with
    | Event.terminateProcess pid true => some pid
    | _ => none)

/-- The records of `snap0` whose process no successful `TerminateProcess` of
the trace has killed. -/
def liveSnap (snap0 : List PROCESSENTRY32) (tr : List Event) : List PROCESSENTRY32 :=
  snap0.filter (fun pe => decide (pe.th32ProcessID ∉ killedPids tr))

/-- An operating system over the process table `snap0` in which a successful
`TerminateProcess` removes the process from every later snapshot and makes it
unopenable; a process not killed can be opened when `canOpen` says so, and
terminating it succeeds when `canKill` says so. -/
def tableEnv (snap0 : List PROCESSENTRY32) (canOpen canKill : DWORD → Bool) : Env :=
  ⟨fun tr => some (liveSnap snap0 tr),
   fun tr pid => canOpen pid && decide (pid ∉ killedPids tr),
   fun _ pid => canKill pid⟩

/-- The pids `n + 1` levels below `root`: its children for `n = 0`, the
children of the pids of level `n` for `n + 1`. -/
def levelBelow (snap : List PROCESSENTRY32) (root : DWORD) : Nat → List DWORD
  | 0 => kids snap root
  | n + 1 => (levelBelow snap root n).flatMap (kids snap)

/-- A shell 1 with the children 2 and 4, of which 2 has the child 3. -/
def forkSnap : List PROCESSENTRY32 :=
  [⟨2, 1⟩, ⟨3, 2⟩, ⟨4, 1⟩]

/-- The table `forkSnap`, every process of which can be opened and terminated. -/
def forkEnv : Env :=
  staticEnv forkSnap (fun _ => true) (fun _ => true)

/-- The number of calls of `CreateToolhelp32Snapshot` in a trace, each one a
separate read of the process table. -/
def snapshotCalls (tr : List Event) : Nat :=
  tr.countP (fun e => match e with
    | Event.snapshot _ => true
    | _ => false)

/-- The second state extends the first by `l` pids and by events that hold
`l.length + c` calls of `CreateToolhelp32Snapshot`. -/
def Reads (c : Nat) (s t : List DWORD × List Event) : Prop :=
  ∃ l evs, t = (s.1 ++ l, s.2 ++ evs) ∧ snapshotCalls evs = l.length + c

/-- The process handles the trace closes, in order. -/
def processCloses (tr : List JobEvent) : List HANDLE :=
  tr.filterMap (fun e => match e with
    | JobEvent.closeProcess h => some h
    | _ => none)

/-- The process handles the trace opened: the non-NULL results of its
`OpenProcess` calls, in order. -/
def processOpens (tr : List JobEvent) : List HANDLE :=
  tr.filterMap (fun e => match e with
    | JobEvent.openProcess _ h => if h = 0 then none else some h
    | _ => none)

/-- The function `IsAlive` of `test_kill_final.cpp`, `test_kill_dll.cpp` and
`test_conpty_tree.cpp`: `false` when the process cannot be opened, else
whether the variable `code` reads `STILL_ACTIVE` after `GetExitCodeProcess`.
Returns the value together with the trace. -/
def IsAlive (env : LiveEnv) (pid : DWORD) (tr : List LiveEvent) :
    Bool × List LiveEvent :=
  if env.OpenProcess tr pid then
    let tr1 := tr ++ [LiveEvent.openQuery pid true]
    let code := env.GetExitCodeProcess tr1 pid
    (decide (code = STILL_ACTIVE),
      tr1 ++ [LiveEvent.getExitCode pid code, LiveEvent.closeQuery pid])
  else (false, tr ++ [LiveEvent.openQuery pid false])

/-- No parent cycle passes through `root`: a record of `root` that names
another pid as its parent does not have that parent among the pids reachable
from `root`.  (A record of `root` that names `root` itself is allowed: no walk
follows it.) -/
def NoCycleThroughRoot (snap : List PROCESSENTRY32) (root : DWORD) : Prop :=
  ∀ pe ∈ snap, pe.th32ProcessID = root → pe.th32ParentProcessID ≠ root →
    ¬ Reachable snap root pe.th32ParentProcessID

/-- The function `GetAllDescendants` of `test_kill_dll.cpp`, whose text is
that of `test_kill_final.cpp`: one snapshot, the stack `toVisit` started as
`{rootPid}`, the same `while` loop.  The state is `(out, trace)`. -/
def GetAllDescendants_kill_dll (env : Env) (fuel : Nat) (rootPid : DWORD)
    (st : List DWORD × List Event) : Option (List DWORD × List Event) :=
  match env.CreateToolhelp32Snapshot st.2 with
  | none => some (st.1, st.2 ++ [Event.snapshot false])
  | some snap =>
    (visitLoop snap rootPid fuel (st.1, [rootPid])).map
      (fun out => (out, st.2 ++ [Event.snapshot true, Event.closeSnapshot]))

/-- The function `GetAllDescendants` of `test_conpty_tree.cpp`.  It differs
from the other two copies in declaring the buffer `pe` inside the `while`
loop; `Process32First` fills the buffer before it is read, so a turn of the
loop is the same `visitStep`.  The state is `(out, trace)`. -/
def GetAllDescendants_conpty_tree (env : Env) (fuel : Nat) (rootPid : DWORD)
    (st : List DWORD × List Event) : Option (List DWORD × List Event) :=
  match env.CreateToolhelp32Snapshot st.2 with
  | none => some (st.1, st.2 ++ [Event.snapshot false])
  | some snap =>
    (visitLoop snap rootPid fuel (st.1, [rootPid])).map
      (fun out => (out, st.2 ++ [Event.snapshot true, Event.closeSnapshot]))

/-- Every pid of the list has a record in the snapshot whose parent is `root`
or stands at an earlier index of the list. -/
def ParentsFirst (snap : List PROCESSENTRY32) (root : DWORD) (l : List DWORD) : Prop :=
  ∀ (i : Nat) (x : DWORD), l[i]? = some x → ∃ pe ∈ snap, pe.th32ProcessID = x ∧
    (pe.th32ParentProcessID = root ∨ ∃ j : Nat, j < i ∧ l[j]? = some pe.th32ParentProcessID)

/-! ## The teardown of `main` (`test_kill.cpp`) -/

/-- One call `main` of `test_kill.cpp` makes into the operating system from
its kill step on, with its outcome. -/
inductive MainEvent where
  /-- A snapshot call or a call on a handle opened with `PROCESS_TERMINATE`. -/
  | os (e : Event)
  /-- A call `TerminateJobObject(hJob, 1)`, with its result. -/
  | terminateJob (ok : Bool)
  /-- The call `CloseHandle(hJob)`. -/
  | closeJob
  /-- The call `ClosePseudoConsole(hPty)` and the closes of the pipe and thread handles. -/
  | closePty
  /-- A call `Sleep(ms)`. -/
  | sleep (ms : Nat)
  /-- A call of the liveness check of `CheckOrphans`. -/
  | live (e : LiveEvent)
deriving DecidableEq, Repr

/-- The operating system as `main` sees it: each oracle answers a call given
the trace so far. -/
structure MainEnv where
  /-- The records `CreateToolhelp32Snapshot` captures; `none` on failure. -/
  CreateToolhelp32Snapshot : List MainEvent → Option (List PROCESSENTRY32)
  /-- Whether `OpenProcess(PROCESS_TERMINATE, FALSE, pid)` yields a handle. -/
  OpenProcess : List MainEvent → DWORD → Bool
  /-- Whether `TerminateProcess` succeeds on the handle of the pid. -/
  TerminateProcess : List MainEvent → DWORD → Bool
  /-- Whether `TerminateJobObject(hJob, 1)` succeeds. -/
  TerminateJobObject : List MainEvent → Bool
  /-- Whether `OpenProcess` with query rights yields a handle for the pid. -/
  OpenQuery : List MainEvent → DWORD → Bool
  /-- The value `exitCode` holds after `GetExitCodeProcess` on the pid. -/
  GetExitCodeProcess : List MainEvent → DWORD → DWORD

/-- The operating system as the tree-kill functions see it when they are
called after the events `pre` of `main`. -/
def treeEnv (m : MainEnv) (pre : List MainEvent) : Env :=
  ⟨fun h => m.CreateToolhelp32Snapshot (pre ++ h.map MainEvent.os),
   fun h pid => m.OpenProcess (pre ++ h.map MainEvent.os) pid,
   fun h pid => m.TerminateProcess (pre ++ h.map MainEvent.os) pid⟩

/-- The operating system as the liveness check sees it when it is called
after the events `pre` of `main`. -/
def liveEnv (m : MainEnv) (pre : List MainEvent) : LiveEnv :=
  ⟨fun h pid => m.OpenQuery (pre ++ h.map MainEvent.live) pid,
   fun h pid => m.GetExitCodeProcess (pre ++ h.map MainEvent.live) pid⟩

/-- Step 6 of `main`, `if (useTreeKill) { KillProcessTree(shellPid); } else
{ TerminateJobObject(hJob, 1); ... }`: in the job branch the result of the
trigger is printed and the shell alone is opened, terminated and closed.
Returns the trace; `none` when `KillProcessTree` runs out of fuel. -/
def killStep (m : MainEnv) (useTreeKill : Bool) (fuel : Nat) (shellPid : DWORD)
    (tr : List MainEvent) : Option (List MainEvent) :=
  if useTreeKill then
    (KillProcessTree (treeEnv m tr) fuel shellPid []).map
      (fun r => tr ++ r.2.map MainEvent.os)
  else
    let terminated := m.TerminateJobObject tr
    let tr1 := tr ++ [MainEvent.terminateJob terminated]
    if m.OpenProcess tr1 shellPid then
      let tr2 := tr1 ++ [MainEvent.os (Event.openProcess shellPid true)]
      some (tr2 ++ [MainEvent.os (Event.terminateProcess shellPid
          (m.TerminateProcess tr2 shellPid)),
        MainEvent.os (Event.closeProcess shellPid)])
    else some (tr1 ++ [MainEvent.os (Event.openProcess shellPid false)])

/-- The last loop of `main`, `for (DWORD pid : descendants)`: open each pid
and, when that gives a handle, terminate it and close the handle. -/
def cleanupLoop (env : Env) : List DWORD → List Event → List Event
  | [], tr => tr
  | pid :: rest, tr =>
    if env.OpenProcess tr pid then
      let tr1 := tr ++ [Event.openProcess pid true]
      cleanupLoop env rest
        (tr1 ++ [Event.terminateProcess pid (env.TerminateProcess tr1 pid),
          Event.closeProcess pid])
    else cleanupLoop env rest (tr ++ [Event.openProcess pid false])

/-- The function `main` of `test_kill.cpp` from its kill step on, with the
vector `descendants` it resolved at step 5: the kill step, the closes, the
wait, the orphan report, the clean-up loop.  Returns the lines of the report
together with the trace. -/
def main_teardown (m : MainEnv) (useTreeKill : Bool) (fuel : Nat) (shellPid : DWORD)
    (descendants : List DWORD) (tr : List MainEvent) :
    Option (List Report × List MainEvent) :=
  match killStep m useTreeKill fuel shellPid tr with
  | none => none
  | some tr1 =>
    let tr2 := tr1 ++ [MainEvent.closeJob, MainEvent.closePty, MainEvent.sleep 1000]
    let report := CheckOrphans (liveEnv m tr2) descendants []
    let tr3 := tr2 ++ report.2.map MainEvent.live
    some (report.1, tr3 ++ (cleanupLoop (treeEnv m tr3) descendants []).map MainEvent.os)

/-- An operating system for `main` with the table `[(2, 1), (3, 2)]`, in which
the job holds no process (its trigger answers `terminated` and kills
nothing), every process can be opened and terminated, and a process reads
`STILL_ACTIVE` until a `TerminateProcess` on it has succeeded. -/
def escapedEnv (terminated : Bool) : MainEnv :=
  ⟨fun _ => some [⟨2, 1⟩, ⟨3, 2⟩], fun _ _ => true, fun _ _ => true, fun _ => terminated,
   fun _ _ => true,
   fun tr pid =>
     if MainEvent.os (Event.terminateProcess pid true) ∈ tr then 1 else STILL_ACTIVE⟩

/-! ## Window enumeration (`virtual_desktop_manager.cpp`) -/

/-- A window handle. -/
abbrev HWND := Nat

/-- The Windows structure `RECT`. -/
structure RECT where
  left : Int
  top : Int
  right : Int
  bottom : Int
deriving DecidableEq, Repr

/-- The structure `WindowData` of `virtual_desktop_manager.h`; `title` holds
the characters before the terminating NUL. -/
structure WindowData where
  title : List Char
  x : Int
  y : Int
  width : Int
  height : Int
  hwnd : HWND
deriving DecidableEq, Repr

/-- A top-level window as the operating system hands it to the callback: its
handle and the answers to the four calls the callback makes on it. -/
structure TopWindow where
  hwnd : HWND
  /-- The answer of `IsWindowVisible`. -/
  IsWindowVisible : Bool
  /-- The answer of `GetWindowTextLength`. -/
  GetWindowTextLength : Int
  /-- The rectangle `GetWindowRect` stores; `none` when the call fails. -/
  GetWindowRect : Option RECT
  /-- The title text `GetWindowTextA` copies from. -/
  GetWindowTextA : List Char
deriving DecidableEq, Repr

/-- The structure `EnumWindowsData`.  The array behind the pointer `windows`
is kept as the list of the stores made through it, `(index, entry)`, in order. -/
structure EnumWindowsData where
  windows : List (Int × WindowData)
  maxWindows : Int
  currentCount : Int
deriving DecidableEq, Repr

/-- A value of 32-bit `int` arithmetic: reduction modulo `2^32` into the
signed range. -/
def wrapInt32 (z : Int) : Int :=
  (z + 2 ^ 31) % 2 ^ 32 - 2 ^ 31

/-- The function `EnumWindowsCallback` of `virtual_desktop_manager.cpp`: `FALSE` once `currentCount`
has reached `maxWindows`; a window that is invisible, has text length 0 or
whose rectangle cannot be read is passed over; else the entry
`windows[currentCount]` is stored (`GetWindowTextA` copies at most 255
characters into `title[256]`) and `currentCount` is incremented.  Returns the
`BOOL` together with the data. -/
def EnumWindowsCallback (w : TopWindow) (data : EnumWindowsData) :
    Bool × EnumWindowsData :=
  if data.currentCount ≥ data.maxWindows then (false, data)
  else if w.IsWindowVisible = false ∨ w.GetWindowTextLength = 0 then (true, data)
  else
    match w.GetWindowRect with
    | none => (true, data)
    | some rect =>
      let window : WindowData :=
        ⟨w.GetWindowTextA.take 255, rect.left, rect.top,
          wrapInt32 (rect.right - rect.left), wrapInt32 (rect.bottom - rect.top), w.hwnd⟩
      (true, ⟨data.windows ++ [(data.currentCount, window)], data.maxWindows,
        wrapInt32 (data.currentCount + 1)⟩)

/-- The call `EnumWindows(EnumWindowsCallback, &data)` over the top-level
windows `top`: the callback is called on each window in turn until it returns
`FALSE`.  Returns the data together with the handles the callback was called on. -/
def EnumWindows : List TopWindow → EnumWindowsData → EnumWindowsData × List HWND
  | [], data => (data, [])
  | w :: rest, data =>
    let r := EnumWindowsCallback w data
    if r.1 then
      let q := EnumWindows rest r.2
      (q.1, w.hwnd :: q.2)
    else (r.2, [w.hwnd])

/-- The function `enumerate_windows` of `virtual_desktop_manager.cpp`; `windows` is `none` for a
null pointer, else the caller's array.  Returns the value, the stores made
into the array and, when `EnumWindows` was called, the handles the callback
was called on. -/
def enumerate_windows (windows : Option (List WindowData)) (maxWindows : Int)
    (top : List TopWindow) : Int × List (Int × WindowData) × Option (List HWND) :=
  if windows = none ∨ maxWindows ≤ 0 then (0, [], none)
  else
    let r := EnumWindows top ⟨[], maxWindows, 0⟩
    (r.1.currentCount, r.1.windows, some r.2)

/-- Three top-level windows: a visible titled one, a hidden one, and a second
visible titled one. -/
def sampleWindows : List TopWindow :=
  [⟨11, true, 4, some ⟨0, 0, 800, 600⟩, "edit".toList⟩,
   ⟨12, false, 3, some ⟨0, 0, 10, 10⟩, "bar".toList⟩,
   ⟨13, true, 5, some ⟨10, 20, 110, 70⟩, "shell".toList⟩]

/-- The store `e` records a window of `top` that is visible, has a text
length other than 0 and a readable rectangle, with the corner of that
rectangle and the title cut to 255 characters. -/
def Recorded (top : List TopWindow) (e : Int × WindowData) : Prop :=
  ∃ w ∈ top, e.2.hwnd = w.hwnd ∧ w.IsWindowVisible = true ∧ w.GetWindowTextLength ≠ 0 ∧
    ∃ rect, w.GetWindowRect = some rect ∧ e.2.x = rect.left ∧ e.2.y = rect.top ∧
      e.2.title = w.GetWindowTextA.take 255

/-! ## Launching and positioning (`process_manager.cpp`) -/

/-- A top-level window as the operating system hands it to the callbacks of
`process_manager.cpp`: its handle and the answers to the calls they make on it. -/
structure ProcWindow where
  hwnd : HWND
  /-- The process id `GetWindowThreadProcessId` stores. -/
  processId : DWORD
  /-- The answer of `IsWindowVisible`. -/
  IsWindowVisible : Bool
  /-- The title text `GetWindowTextA` copies from. -/
  title : List Char
  /-- The class name `GetClassNameA` copies from. -/
  className : List Char
deriving DecidableEq, Repr

/-- One call of the launch functions into the operating system, with its outcome. -/
inductive WinEvent where
  /-- A call of `CreateProcessA` with the command line and the working
  directory, and the process id it gave (`none` on failure). -/
  | createProcess (command : String) (working_dir : Option String) (pid : Option DWORD)
  /-- The calls `CloseHandle(pi.hProcess)` and `CloseHandle(pi.hThread)`. -/
  | closeProcessHandles
  /-- A call `Sleep(ms)`. -/
  | sleep (ms : Nat)
  /-- A call of `EnumWindows`, one poll, with the window it found (0 for none). -/
  | enumWindows (found : HWND)
  /-- A call of `IsWindow`, with its result. -/
  | isWindow (hwnd : HWND) (ok : Bool)
  /-- A call of `SetWindowPos`. -/
  | setWindowPos (hwnd : HWND) (x y width height : Int)
  /-- The calls `SetForegroundWindow(hwnd)` and `SetFocus(hwnd)`. -/
  | setFocus (hwnd : HWND)
  /-- A call of `keybd_event` with the virtual key; `keyUp` for `KEYEVENTF_KEYUP`. -/
  | keybd (virtualKey : Nat) (keyUp : Bool)
deriving DecidableEq, Repr

/-- The operating system as the launch functions see it: each oracle answers
a call given the trace so far. -/
structure WinEnv where
  /-- The process id `CreateProcessA` stores for the command line and working
  directory; `none` when it fails. -/
  CreateProcessA : List WinEvent → String → Option String → Option DWORD
  /-- The top-level windows `EnumWindows` passes to its callback, in order. -/
  EnumWindows : List WinEvent → List ProcWindow
  /-- Whether `IsWindow` holds of the handle. -/
  IsWindow : List WinEvent → HWND → Bool
  /-- Whether `SetWindowPos` succeeds on the handle. -/
  SetWindowPos : List WinEvent → HWND → Bool
  /-- The `SHORT` that `VkKeyScanA` returns for the `char` (a byte), as a
  16-bit word. -/
  VkKeyScanA : Nat → Nat

/-- The conversion of an `int` to a `DWORD`: reduction modulo `2^32`. -/
def toDWORD (z : Int) : DWORD :=
  (z % 2 ^ 32).toNat

/-- The function `FindWindowByProcessAndTitle` of `process_manager.cpp` over
the windows `EnumWindows` passes to its callback: a window of another process,
an invisible one, one for which `GetWindowTextA` copies nothing (it copies at
most 255 characters into `title[256]`) and one whose title does not contain
the fragment are passed over; the first other one is returned, 0 (`NULL`)
when there is none.  The fragment is `none` for a null pointer. -/
def FindWindowByProcessAndTitle (processId : DWORD) (titleFragment : Option (List Char)) :
    List ProcWindow → HWND
  | [] => 0
  | w :: rest =>
    if w.processId ≠ processId then
      FindWindowByProcessAndTitle processId titleFragment rest
    else if w.IsWindowVisible = false then
      FindWindowByProcessAndTitle processId titleFragment rest
    else if (w.title.take 255).length = 0 then
      FindWindowByProcessAndTitle processId titleFragment rest
    else
      match titleFragment with
      | none => w.hwnd
      | some fragment =>
        if fragment <:+: w.title.take 255 then w.hwnd
        else FindWindowByProcessAndTitle processId titleFragment rest

/-- The function `execute_command` of `process_manager.cpp`: on success close
the two handles and return the process id as an `int`, else return 0.  (The
parameters `x`, `y`, `width`, `height` are not used by the function.)
Returns the value together with the trace. -/
def execute_command (env : WinEnv) (command : String) (working_dir : Option String)
    (tr : List WinEvent) : Int × List WinEvent :=
  match env.CreateProcessA tr command working_dir with
  | some pid =>
    (toInt32 pid,
      tr ++ [WinEvent.createProcess command working_dir (some pid),
        WinEvent.closeProcessHandles])
  | none => (0, tr ++ [WinEvent.createProcess command working_dir none])

/-- The loop `while (attempts < maxAttempts && targetWindow == NULL)` of
`execute_command_with_positioning`; the argument is `maxAttempts - attempts`,
the state is `(targetWindow, trace)`. -/
def positioningLoop (env : WinEnv) (processId : DWORD)
    (windowTitleFragment : Option (List Char)) :
    Nat → HWND × List WinEvent → HWND × List WinEvent
  | 0, st => st
  | n + 1, st =>
    if st.1 ≠ 0 then st
    else
      let tr1 := st.2 ++ [WinEvent.sleep 100]
      let targetWindow :=
        FindWindowByProcessAndTitle processId windowTitleFragment (env.EnumWindows tr1)
      positioningLoop env processId windowTitleFragment n
        (targetWindow, tr1 ++ [WinEvent.enumWindows targetWindow])

/-- The function `execute_command_with_positioning` of `process_manager.cpp`:
launch, return 0 when that gave 0, else poll every 100 ms for the window, at
most `timeoutMs / 100` times, position the window when one was found and the
coordinates are valid, and return the process id.  Returns the value together
with the trace. -/
def execute_command_with_positioning (env : WinEnv) (command : String)
    (working_dir : Option String) (x y width height : Int)
    (windowTitleFragment : Option (List Char)) (timeoutMs : Int) (tr : List WinEvent) :
    Int × List WinEvent :=
  let launched := execute_command env command working_dir tr
  let processId : DWORD := toDWORD launched.1
  if processId = 0 then (0, launched.2)
  else
    let maxAttempts : Int := Int.tdiv timeoutMs 100
    let st := positioningLoop env processId windowTitleFragment maxAttempts.toNat
      (0, launched.2)
    if st.1 ≠ 0 ∧ x ≥ 0 ∧ y ≥ 0 ∧ width > 0 ∧ height > 0 then
      (toInt32 processId, st.2 ++ [WinEvent.setWindowPos st.1 x y width height])
    else (toInt32 processId, st.2)

/-- The windows the polls of the trace found, in order (0 for none). -/
def pollResults (tr : List WinEvent) : List HWND :=
  tr.filterMap (fun e => match e with
    | WinEvent.enumWindows found => some found
    | _ => none)

/-- An operating system in which every launch gives process 4242, whose
window 77 titled `project - editor` shows up at the third poll. -/
def slowWindowEnv : WinEnv :=
  ⟨fun _ _ _ => some 4242,
   fun tr => if (pollResults tr).length < 2 then []
     else [⟨70, 1000, true, "other".toList, "X".toList⟩,
           ⟨77, 4242, true, "project - editor".toList, "X".toList⟩],
   fun _ _ => true, fun _ _ => true, fun _ => 0⟩

/-! ## The SSH session (`process_manager.cpp`) -/

/-- The virtual-key code `VK_RETURN`. -/
def VK_RETURN : Nat := 13

/-- The virtual-key code `VK_SHIFT`. -/
def VK_SHIFT : Nat := 16

/-- The one-character string of a carriage return. -/
def carriageReturn : String := String.singleton (Char.ofNat 13)

/-- The function `position_window_by_hwnd` of `process_manager.cpp`: `false`
when the handle is no window, else whether `SetWindowPos` succeeded.  Returns
the value together with the trace. -/
def position_window_by_hwnd (env : WinEnv) (hwnd : HWND) (x y width height : Int)
    (tr : List WinEvent) : Bool × List WinEvent :=
  if env.IsWindow tr hwnd then
    let tr1 := tr ++ [WinEvent.isWindow hwnd true]
    (env.SetWindowPos tr1 hwnd, tr1 ++ [WinEvent.setWindowPos hwnd x y width height])
  else (false, tr ++ [WinEvent.isWindow hwnd false])

/-- The bytes `text[0]`, ..., `text[strlen(text) - 1]` of the C string that
holds the text: its UTF-8 encoding up to the first NUL. -/
def cStringBytes (text : String) : List Nat :=
  (text.toList.flatMap (fun c => (String.utf8EncodeChar c).map UInt8.toNat)).takeWhile
    (fun b => decide (b ≠ 0))

/-- The loop `for (size_t i = 0; i < len; i++)` of `send_text_to_window` over
the bytes `char c = text[i]` of the text: Enter for a carriage return (13) or
a line feed (10), else the key `VkKeyScanA` names, inside a Shift press when
bit 0 of its high byte is set; `Sleep(10)` after each byte. -/
def keystrokes (env : WinEnv) : List Nat → List WinEvent → List WinEvent
  | [], tr => tr
  | c :: rest, tr =>
    if c = 13 ∨ c = 10 then
      keystrokes env rest
        (tr ++ [WinEvent.keybd VK_RETURN false, WinEvent.keybd VK_RETURN true,
          WinEvent.sleep 10])
    else
      let vk := env.VkKeyScanA c
      let virtualKey := vk % 256
      let shiftState := vk / 256 % 256
      if shiftState % 2 = 1 then
        keystrokes env rest
          (tr ++ [WinEvent.keybd VK_SHIFT false, WinEvent.keybd virtualKey false,
            WinEvent.keybd virtualKey true, WinEvent.keybd VK_SHIFT true, WinEvent.sleep 10])
      else
        keystrokes env rest
          (tr ++ [WinEvent.keybd virtualKey false, WinEvent.keybd virtualKey true,
            WinEvent.sleep 10])

/-- The function `send_text_to_window` of `process_manager.cpp`: `false` when
the handle is no window, else focus the window, wait, and send the text byte
by byte.  Returns the value together with the trace. -/
def send_text_to_window (env : WinEnv) (hwnd : HWND) (text : String)
    (tr : List WinEvent) : Bool × List WinEvent :=
  if env.IsWindow tr hwnd then
    (true, keystrokes env (cStringBytes text)
      (tr ++ [WinEvent.isWindow hwnd true, WinEvent.setFocus hwnd, WinEvent.sleep 100]))
  else (false, tr ++ [WinEvent.isWindow hwnd false])

/-- The function `find_cmd_window_by_title_fragment` of `process_manager.cpp`
over the windows `EnumWindows` passes to its callback: the first visible
window with a title, of class `ConsoleWindowClass` or
`CASCADIA_HOSTING_WINDOW_CLASS`, whose title contains the fragment; 0 (`NULL`)
when there is none. -/
def find_cmd_window_by_title_fragment (fragment : Option (List Char)) :
    List ProcWindow → HWND
  | [] => 0
  | w :: rest =>
    if w.IsWindowVisible = false then find_cmd_window_by_title_fragment fragment rest
    else if (w.title.take 255).length = 0 then
      find_cmd_window_by_title_fragment fragment rest
    else if w.className.take 255 = "ConsoleWindowClass".toList ∨
        w.className.take 255 = "CASCADIA_HOSTING_WINDOW_CLASS".toList then
      match fragment with
      | none => w.hwnd
      | some f =>
        if f <:+: w.title.take 255 then w.hwnd
        else find_cmd_window_by_title_fragment fragment rest
    else find_cmd_window_by_title_fragment fragment rest

/-- The loop `while (attempts < 50 && cmdWindow == NULL)` of
`execute_ssh_session`; the argument is `50 - attempts`, the state is
`(cmdWindow, trace)`. -/
def sshWaitLoop (env : WinEnv) : Nat → HWND × List WinEvent → HWND × List WinEvent
  | 0, st => st
  | n + 1, st =>
    if st.1 ≠ 0 then st
    else
      let cmdWindow :=
        find_cmd_window_by_title_fragment (some "cmd".toList) (env.EnumWindows st.2)
      let tr1 := st.2 ++ [WinEvent.enumWindows cmdWindow]
      if cmdWindow = 0 then sshWaitLoop env n (0, tr1 ++ [WinEvent.sleep 100])
      else (cmdWindow, tr1)

/-- The function `execute_ssh_session` of `process_manager.cpp`: build the
command line, launch it, return 0 when that gave 0; else wait for a console
window (returning the process id when none shows up), position it when the
coordinates are valid, and type the password, the `cd` and the remote command,
each ended by a carriage return.  `remote_dir` and `remote_command` are `none`
for a null pointer.  Returns the value together with the trace. -/
def execute_ssh_session (env : WinEnv) (host username password : String) (port : Int)
    (remote_dir remote_command : Option String) (x y width height : Int)
    (tr : List WinEvent) : Int × List WinEvent :=
  let sshCommand := "ssh "
  let sshCommand := if port ≠ 22 then sshCommand ++ ("-p " ++ toString port ++ " ")
    else sshCommand
  let sshCommand := sshCommand ++ (username ++ "@" ++ host)
  let fullCommand := "cmd /k " ++ sshCommand
  let launched := execute_command env fullCommand none tr
  let processId : DWORD := toDWORD launched.1
  if processId = 0 then (0, launched.2)
  else
    let st := sshWaitLoop env 50 (0, launched.2 ++ [WinEvent.sleep 1000])
    if st.1 = 0 then (toInt32 processId, st.2)
    else
      let tr2 := if x ≥ 0 ∧ y ≥ 0 ∧ width > 0 ∧ height > 0 then
          (position_window_by_hwnd env st.1 x y width height st.2).2
        else st.2
      let tr3 := tr2 ++ [WinEvent.sleep 3000]
      let tr4 := (send_text_to_window env st.1 (password ++ carriageReturn) tr3).2
      let tr5 := tr4 ++ [WinEvent.sleep 2000]
      let tr6 := match remote_dir with
        | none => tr5
        | some dir =>
          if dir.length > 0 then
            (send_text_to_window env st.1 ("cd " ++ dir ++ carriageReturn) tr5).2
              ++ [WinEvent.sleep 500]
          else tr5
      let tr7 := match remote_command with
        | none => tr6
        | some cmd =>
          if cmd.length > 0 then
            (send_text_to_window env st.1 (cmd ++ carriageReturn) tr6).2
          else tr6
      (toInt32 processId, tr7)

/-- The command lines of the `CreateProcessA` calls of the trace, in order. -/
def launches (tr : List WinEvent) : List String :=
  tr.filterMap (fun e => match e with
    | WinEvent.createProcess command _ _ => some command
    | _ => none)

/-- The keys of the `keybd_event` calls of the trace, in order. -/
def keyEvents (tr : List WinEvent) : List (Nat × Bool) :=
  tr.filterMap (fun e => match e with
    | WinEvent.keybd virtualKey keyUp => some (virtualKey, keyUp)
    | _ => none)

/-- An operating system in which every launch gives process 4242 and a console
window 90 titled `cmd.exe - ssh` is up; every byte maps to key 65. -/
def consoleEnv : WinEnv :=
  ⟨fun _ _ _ => some 4242,
   fun _ => [⟨90, 4242, true, "cmd.exe - ssh".toList, "ConsoleWindowClass".toList⟩],
   fun _ _ => true, fun _ _ => true, fun _ => 65⟩

/-- The trace `b` extends the trace `a` by events that launch nothing. -/
def After (a b : List WinEvent) : Prop :=
  ∃ evs, b = a ++ evs ∧ launches evs = []

/-! ## The attempts of a sweep -/

/-- The calls of one terminate attempt on a pid: the `OpenProcess` call and,
when it gave a handle (`some ok`), the `TerminateProcess` call with its
result `ok` and the `CloseHandle`; a failed open (`none`) ends the attempt. -/
def attemptEvents (a : DWORD × Option Bool) : List Event :=
  match a.2 with
  | none => [Event.openProcess a.1 false]
  | some ok =>
    [Event.openProcess a.1 true, Event.terminateProcess a.1 ok, Event.closeProcess a.1]

/-- The terminate attempts on the pids of the list, made one after the other
in list order from the trace `tr` on: each pid with `none` when `OpenProcess`
refuses it and with the result of `TerminateProcess` when it opens. -/
def attemptOutcomes (env : Env) : List DWORD → List Event → List (DWORD × Option Bool)
  | [], _ => []
  | pid :: rest, tr =>
    if env.OpenProcess tr pid then
      (pid, some (env.TerminateProcess (tr ++ [Event.openProcess pid true]) pid)) ::
        attemptOutcomes env rest
          (tr ++ [Event.openProcess pid true] ++
            [Event.terminateProcess pid
              (env.TerminateProcess (tr ++ [Event.openProcess pid true]) pid),
             Event.closeProcess pid])
    else (pid, none) :: attemptOutcomes env rest (tr ++ [Event.openProcess pid false])

/-- A process table that changes during the resolution.  Pid reuse has left
the cycle of `cyclicSnap` (the root 1 names 2 as its parent, and 2 is a child
of 1); the first two captures show it, and before the third capture process 2
has exited, so that capture shows the record of 1 alone.  Every process can
be opened and terminated. -/
def racingEnv : Env :=
  ⟨fun h => if snapshotCalls h < 2 then some cyclicSnap else some [⟨1, 2⟩],
   fun _ _ => true, fun _ _ => true⟩

/-! ## Lemmas on the recursive walk -/

theorem foldlM_ite_filter {α σ : Type} (P : α → Prop) [DecidablePred P]
    (g : σ → α → Option σ) (l : List α) :
    ∀ s, l.foldlM (fun s a => if P a then g s a else some s) s
      = (l.filter (fun a => decide (P a))).foldlM g s := by
  induction l with
  | nil => intro s; rfl
  | cons a l ih =>
    intro s
    by_cases h : P a
    · simp only [List.foldlM_cons, h, if_true, List.filter_cons, decide_True]
      cases g s a with
      | none => rfl
      | some s1 => simpa using ih s1
    · simp only [List.foldlM_cons, h, if_false, List.filter_cons, decide_False]
      simpa using ih s

theorem foldlM_calls (G : DWORD → List DWORD × List Event → Option (List DWORD × List Event))
    (ok : DWORD → Bool) (res : DWORD → List DWORD) (evs : DWORD → List Event)
    (cs : List DWORD)
    (h : ∀ c ∈ cs, ∀ out tr, G c (out, tr)
        = if ok c then some (out ++ res c, tr ++ evs c) else none) :
    ∀ out tr, cs.foldlM (fun s c => G c s) (out, tr)
      = if cs.all ok then some (out ++ cs.flatMap res, tr ++ cs.flatMap evs) else none := by
  induction cs with
  | nil => intro out tr; simp
  | cons c cs ih =>
    intro out tr
    have hc := h c (List.mem_cons_self _ _) out tr
    have ih1 := ih (fun d hd => h d (List.mem_cons_of_mem _ hd))
    simp only [List.foldlM_cons, hc]
    cases hok : ok c with
    | false => simp [hok]
    | true =>
      simp only [if_true, Option.bind_eq_bind, Option.some_bind, ih1, List.all_cons, hok,
        Bool.true_and, List.flatMap_cons, List.append_assoc]

theorem GetDescendants_unfold (env : Env) (snap : List PROCESSENTRY32)
    (hstatic : ∀ h, env.CreateToolhelp32Snapshot h = some snap)
    (fuel : Nat) (p : DWORD) (out : List DWORD) (tr : List Event) :
    GetDescendants env (fuel + 1) p (out, tr)
      = ((kids snap p).foldlM
          (fun s c => GetDescendants env fuel c (s.1 ++ [c], s.2))
          (out, tr ++ [Event.snapshot true])).map
          (fun s => (s.1, s.2 ++ [Event.closeSnapshot])) := by
  rw [GetDescendants]
  simp only [hstatic]
  rw [foldlM_ite_filter
    (fun pe : PROCESSENTRY32 => pe.th32ParentProcessID = p ∧ pe.th32ProcessID ≠ p)
    (fun s pe => GetDescendants env fuel pe.th32ProcessID (s.1 ++ [pe.th32ProcessID], s.2))]
  rw [kids, List.foldlM_map]

/-- Over a process table that stays `snap`, a call of `GetDescendants` returns
exactly when the tree below `p` is no deeper than the fuel, and then appends
the depth-first preorder of that tree. -/
theorem GetDescendants_static (env : Env) (snap : List PROCESSENTRY32)
    (hstatic : ∀ h, env.CreateToolhelp32Snapshot h = some snap) :
    ∀ (fuel : Nat) (p : DWORD) (out : List DWORD) (tr : List Event),
      GetDescendants env (fuel + 1) p (out, tr)
        = if complete snap fuel p then
            some (out ++ dfs snap fuel p, tr ++ dfsTrace snap fuel p)
          else none := by
  intro fuel
  induction fuel with
  | zero =>
    intro p out tr
    rw [GetDescendants_unfold env snap hstatic]
    have := foldlM_calls (fun c s => GetDescendants env 0 c (s.1 ++ [c], s.2))
      (fun _ => false) (fun _ => []) (fun _ => []) (kids snap p)
      (by intro c _ out tr; simp [GetDescendants]) out (tr ++ [Event.snapshot true])
    rw [this]
    cases hk : kids snap p with
    | nil => simp [complete, dfs, dfsTrace, hk]
    | cons c cs => simp [complete, hk]
  | succ n ih =>
    intro p out tr
    rw [GetDescendants_unfold env snap hstatic]
    have := foldlM_calls (fun c s => GetDescendants env (n + 1) c (s.1 ++ [c], s.2))
      (complete snap n) (fun c => c :: dfs snap n c) (dfsTrace snap n) (kids snap p)
      (by
        intro c _ out tr
        simp only [ih c (out ++ [c]) tr]
        by_cases hc : complete snap n c = true <;> simp [hc])
      out (tr ++ [Event.snapshot true])
    rw [this]
    by_cases hc : (kids snap p).all (complete snap n) = true
    · simp [complete, dfs, dfsTrace, hc]
    · simp [complete, hc]

/-! ## Lemmas on the depth-first order -/

theorem mem_kids {snap : List PROCESSENTRY32} {p c : DWORD} :
    c ∈ kids snap p ↔
      ∃ pe ∈ snap, pe.th32ProcessID = c ∧ pe.th32ParentProcessID = p ∧ c ≠ p := by
  simp only [kids, List.mem_map, List.mem_filter, decide_eq_true_eq]
  constructor
  · rintro ⟨pe, ⟨hmem, hpar, hne⟩, rfl⟩
    exact ⟨pe, hmem, rfl, hpar, hne⟩
  · rintro ⟨pe, hmem, rfl, hpar, hne⟩
    exact ⟨pe, ⟨hmem, hpar, hne⟩, rfl⟩

theorem mem_kidsOf {snap : List PROCESSENTRY32} {root p c : DWORD} :
    c ∈ kidsOf snap root p ↔
      ∃ pe ∈ snap, pe.th32ProcessID = c ∧ pe.th32ParentProcessID = p ∧ c ≠ root := by
  simp only [kidsOf, List.mem_map, List.mem_filter, decide_eq_true_eq]
  constructor
  · rintro ⟨pe, ⟨hmem, hpar, hne⟩, rfl⟩
    exact ⟨pe, hmem, rfl, hpar, hne⟩
  · rintro ⟨pe, hmem, rfl, hpar, hne⟩
    exact ⟨pe, ⟨hmem, hpar, hne⟩, rfl⟩

theorem mem_dfs_succ {snap : List PROCESSENTRY32} {n : Nat} {p x : DWORD} :
    x ∈ dfs snap (n + 1) p ↔ ∃ c ∈ kids snap p, x = c ∨ x ∈ dfs snap n c := by
  simp [dfs, List.mem_flatMap]

theorem complete_succ_iff {snap : List PROCESSENTRY32} {n : Nat} {p : DWORD} :
    complete snap (n + 1) p = true ↔ ∀ c ∈ kids snap p, complete snap n c = true := by
  simp [complete, List.all_eq_true]

theorem complete_zero_iff {snap : List PROCESSENTRY32} {p : DWORD} :
    complete snap 0 p = true ↔ kids snap p = [] := by
  simp [complete, List.isEmpty_iff]

theorem complete_succ {snap : List PROCESSENTRY32} :
    ∀ (n : Nat) (p : DWORD), complete snap n p = true → complete snap (n + 1) p = true := by
  intro n
  induction n with
  | zero =>
    intro p h
    rw [complete_zero_iff] at h
    rw [complete_succ_iff, h]
    intro c hc
    cases hc
  | succ n ih =>
    intro p h
    rw [complete_succ_iff] at h ⊢
    intro c hc
    exact ih c (h c hc)

theorem complete_mono {snap : List PROCESSENTRY32} {n m : Nat} {p : DWORD}
    (hnm : n ≤ m) (h : complete snap n p = true) : complete snap m p = true := by
  induction hnm with
  | refl => exact h
  | step _ ih => exact complete_succ _ p ih

theorem dfs_succ_of_complete {snap : List PROCESSENTRY32} :
    ∀ (n : Nat) (p : DWORD), complete snap n p = true → dfs snap (n + 1) p = dfs snap n p := by
  intro n
  induction n with
  | zero =>
    intro p h
    rw [complete_zero_iff] at h
    simp [dfs, h]
  | succ n ih =>
    intro p h
    rw [complete_succ_iff] at h
    rw [dfs, dfs]
    apply List.flatMap_congr
    intro c hc
    rw [ih c (h c hc)]

theorem dfs_of_complete_le {snap : List PROCESSENTRY32} {n m : Nat} {p : DWORD}
    (hnm : n ≤ m) (h : complete snap n p = true) : dfs snap m p = dfs snap n p := by
  induction hnm with
  | refl => rfl
  | step hle ih => rw [dfs_succ_of_complete _ p (complete_mono hle h), ih]

/-- A pid listed below `p` sits strictly less deep above the leaves than `p`. -/
theorem complete_of_mem_dfs {snap : List PROCESSENTRY32} :
    ∀ (f : Nat) (p x : DWORD), x ∈ dfs snap f p →
      ∀ g, complete snap g p = true → ∃ g1, g1 < g ∧ complete snap g1 x = true := by
  intro f
  induction f with
  | zero => intro p x hx; simp [dfs] at hx
  | succ f ih =>
    intro p x hx g hg
    obtain ⟨c, hc, hxc⟩ := mem_dfs_succ.mp hx
    cases g with
    | zero =>
      rw [complete_zero_iff] at hg
      rw [hg] at hc
      cases hc
    | succ g =>
      rw [complete_succ_iff] at hg
      rcases hxc with rfl | hxc
      · exact ⟨g, Nat.lt_succ_self g, hg x hc⟩
      · obtain ⟨g1, hlt, hcomp⟩ := ih c x hxc g (hg c hc)
        exact ⟨g1, Nat.lt_succ_of_lt hlt, hcomp⟩

/-- A pid whose tree is finite is not its own descendant. -/
theorem not_mem_dfs_self {snap : List PROCESSENTRY32} :
    ∀ (g : Nat) (p : DWORD), complete snap g p = true → ∀ f, p ∉ dfs snap f p := by
  intro g
  induction g using Nat.strong_induction_on with
  | _ g ih =>
    intro p hg f hmem
    obtain ⟨g1, hlt, hcomp⟩ := complete_of_mem_dfs f p p hmem g hg
    exact ih g1 hlt p hcomp f hmem

theorem dfs_sub_succ {snap : List PROCESSENTRY32} {n : Nat} {p c x : DWORD}
    (hc : c ∈ kids snap p) (hx : x = c ∨ x ∈ dfs snap n c) : x ∈ dfs snap (n + 1) p :=
  mem_dfs_succ.mpr ⟨c, hc, hx⟩

/-- Every listed pid has a record whose parent is `a` or is listed too. -/
theorem record_of_mem_dfs {snap : List PROCESSENTRY32} :
    ∀ (f : Nat) (a x : DWORD), x ∈ dfs snap (f + 1) a →
      ∃ pe ∈ snap, pe.th32ProcessID = x ∧ pe.th32ParentProcessID ≠ x ∧
        (pe.th32ParentProcessID = a ∨ pe.th32ParentProcessID ∈ dfs snap f a) := by
  intro f
  induction f with
  | zero =>
    intro a x hx
    obtain ⟨c, hc, hxc⟩ := mem_dfs_succ.mp hx
    rcases hxc with rfl | hxc
    · obtain ⟨pe, hmem, hpid, hpar, hne⟩ := mem_kids.mp hc
      exact ⟨pe, hmem, hpid, by rw [hpar]; exact fun h => hne h.symm, Or.inl hpar⟩
    · simp [dfs] at hxc
  | succ f ih =>
    intro a x hx
    obtain ⟨c, hc, hxc⟩ := mem_dfs_succ.mp hx
    rcases hxc with rfl | hxc
    · obtain ⟨pe, hmem, hpid, hpar, hne⟩ := mem_kids.mp hc
      exact ⟨pe, hmem, hpid, by rw [hpar]; exact fun h => hne h.symm, Or.inl hpar⟩
    · obtain ⟨pe, hmem, hpid, hne, hpar⟩ := ih c x hxc
      refine ⟨pe, hmem, hpid, hne, Or.inr ?_⟩
      rcases hpar with hpar | hpar
      · exact dfs_sub_succ hc (Or.inl hpar)
      · exact dfs_sub_succ hc (Or.inr hpar)

theorem reachable_of_mem_dfs {snap : List PROCESSENTRY32} :
    ∀ (f : Nat) (p x : DWORD), x ∈ dfs snap f p → Reachable snap p x := by
  intro f
  induction f with
  | zero => intro p x hx; simp [dfs] at hx
  | succ f ih =>
    intro p x hx
    obtain ⟨pe, hmem, hpid, _, hpar⟩ := record_of_mem_dfs f p x hx
    rcases hpar with hpar | hpar
    · rw [← hpid]; exact Reachable.child pe hmem hpar
    · rw [← hpid]; exact Reachable.step pe hmem (ih p _ hpar)

theorem kids_subset_dfs {snap : List PROCESSENTRY32} {f : Nat} {p c : DWORD}
    (hcomp : complete snap f p = true) (hc : c ∈ kids snap p) : c ∈ dfs snap f p := by
  cases f with
  | zero =>
    rw [complete_zero_iff] at hcomp
    rw [hcomp] at hc
    cases hc
  | succ f => exact dfs_sub_succ hc (Or.inl rfl)

theorem childrenFollow_append {snap : List PROCESSENTRY32} :
    ∀ (l1 l2 : List DWORD), ChildrenFollow snap l1 → ChildrenFollow snap l2 →
      ChildrenFollow snap (l1 ++ l2) := by
  intro l1
  induction l1 with
  | nil => intro l2 _ h2; exact h2
  | cons q rest ih =>
    intro l2 h1 h2
    exact ⟨fun c hc => List.mem_append_left _ (h1.1 c hc), ih l2 h1.2 h2⟩

theorem childrenFollow_flatMap {snap : List PROCESSENTRY32} (F : DWORD → List DWORD) :
    ∀ cs : List DWORD, (∀ c ∈ cs, ChildrenFollow snap (F c)) →
      ChildrenFollow snap (cs.flatMap F) := by
  intro cs
  induction cs with
  | nil => intro _; exact True.intro
  | cons c cs ih =>
    intro h
    rw [List.flatMap_cons]
    exact childrenFollow_append _ _ (h c (List.mem_cons_self _ _))
      (ih (fun d hd => h d (List.mem_cons_of_mem _ hd)))

theorem childrenFollow_dfs {snap : List PROCESSENTRY32} :
    ∀ (f : Nat) (p : DWORD), complete snap f p = true → ChildrenFollow snap (dfs snap f p) := by
  intro f
  induction f with
  | zero => intro p _; exact True.intro
  | succ f ih =>
    intro p hcomp
    rw [complete_succ_iff] at hcomp
    rw [dfs]
    apply childrenFollow_flatMap
    intro c hc
    exact ⟨fun d hd => kids_subset_dfs (hcomp c hc) hd, ih c (hcomp c hc)⟩

/-- In a list where children follow, the children of the entry at a split
point lie in the right part. -/
theorem childrenFollow_split {snap : List PROCESSENTRY32} :
    ∀ (X Y : List DWORD) (q : DWORD), ChildrenFollow snap (X ++ q :: Y) →
      ∀ c ∈ kids snap q, c ∈ Y := by
  intro X
  induction X with
  | nil => intro Y q h; exact h.1
  | cons a X ih => intro Y q h; exact ih Y q h.2

theorem childrenFollow_mem {snap : List PROCESSENTRY32} {l : List DWORD} {q c : DWORD}
    (h : ChildrenFollow snap l) (hq : q ∈ l) (hc : c ∈ kids snap q) : c ∈ l := by
  obtain ⟨X, Y, rfl⟩ := List.append_of_mem hq
  exact List.mem_append_right _ (List.mem_cons_of_mem _ (childrenFollow_split X Y q h c hc))

/-- With enough depth the list holds every pid reachable from `p`. -/
theorem mem_dfs_of_reachable {snap : List PROCESSENTRY32} {f : Nat} {p x : DWORD}
    (hcomp : complete snap f p = true) (h : Reachable snap p x) :
    x = p ∨ x ∈ dfs snap f p := by
  induction h with
  | child pe hmem hpar =>
    by_cases hne : pe.th32ProcessID = p
    · exact Or.inl hne
    · exact Or.inr (kids_subset_dfs hcomp (mem_kids.mpr ⟨pe, hmem, rfl, hpar, hne⟩))
  | step pe hmem _ ih =>
    by_cases hself : pe.th32ProcessID = pe.th32ParentProcessID
    · rw [hself]; exact ih
    · rcases ih with hroot | hin
      · by_cases hne : pe.th32ProcessID = p
        · exact Or.inl hne
        · exact Or.inr (kids_subset_dfs hcomp (mem_kids.mpr ⟨pe, hmem, rfl, hroot, hne⟩))
      · exact Or.inr (childrenFollow_mem (childrenFollow_dfs f p hcomp) hin
          (mem_kids.mpr ⟨pe, hmem, rfl, rfl, hself⟩))

theorem mem_dfs_iff {snap : List PROCESSENTRY32} {f : Nat} {p x : DWORD}
    (hcomp : complete snap f p = true) :
    x ∈ dfs snap f p ↔ x ≠ p ∧ Reachable snap p x := by
  constructor
  · intro hx
    refine ⟨?_, reachable_of_mem_dfs f p x hx⟩
    rintro rfl
    exact not_mem_dfs_self f x hcomp f hx
  · rintro ⟨hne, hr⟩
    rcases mem_dfs_of_reachable hcomp hr with h | h
    · exact absurd h hne
    · exact h

theorem record_unique {snap : List PROCESSENTRY32} (hu : UniquePids snap)
    {a b : PROCESSENTRY32} (ha : a ∈ snap) (hb : b ∈ snap)
    (hab : a.th32ProcessID = b.th32ProcessID) : a = b :=
  List.inj_on_of_nodup_map hu ha hb hab

theorem kids_nodup {snap : List PROCESSENTRY32} (hu : UniquePids snap) (p : DWORD) :
    (kids snap p).Nodup := by
  unfold kids
  exact List.Nodup.sublist (List.Sublist.map _ (List.filter_sublist _)) hu

/-- A child of `p` is never listed below another child of `p`. -/
theorem kid_not_below_sibling {snap : List PROCESSENTRY32} (hu : UniquePids snap)
    {g : Nat} {p c1 c2 : DWORD} (hcomp : complete snap g p = true)
    (h1 : c1 ∈ kids snap p) (h2 : c2 ∈ kids snap p) (f : Nat) : c1 ∉ dfs snap f c2 := by
  intro hmem
  cases f with
  | zero => simp [dfs] at hmem
  | succ f =>
    obtain ⟨pe, hpe, hpid, _, hpar⟩ := record_of_mem_dfs f c2 c1 hmem
    obtain ⟨pe1, hpe1, hpid1, hpar1, _⟩ := mem_kids.mp h1
    have heq : pe = pe1 := record_unique hu hpe hpe1 (hpid.trans hpid1.symm)
    rw [heq, hpar1] at hpar
    rcases hpar with hpar | hpar
    · obtain ⟨_, _, _, _, hne⟩ := mem_kids.mp h2
      exact hne hpar.symm
    · exact not_mem_dfs_self g p hcomp (f + 1) (dfs_sub_succ h2 (Or.inr hpar))

/-- The trees below two different children of `p` share no pid. -/
theorem siblings_disjoint {snap : List PROCESSENTRY32} (hu : UniquePids snap)
    {g : Nat} {p c1 c2 : DWORD} (hcomp : complete snap g p = true)
    (h1 : c1 ∈ kids snap p) (h2 : c2 ∈ kids snap p) (hne : c1 ≠ c2) :
    ∀ (f1 f2 : Nat) (x : DWORD), (x = c1 ∨ x ∈ dfs snap f1 c1) →
      (x = c2 ∨ x ∈ dfs snap f2 c2) → False := by
  intro f1
  induction f1 with
  | zero =>
    intro f2 x hx1 hx2
    rcases hx1 with rfl | hx1
    · rcases hx2 with rfl | hx2
      · exact hne rfl
      · exact kid_not_below_sibling hu hcomp h1 h2 f2 hx2
    · simp [dfs] at hx1
  | succ f1 ih =>
    intro f2 x hx1 hx2
    rcases hx1 with rfl | hx1
    · rcases hx2 with rfl | hx2
      · exact hne rfl
      · exact kid_not_below_sibling hu hcomp h1 h2 f2 hx2
    · rcases hx2 with rfl | hx2
      · exact kid_not_below_sibling hu hcomp h2 h1 (f1 + 1) hx1
      · cases f2 with
        | zero => simp [dfs] at hx2
        | succ f2 =>
          obtain ⟨pe, hpe, hpid, _, hpar⟩ := record_of_mem_dfs f1 c1 x hx1
          obtain ⟨pe2, hpe2, hpid2, _, hpar2⟩ := record_of_mem_dfs f2 c2 x hx2
          have heq : pe2 = pe := record_unique hu hpe2 hpe (hpid2.trans hpid.symm)
          rw [heq] at hpar2
          exact ih f2 pe.th32ParentProcessID hpar hpar2

theorem dfs_nodup {snap : List PROCESSENTRY32} (hu : UniquePids snap) :
    ∀ (f : Nat) (p : DWORD), complete snap f p = true → (dfs snap f p).Nodup := by
  intro f
  induction f with
  | zero => intro p _; simp [dfs]
  | succ f ih =>
    intro p hcomp
    have hkids := complete_succ_iff.mp hcomp
    rw [dfs, List.nodup_flatMap]
    constructor
    · intro c hc
      exact List.nodup_cons.mpr ⟨not_mem_dfs_self f c (hkids c hc) f, ih c (hkids c hc)⟩
    · refine List.Pairwise.imp_of_mem ?_ (kids_nodup hu p)
      intro a b ha hb hab
      show List.Disjoint (a :: dfs snap f a) (b :: dfs snap f b)
      intro x hxa hxb
      exact siblings_disjoint hu hcomp ha hb hab f f x (List.mem_cons.mp hxa)
        (List.mem_cons.mp hxb)

theorem dfs_length_le {snap : List PROCESSENTRY32} (hu : UniquePids snap)
    {f : Nat} {p : DWORD} (hcomp : complete snap f p = true) :
    (dfs snap f p).length ≤ snap.length := by
  have hsub : dfs snap f p ⊆ snap.map (fun pe => pe.th32ProcessID) := by
    intro x hx
    cases f with
    | zero => simp [dfs] at hx
    | succ f =>
      obtain ⟨pe, hpe, hpid, _, _⟩ := record_of_mem_dfs f p x hx
      exact List.mem_map.mpr ⟨pe, hpe, hpid⟩
  have := (List.subperm_of_subset (dfs_nodup hu f p hcomp) hsub).length_le
  rwa [List.length_map] at this

theorem reachable_trans {snap : List PROCESSENTRY32} {a b c : DWORD}
    (hab : Reachable snap a b) (hbc : Reachable snap b c) : Reachable snap a c := by
  induction hbc with
  | child pe hmem hpar => exact Reachable.step pe hmem (hpar ▸ hab)
  | step pe hmem _ ih => exact Reachable.step pe hmem ih

/-- A tree deeper than `n` below `p` holds a chain of `n + 1` records. -/
theorem chain_of_not_complete {snap : List PROCESSENTRY32} :
    ∀ (n : Nat) (p : DWORD), complete snap n p = false →
      ∃ ch, ch.length = n + 1 ∧ Chain snap p ch := by
  intro n
  induction n with
  | zero =>
    intro p h
    cases hk : kids snap p with
    | nil => rw [complete_zero_iff.mpr hk] at h; cases h
    | cons c cs =>
      have hc : c ∈ kids snap p := by rw [hk]; exact List.mem_cons_self _ _
      obtain ⟨pe, hpe, hpid, hpar, hne⟩ := mem_kids.mp hc
      exact ⟨[pe], rfl, hpe, hpar, hpid ▸ hne, True.intro⟩
  | succ n ih =>
    intro p h
    have hex : ∃ c ∈ kids snap p, complete snap n c = false := by
      by_contra hcon
      have hall : ∀ c ∈ kids snap p, complete snap n c = true := by
        intro c hc
        cases hcc : complete snap n c with
        | true => rfl
        | false => exact absurd ⟨c, hc, hcc⟩ hcon
      rw [complete_succ_iff.mpr hall] at h
      cases h
    obtain ⟨c, hc, hcc⟩ := hex
    obtain ⟨pe, hpe, hpid, hpar, hne⟩ := mem_kids.mp hc
    obtain ⟨ch, hlen, hch⟩ := ih c hcc
    refine ⟨pe :: ch, by rw [List.length_cons, hlen], hpe, hpar, hpid ▸ hne, ?_⟩
    rw [hpid]
    exact hch

theorem chain_subset {snap : List PROCESSENTRY32} :
    ∀ (ch : List PROCESSENTRY32) (q : DWORD), Chain snap q ch → ∀ pe ∈ ch, pe ∈ snap := by
  intro ch
  induction ch with
  | nil => intro _ _ pe h; cases h
  | cons hd rest ih =>
    intro q hch pe hpe
    rcases List.mem_cons.mp hpe with rfl | hpe
    · exact hch.1
    · exact ih _ hch.2.2.2 pe hpe

/-- The parent named by a record of a chain below `q` is `q` or reachable from `q`. -/
theorem chain_reach {snap : List PROCESSENTRY32} :
    ∀ (ch : List PROCESSENTRY32) (q : DWORD), Chain snap q ch → ∀ pe ∈ ch,
      pe.th32ParentProcessID = q ∨ Reachable snap q pe.th32ParentProcessID := by
  intro ch
  induction ch with
  | nil => intro _ _ pe h; cases h
  | cons hd rest ih =>
    intro q hch pe hpe
    rcases List.mem_cons.mp hpe with rfl | hpe
    · exact Or.inl hch.2.1
    · have hq : Reachable snap q hd.th32ProcessID := Reachable.child hd hch.1 hch.2.1
      rcases ih _ hch.2.2.2 pe hpe with h | h
      · exact Or.inr (h ▸ hq)
      · exact Or.inr (reachable_trans hq h)

theorem chain_nodup {snap : List PROCESSENTRY32} {root : DWORD}
    (hac : AcyclicBelow snap root) :
    ∀ (ch : List PROCESSENTRY32) (q : DWORD), (q = root ∨ Reachable snap root q) →
      Chain snap q ch → ch.Nodup := by
  intro ch
  induction ch with
  | nil => intro _ _ _; exact List.nodup_nil
  | cons hd rest ih =>
    intro q hq hch
    have hbelow : hd.th32ParentProcessID = root ∨ Reachable snap root hd.th32ParentProcessID := by
      rw [hch.2.1]; exact hq
    have hnext : Reachable snap root hd.th32ProcessID := by
      rcases hbelow with h | h
      · exact Reachable.child hd hch.1 h
      · exact Reachable.step hd hch.1 h
    refine List.nodup_cons.mpr ⟨?_, ih _ (Or.inr hnext) hch.2.2.2⟩
    intro hmem
    have hne : hd.th32ProcessID ≠ hd.th32ParentProcessID := by
      rw [hch.2.1]; exact hch.2.2.1
    rcases chain_reach rest _ hch.2.2.2 hd hmem with h | h
    · exact hne h.symm
    · exact hac hd hch.1 hne hbelow h

/-- In a snapshot that forms a tree under `root` no chain of children below
`root` is longer than the number of records. -/
theorem complete_of_acyclicBelow {snap : List PROCESSENTRY32} {root : DWORD}
    (hac : AcyclicBelow snap root) : complete snap snap.length root = true := by
  cases hc : complete snap snap.length root with
  | true => rfl
  | false =>
    obtain ⟨ch, hlen, hch⟩ := chain_of_not_complete snap.length root hc
    have hle := (List.subperm_of_subset (chain_nodup hac ch root (Or.inl rfl) hch)
      (fun pe hpe => chain_subset ch root hch pe hpe)).length_le
    omega

theorem acyclicBelow_of_acyclic {snap : List PROCESSENTRY32} (hac : Acyclic snap)
    (root : DWORD) : AcyclicBelow snap root :=
  fun pe hpe hne _ => hac pe hpe hne

/-- A rank that grows from the parent to the child along every record that
does not name itself rules out every cycle. -/
theorem acyclic_of_rank {snap : List PROCESSENTRY32} (rank : DWORD → Nat)
    (hrank : ∀ pe ∈ snap, pe.th32ProcessID ≠ pe.th32ParentProcessID →
      rank pe.th32ParentProcessID < rank pe.th32ProcessID) : Acyclic snap := by
  have hgrow : ∀ a x, Reachable snap a x → rank a < rank x ∨ x = a := by
    intro a x h
    induction h with
    | child pe hmem hpar =>
      by_cases hself : pe.th32ProcessID = pe.th32ParentProcessID
      · exact Or.inr (hself.trans hpar)
      · exact Or.inl (hpar ▸ hrank pe hmem hself)
    | step pe hmem _ ih =>
      by_cases hself : pe.th32ProcessID = pe.th32ParentProcessID
      · rw [hself]; exact ih
      · have hlt := hrank pe hmem hself
        rcases ih with h | h
        · exact Or.inl (Nat.lt_trans h hlt)
        · exact Or.inl (h ▸ hlt)
  intro pe hpe hne hreach
  have hlt := hrank pe hpe hne
  rcases hgrow _ _ hreach with h | h
  · omega
  · exact hne h.symm

/-! ## Lemmas on the iterative walk -/

theorem scanChildren_eq (root parent : DWORD) :
    ∀ (snap : List PROCESSENTRY32) (out tv : List DWORD),
      scanChildren root parent snap (out, tv)
        = (out ++ kidsOf snap root parent, tv ++ kidsOf snap root parent) := by
  intro snap
  induction snap with
  | nil => intro out tv; simp [scanChildren, kidsOf]
  | cons pe snap ih =>
    intro out tv
    have hstep : scanChildren root parent (pe :: snap) (out, tv)
        = scanChildren root parent snap
            (if pe.th32ParentProcessID = parent ∧ pe.th32ProcessID ≠ root then
              (out ++ [pe.th32ProcessID], tv ++ [pe.th32ProcessID]) else (out, tv)) := by
      simp [scanChildren]
    rw [hstep]
    by_cases h : pe.th32ParentProcessID = parent ∧ pe.th32ProcessID ≠ root
    · rw [if_pos h, ih]
      simp [kidsOf, List.filter_cons, h]
    · rw [if_neg h, ih]
      simp [kidsOf, List.filter_cons, h]

theorem visitStep_nil (snap : List PROCESSENTRY32) (root : DWORD) (out : List DWORD) :
    visitStep snap root (out, []) = none := rfl

theorem visitStep_concat (snap : List PROCESSENTRY32) (root : DWORD)
    (out S : List DWORD) (s : DWORD) :
    visitStep snap root (out, S ++ [s])
      = some (out ++ kidsOf snap root s, S ++ kidsOf snap root s) := by
  simp [visitStep, scanChildren_eq]

/-- On the root and on every pid listed below it, the filter of the iterative
walk selects the same children as the filter of the recursive walk. -/
theorem kidsOf_eq_kids {snap : List PROCESSENTRY32} (hu : UniquePids snap)
    {g : Nat} {root s : DWORD} (hcomp : complete snap g root = true)
    (hs : s = root ∨ s ∈ dfs snap g root) : kidsOf snap root s = kids snap s := by
  unfold kidsOf kids
  congr 1
  apply List.filter_congr
  intro pe hpe
  have hiff : (pe.th32ParentProcessID = s ∧ pe.th32ProcessID ≠ root)
      ↔ (pe.th32ParentProcessID = s ∧ pe.th32ProcessID ≠ s) := by
    constructor
    · rintro ⟨hpar, hne⟩
      refine ⟨hpar, ?_⟩
      intro hself
      rcases hs with rfl | hs
      · exact hne hself
      · cases g with
        | zero => simp [dfs] at hs
        | succ g =>
          obtain ⟨pe1, hpe1, hpid1, hne1, _⟩ := record_of_mem_dfs g root s hs
          have heq : pe1 = pe := record_unique hu hpe1 hpe (hpid1.trans hself.symm)
          rw [heq] at hne1
          exact hne1 hpar
    · rintro ⟨hpar, hne⟩
      refine ⟨hpar, ?_⟩
      intro hroot
      have hk : root ∈ kids snap s := mem_kids.mpr ⟨pe, hpe, hroot, hpar, by rw [← hroot]; exact hne⟩
      rcases hs with rfl | hs
      · exact hne hroot
      · exact not_mem_dfs_self g root hcomp g
          (childrenFollow_mem (childrenFollow_dfs g root hcomp) hs hk)
  simp only [hiff]

theorem perm_flatMap_cons (F : DWORD → List DWORD) :
    ∀ K : List DWORD, (K ++ K.flatMap F).Perm (K.flatMap (fun k => k :: F k)) := by
  intro K
  induction K with
  | nil => simp
  | cons k K ih =>
    simp only [List.flatMap_cons, List.cons_append]
    refine List.Perm.cons k ?_
    calc (K ++ (F k ++ K.flatMap F)).Perm ((K ++ F k) ++ K.flatMap F) := by
          rw [List.append_assoc]
      _ |>.Perm ((F k ++ K) ++ K.flatMap F) := List.Perm.append_right _ List.perm_append_comm
      _ |>.Perm (F k ++ (K ++ K.flatMap F)) := by rw [List.append_assoc]
      _ |>.Perm (F k ++ K.flatMap (fun k => k :: F k)) := List.Perm.append_left _ ih

theorem dfs_unfold {snap : List PROCESSENTRY32} {g : Nat} {p : DWORD}
    (hcomp : complete snap g p = true) :
    dfs snap g p = (kids snap p).flatMap (fun c => c :: dfs snap g c) := by
  rw [← dfs_succ_of_complete g p hcomp, dfs]

theorem length_dfs {snap : List PROCESSENTRY32} {g : Nat} {p : DWORD}
    (hcomp : complete snap g p = true) :
    (dfs snap g p).length
      = ((kids snap p).map (fun k => 1 + (dfs snap g k).length)).sum := by
  conv_lhs => rw [dfs_unfold hcomp]
  rw [List.length_flatMap]
  congr 1
  apply List.map_congr_left
  intro c _
  simp [Nat.add_comm]

/-- The `while` loop of `GetAllDescendants`, started on a stack of pids of the
tree, exits and has then appended a permutation of the trees below them. -/
theorem visitLoop_perm {snap : List PROCESSENTRY32} (hu : UniquePids snap)
    {g : Nat} {root : DWORD} (hroot : complete snap g root = true) :
    ∀ (fuel : Nat) (S out : List DWORD),
      (∀ s ∈ S, s = root ∨ s ∈ dfs snap g root) →
      (S.map (fun s => 1 + (dfs snap g s).length)).sum < fuel →
      ∃ l, visitLoop snap root fuel (out, S) = some (out ++ l) ∧
        l.Perm (S.flatMap (dfs snap g)) := by
  intro fuel
  induction fuel with
  | zero => intro S out _ h; exact absurd h (Nat.not_lt_zero _)
  | succ fuel ih =>
    intro S out hgood hsum
    rcases List.eq_nil_or_concat S with rfl | ⟨S1, s, rfl⟩
    · exact ⟨[], by simp [visitLoop, visitStep_nil], by simp⟩
    · rw [List.concat_eq_append] at hgood hsum ⊢
      have hs : s = root ∨ s ∈ dfs snap g root := hgood s (by simp)
      have hK : kidsOf snap root s = kids snap s := kidsOf_eq_kids hu hroot hs
      have hcs : complete snap g s = true := by
        rcases hs with rfl | hs
        · exact hroot
        · obtain ⟨g1, hlt, hc1⟩ := complete_of_mem_dfs g root s hs g hroot
          exact complete_mono (Nat.le_of_lt hlt) hc1
      have hgood1 : ∀ t ∈ S1 ++ kids snap s, t = root ∨ t ∈ dfs snap g root := by
        intro t ht
        rcases List.mem_append.mp ht with ht | ht
        · exact hgood t (List.mem_append_left _ ht)
        · right
          rcases hs with rfl | hs
          · exact kids_subset_dfs hroot ht
          · exact childrenFollow_mem (childrenFollow_dfs g root hroot) hs ht
      have hsum1 : ((S1 ++ kids snap s).map (fun s => 1 + (dfs snap g s).length)).sum
          < fuel := by
        have hlen := length_dfs hcs
        simp only [List.map_append, List.sum_append, List.map_cons, List.map_nil,
          List.sum_cons, List.sum_nil] at hsum ⊢
        omega
      obtain ⟨l1, hrun, hperm⟩ := ih (S1 ++ kids snap s) (out ++ kids snap s) hgood1 hsum1
      refine ⟨kids snap s ++ l1, ?_, ?_⟩
      · rw [visitLoop, visitStep_concat, hK]
        simp only [hrun, List.append_assoc]
      · rw [List.flatMap_append] at hperm ⊢
        simp only [List.flatMap_cons, List.flatMap_nil, List.append_nil]
        rw [dfs_unfold hcs]
        calc (kids snap s ++ l1).Perm
              (kids snap s ++ (S1.flatMap (dfs snap g) ++ (kids snap s).flatMap (dfs snap g))) :=
              List.Perm.append_left _ hperm
          _ |>.Perm ((kids snap s ++ S1.flatMap (dfs snap g))
              ++ (kids snap s).flatMap (dfs snap g)) := by rw [List.append_assoc]
          _ |>.Perm ((S1.flatMap (dfs snap g) ++ kids snap s)
              ++ (kids snap s).flatMap (dfs snap g)) :=
              List.Perm.append_right _ List.perm_append_comm
          _ |>.Perm (S1.flatMap (dfs snap g)
              ++ (kids snap s ++ (kids snap s).flatMap (dfs snap g))) := by
              rw [List.append_assoc]
          _ |>.Perm (S1.flatMap (dfs snap g)
              ++ (kids snap s).flatMap (fun c => c :: dfs snap g c)) :=
              List.Perm.append_left _ (perm_flatMap_cons _ _)

theorem exactDescendants_of {snap : List PROCESSENTRY32} {root : DWORD} {l : List DWORD}
    (hnd : l.Nodup) (hmem : ∀ x, x ∈ l ↔ x ≠ root ∧ Reachable snap root x) :
    ExactDescendants snap root l := by
  refine ⟨hnd, hmem, ?_⟩
  intro S hS
  have heq : l.toFinset = S := by
    ext x
    rw [List.mem_toFinset, hmem, hS]
  rw [← heq, List.toFinset_card_of_nodup hnd]

/-! ## Lemmas on the sweep -/

theorem openAttempts_append (a b : List Event) :
    openAttempts (a ++ b) = openAttempts a ++ openAttempts b := by
  simp [openAttempts, List.filterMap_append]

theorem terminateCalls_append (a b : List Event) :
    terminateCalls (a ++ b) = terminateCalls a ++ terminateCalls b := by
  simp [terminateCalls, List.filterMap_append]

theorem quiet_nil : Quiet [] := ⟨rfl, rfl⟩

theorem quiet_append {a b : List Event} (ha : Quiet a) (hb : Quiet b) : Quiet (a ++ b) := by
  constructor
  · rw [openAttempts_append, ha.1, hb.1]; rfl
  · rw [terminateCalls_append, ha.2, hb.2]; rfl

theorem extends_refl (s : List DWORD × List Event) : Extends s s :=
  ⟨⟨[], by simp⟩, [], by simp, quiet_nil⟩

theorem extends_trans {s t u : List DWORD × List Event} (h1 : Extends s t)
    (h2 : Extends t u) : Extends s u := by
  obtain ⟨⟨l1, hl1⟩, e1, he1, hq1⟩ := h1
  obtain ⟨⟨l2, hl2⟩, e2, he2, hq2⟩ := h2
  exact ⟨⟨l1 ++ l2, by rw [hl2, hl1, List.append_assoc]⟩, e1 ++ e2,
    by rw [he2, he1, List.append_assoc], quiet_append hq1 hq2⟩

theorem foldlM_extends {α : Type}
    (g : List DWORD × List Event → α → Option (List DWORD × List Event)) :
    ∀ (l : List α), (∀ a ∈ l, ∀ s t, g s a = some t → Extends s t) →
      ∀ s t, l.foldlM g s = some t → Extends s t := by
  intro l
  induction l with
  | nil =>
    intro _ s t h
    simp at h
    rw [← h]
    exact extends_refl s
  | cons a l ih =>
    intro hg s t h
    simp only [List.foldlM_cons] at h
    cases hga : g s a with
    | none => rw [hga] at h; simp at h
    | some s1 =>
      rw [hga] at h
      exact extends_trans (hg a (List.mem_cons_self _ _) s s1 hga)
        (ih (fun b hb => hg b (List.mem_cons_of_mem _ hb)) s1 t h)

/-- Whatever the operating system answers, a call of `GetDescendants` that
returns has only appended to the output and has made no `OpenProcess` and no
`TerminateProcess` call. -/
theorem GetDescendants_extends (env : Env) :
    ∀ (fuel : Nat) (p : DWORD) (s t : List DWORD × List Event),
      GetDescendants env fuel p s = some t → Extends s t := by
  intro fuel
  induction fuel with
  | zero => intro p s t h; simp [GetDescendants] at h
  | succ fuel ih =>
    intro p s t h
    rw [GetDescendants] at h
    cases hsnap : env.CreateToolhelp32Snapshot s.2 with
    | none =>
      rw [hsnap] at h
      simp only [Option.some.injEq] at h
      rw [← h]
      exact ⟨⟨[], by simp⟩, [Event.snapshot false], rfl, rfl, rfl⟩
    | some snap =>
      rw [hsnap] at h
      simp only [Option.map_eq_some'] at h
      obtain ⟨u, hu, hut⟩ := h
      have h1 : Extends (s.1, s.2 ++ [Event.snapshot true]) u := by
        refine foldlM_extends _ snap ?_ _ _ hu
        intro pe _ a b hab
        by_cases hc : pe.th32ParentProcessID = p ∧ pe.th32ProcessID ≠ p
        · rw [if_pos hc] at hab
          exact extends_trans ⟨⟨[pe.th32ProcessID], rfl⟩, [], by simp, quiet_nil⟩
            (ih _ _ _ hab)
        · rw [if_neg hc] at hab
          simp only [Option.some.injEq] at hab
          rw [← hab]
          exact extends_refl a
      have h0 : Extends s (s.1, s.2 ++ [Event.snapshot true]) :=
        ⟨⟨[], by simp⟩, [Event.snapshot true], rfl, rfl, rfl⟩
      have h2 : Extends u t := by
        rw [← hut]
        exact ⟨⟨[], by simp⟩, [Event.closeSnapshot], rfl, rfl, rfl⟩
      exact extends_trans h0 (extends_trans h1 h2)

theorem toInt32_toNat {n : Nat} (h : n < 2 ^ 31) : (toInt32 n).toNat = n := by
  have h1 : n % 2 ^ 32 = n := Nat.mod_eq_of_lt (by omega)
  simp only [toInt32, h1, if_pos h]
  exact Int.toNat_natCast n

theorem take_succ_getD (l : List DWORD) {i : Nat} (h : i < l.length) :
    l.take (i + 1) = l.take i ++ [l.getD i 0] := by
  rw [List.take_succ, List.getD_eq_getElem?_getD, List.getElem?_eq_getElem h]
  rfl

/-- The sweep loop makes one `OpenProcess` attempt on each of the first `k`
entries, from index `k - 1` down to 0, and keeps the trace it started from. -/
theorem killLoop_attempts (env : Env) (desc : List DWORD) :
    ∀ (k : Nat), k ≤ desc.length → ∀ st : Bool × List Event,
      ∃ evs, (killLoop env desc k st).2 = st.2 ++ evs ∧
        openAttempts evs = (desc.take k).reverse := by
  intro k
  induction k with
  | zero => intro _ st; exact ⟨[], by simp [killLoop], by simp [openAttempts]⟩
  | succ k ih =>
    intro hk st
    have hk1 : k ≤ desc.length := Nat.le_of_succ_le hk
    rw [take_succ_getD desc (Nat.lt_of_succ_le hk), List.reverse_append]
    rw [killLoop]
    cases ho : env.OpenProcess st.2 (desc.getD k 0) with
    | true =>
      cases ht : env.TerminateProcess
          (st.2 ++ [Event.openProcess (desc.getD k 0) true]) (desc.getD k 0) with
      | true =>
        simp only [ht, if_true]
        obtain ⟨evs, he, ha⟩ := ih hk1
          (st.1, st.2 ++ [Event.openProcess (desc.getD k 0) true] ++
            [Event.terminateProcess (desc.getD k 0) true, Event.closeProcess (desc.getD k 0)])
        refine ⟨[Event.openProcess (desc.getD k 0) true] ++
            ([Event.terminateProcess (desc.getD k 0) true,
              Event.closeProcess (desc.getD k 0)] ++ evs), ?_, ?_⟩
        · rw [he]; simp only [List.append_assoc]
        · rw [openAttempts_append, openAttempts_append, ha]
          simp [openAttempts]
      | false =>
        simp only [ht, if_true, Bool.false_eq_true, if_false]
        obtain ⟨evs, he, ha⟩ := ih hk1
          (false, st.2 ++ [Event.openProcess (desc.getD k 0) true] ++
            [Event.terminateProcess (desc.getD k 0) false, Event.closeProcess (desc.getD k 0)])
        refine ⟨[Event.openProcess (desc.getD k 0) true] ++
            ([Event.terminateProcess (desc.getD k 0) false,
              Event.closeProcess (desc.getD k 0)] ++ evs), ?_, ?_⟩
        · rw [he]; simp only [List.append_assoc]
        · rw [openAttempts_append, openAttempts_append, ha]
          simp [openAttempts]
    | false =>
      simp only [Bool.false_eq_true, if_false]
      obtain ⟨evs, he, ha⟩ := ih hk1
        (st.1, st.2 ++ [Event.openProcess (desc.getD k 0) false])
      refine ⟨[Event.openProcess (desc.getD k 0) false] ++ evs, ?_, ?_⟩
      · rw [he]; simp only [List.append_assoc]
      · rw [openAttempts_append, ha]
        simp [openAttempts]

theorem killRoot_attempts (env : Env) (root : DWORD) (tr : List Event) :
    ∃ evs, killRoot env root tr = tr ++ evs ∧ openAttempts evs = [root] ∧
      (terminateCalls evs = [] ∨
        (terminateCalls evs = [root] ∧ env.OpenProcess tr root = true)) := by
  unfold killRoot
  cases ho : env.OpenProcess tr root with
  | true =>
    simp only [if_true]
    refine ⟨[Event.openProcess root true,
      Event.terminateProcess root
        (env.TerminateProcess (tr ++ [Event.openProcess root true]) root),
      Event.closeProcess root], ?_, ?_, Or.inr ⟨?_, trivial⟩⟩
    · simp
    · simp [openAttempts]
    · simp [terminateCalls]
  | false =>
    simp only [Bool.false_eq_true, if_false]
    exact ⟨[Event.openProcess root false], rfl, by simp [openAttempts],
      Or.inl (by simp [terminateCalls])⟩

theorem KillProcessTree_eq (env : Env) (fuel : Nat) (root : DWORD) (tr0 : List Event)
    (desc : List DWORD) (tr1 : List Event)
    (hres : GetDescendants env fuel root ([], tr0) = some (desc, tr1))
    (hlen : desc.length < 2 ^ 31) :
    KillProcessTree env fuel root tr0
      = some ((killLoop env desc desc.length (true, tr1)).1,
          killRoot env root (killLoop env desc desc.length (true, tr1)).2) := by
  simp only [KillProcessTree, hres, toInt32_toNat hlen]

theorem killLoop_allSucceed (env : Env) (desc : List DWORD)
    (hopen : ∀ h pid, env.OpenProcess h pid = true)
    (hterm : ∀ h pid, env.TerminateProcess h pid = true) :
    ∀ (k : Nat), k ≤ desc.length → ∀ st : Bool × List Event,
      ∃ evs, killLoop env desc k st = (st.1, st.2 ++ evs) ∧
        ∀ d ∈ desc.take k, Event.terminateProcess d true ∈ evs := by
  intro k
  induction k with
  | zero => intro _ st; exact ⟨[], by simp [killLoop], by simp⟩
  | succ k ih =>
    intro hk st
    rw [take_succ_getD desc (Nat.lt_of_succ_le hk), killLoop]
    simp only [hopen, hterm, if_true]
    obtain ⟨evs, he, hall⟩ := ih (Nat.le_of_succ_le hk)
      (st.1, st.2 ++ [Event.openProcess (desc.getD k 0) true] ++
        [Event.terminateProcess (desc.getD k 0) true, Event.closeProcess (desc.getD k 0)])
    refine ⟨[Event.openProcess (desc.getD k 0) true] ++
      ([Event.terminateProcess (desc.getD k 0) true,
        Event.closeProcess (desc.getD k 0)] ++ evs), ?_, ?_⟩
    · rw [he]; simp only [List.append_assoc]
    · intro d hd
      rcases List.mem_append.mp hd with hd | hd
      · exact List.mem_append_right _ (List.mem_append_right _ (hall d hd))
      · rw [List.mem_singleton] at hd
        rw [hd]
        simp

theorem getD_mem (l : List DWORD) {i : Nat} (h : i < l.length) : l.getD i 0 ∈ l := by
  rw [List.getD_eq_getElem?_getD, List.getElem?_eq_getElem h]
  exact List.getElem_mem h

theorem killLoop_unopenable (env : Env) (desc : List DWORD)
    (hdead : ∀ d ∈ desc, ∀ h, env.OpenProcess h d = false) :
    ∀ (k : Nat), k ≤ desc.length → ∀ st : Bool × List Event,
      ∃ evs, killLoop env desc k st = (st.1, st.2 ++ evs) ∧ terminateCalls evs = [] := by
  intro k
  induction k with
  | zero => intro _ st; exact ⟨[], by simp [killLoop], rfl⟩
  | succ k ih =>
    intro hk st
    rw [killLoop]
    simp only [hdead _ (getD_mem desc (Nat.lt_of_succ_le hk)), Bool.false_eq_true, if_false]
    obtain ⟨evs, he, hq⟩ := ih (Nat.le_of_succ_le hk)
      (st.1, st.2 ++ [Event.openProcess (desc.getD k 0) false])
    refine ⟨[Event.openProcess (desc.getD k 0) false] ++ evs, ?_, ?_⟩
    · rw [he]; simp only [List.append_assoc]
    · rw [terminateCalls_append, hq]
      simp [terminateCalls]

theorem quiet_dfsTrace {snap : List PROCESSENTRY32} :
    ∀ (f : Nat) (p : DWORD), Quiet (dfsTrace snap f p) := by
  intro f
  induction f with
  | zero => intro p; exact ⟨rfl, rfl⟩
  | succ f ih =>
    intro p
    rw [dfsTrace]
    have hq : ∀ cs : List DWORD, Quiet (cs.flatMap (dfsTrace snap f)) := by
      intro cs
      induction cs with
      | nil => exact quiet_nil
      | cons c cs ihc =>
        rw [List.flatMap_cons]
        exact quiet_append (ih c) ihc
    have h1 : Quiet [Event.snapshot true] := ⟨rfl, rfl⟩
    have h2 : Quiet [Event.closeSnapshot] := ⟨rfl, rfl⟩
    show Quiet ([Event.snapshot true]
      ++ ((kids snap p).flatMap (dfsTrace snap f) ++ [Event.closeSnapshot]))
    exact quiet_append h1 (quiet_append (hq _) h2)

/-- Over a process table that stays `snap`, a call that returned had fuel for
the whole tree and appended its depth-first preorder. -/
theorem resolve_static (env : Env) (snap : List PROCESSENTRY32)
    (hstatic : ∀ h, env.CreateToolhelp32Snapshot h = some snap)
    {fuel : Nat} {p : DWORD} {out desc : List DWORD} {tr0 tr1 : List Event}
    (hres : GetDescendants env fuel p (out, tr0) = some (desc, tr1)) :
    ∃ f, fuel = f + 1 ∧ complete snap f p = true ∧ desc = out ++ dfs snap f p ∧
      tr1 = tr0 ++ dfsTrace snap f p := by
  cases fuel with
  | zero => simp [GetDescendants] at hres
  | succ f =>
    rw [GetDescendants_static env snap hstatic] at hres
    by_cases hc : complete snap f p = true
    · rw [if_pos hc] at hres
      simp only [Option.some.injEq, Prod.mk.injEq] at hres
      exact ⟨f, rfl, hc, hres.1.symm, hres.2.symm⟩
    · rw [if_neg hc] at hres
      cases hres

/-- The events of one whole pass of `KillProcessTree` after a resolution that
returned `desc`: the resolution opens and terminates nothing, the sweep then
attempts the entries of `desc` from the last to the first, the root comes last. -/
theorem KillProcessTree_pass (env : Env) (fuel : Nat) (root : DWORD) (tr0 : List Event)
    (desc : List DWORD) (tr1 : List Event)
    (hres : GetDescendants env fuel root ([], tr0) = some (desc, tr1))
    (hlen : desc.length < 2 ^ 31) :
    ∃ ret e1 e2 e3, KillProcessTree env fuel root tr0 = some (ret, tr0 ++ (e1 ++ e2 ++ e3)) ∧
      tr1 = tr0 ++ e1 ∧ Quiet e1 ∧
      killLoop env desc desc.length (true, tr1) = (ret, tr1 ++ e2) ∧
      openAttempts e2 = desc.reverse ∧
      killRoot env root (tr1 ++ e2) = tr1 ++ e2 ++ e3 ∧
      openAttempts e3 = [root] ∧
      (terminateCalls e3 = [] ∨
        (terminateCalls e3 = [root] ∧ env.OpenProcess (tr1 ++ e2) root = true)) := by
  obtain ⟨_, e1, he1, hq1⟩ := GetDescendants_extends env fuel root _ _ hres
  obtain ⟨e2, he2, ha2⟩ := killLoop_attempts env desc desc.length (Nat.le_refl _) (true, tr1)
  simp only at he1 he2
  obtain ⟨e3, he3, ha3, ht3⟩ := killRoot_attempts env root (tr1 ++ e2)
  refine ⟨(killLoop env desc desc.length (true, tr1)).1, e1, e2, e3, ?_, he1, hq1, ?_, ?_,
    he3, ha3, ht3⟩
  · rw [KillProcessTree_eq env fuel root tr0 desc tr1 hres hlen, he2, he3, he1]
    simp only [List.append_assoc]
  · rw [← he2]
  · rw [ha2, List.take_length]

/-! ## The iterative walk on snapshots with a cycle through the root -/

theorem record_of_reachable {snap : List PROCESSENTRY32} {a x : DWORD}
    (h : Reachable snap a x) :
    ∃ pe ∈ snap, pe.th32ProcessID = x ∧
      (pe.th32ParentProcessID = a ∨ Reachable snap a pe.th32ParentProcessID) := by
  cases h with
  | child pe hmem hpar => exact ⟨pe, hmem, rfl, Or.inl hpar⟩
  | step pe hmem hr => exact ⟨pe, hmem, rfl, Or.inr hr⟩

/-- With unique pids, a pid below `root` that lies on a cycle has `root` on
that cycle. -/
theorem cycle_through_root {snap : List PROCESSENTRY32} (hu : UniquePids snap)
    {root x : DWORD} (hrx : Reachable snap root x) :
    Reachable snap x x → Reachable snap x root := by
  induction hrx with
  | child pe hmem hpar =>
    intro hcyc
    obtain ⟨pe1, hmem1, hpid1, hpar1⟩ := record_of_reachable hcyc
    have heq : pe1 = pe := record_unique hu hmem1 hmem hpid1
    rw [heq, hpar] at hpar1
    rcases hpar1 with h | h
    · rw [h]; exact hcyc
    · exact h
  | step pe hmem hr ih =>
    intro hcyc
    obtain ⟨pe1, hmem1, hpid1, hpar1⟩ := record_of_reachable hcyc
    have heq : pe1 = pe := record_unique hu hmem1 hmem hpid1
    rw [heq] at hpar1
    rcases hpar1 with h | h
    · rw [h] at ih
      exact ih hcyc
    · have hpp : Reachable snap pe.th32ParentProcessID pe.th32ParentProcessID :=
        reachable_trans (Reachable.child pe hmem rfl) h
      exact reachable_trans h (ih hpp)

/-- A snapshot with unique pids and no record for `root` forms a tree under `root`. -/
theorem acyclicBelow_of_unique {snap : List PROCESSENTRY32} (hu : UniquePids snap)
    {root : DWORD} (hno : ∀ pe ∈ snap, pe.th32ProcessID ≠ root) : AcyclicBelow snap root := by
  intro pe hpe _ hbelow hcyc
  have hpp : Reachable snap pe.th32ParentProcessID pe.th32ParentProcessID :=
    reachable_trans (Reachable.child pe hpe rfl) hcyc
  have hback : Reachable snap pe.th32ParentProcessID root := by
    rcases hbelow with h | h
    · rw [h] at hpp ⊢; exact hpp
    · exact cycle_through_root hu h hpp
  obtain ⟨pe1, hmem1, hpid1, _⟩ := record_of_reachable hback
  exact hno pe1 hmem1 hpid1

theorem kidsOf_filter (snap : List PROCESSENTRY32) (root p : DWORD) :
    kidsOf (snap.filter (fun pe => decide (pe.th32ProcessID ≠ root))) root p
      = kidsOf snap root p := by
  unfold kidsOf
  rw [List.filter_filter]
  congr 1
  apply List.filter_congr
  intro pe _
  by_cases h1 : pe.th32ParentProcessID = p <;> by_cases h2 : pe.th32ProcessID = root <;>
    simp [h1, h2]

theorem visitStep_congr {snap1 snap2 : List PROCESSENTRY32} {root : DWORD}
    (h : ∀ p, kidsOf snap1 root p = kidsOf snap2 root p) (st : List DWORD × List DWORD) :
    visitStep snap1 root st = visitStep snap2 root st := by
  obtain ⟨out, S⟩ := st
  rcases List.eq_nil_or_concat S with rfl | ⟨S1, s, rfl⟩
  · rfl
  · rw [List.concat_eq_append, visitStep_concat, visitStep_concat, h]

theorem visitLoop_congr {snap1 snap2 : List PROCESSENTRY32} {root : DWORD}
    (h : ∀ p, kidsOf snap1 root p = kidsOf snap2 root p) :
    ∀ (fuel : Nat) (st : List DWORD × List DWORD),
      visitLoop snap1 root fuel st = visitLoop snap2 root fuel st := by
  intro fuel
  induction fuel with
  | zero => intro st; rfl
  | succ fuel ih =>
    intro st
    rw [visitLoop, visitLoop, visitStep_congr h]
    cases visitStep snap2 root st with
    | none => rfl
    | some st1 => exact ih st1

/-- On every snapshot with unique pids, cycles through the root included, the
`while` loop of `GetAllDescendants` exits within as many turns as there are
records, plus two, and the pids it appended are without duplicates, differ
from the root and are no more than the records. -/
theorem visitLoop_unique {snap : List PROCESSENTRY32} (hu : UniquePids snap)
    (root : DWORD) (out : List DWORD) (fuel : Nat) (hfuel : snap.length + 2 ≤ fuel) :
    ∃ l, visitLoop snap root fuel (out, [root]) = some (out ++ l) ∧
      l.Nodup ∧ root ∉ l ∧ l.length ≤ snap.length := by
  have hu1 : UniquePids (snap.filter (fun pe => decide (pe.th32ProcessID ≠ root))) :=
    List.Nodup.sublist (List.Sublist.map _ (List.filter_sublist _)) hu
  have hno : ∀ pe ∈ snap.filter (fun pe => decide (pe.th32ProcessID ≠ root)),
      pe.th32ProcessID ≠ root := by
    intro pe hpe
    simpa using (List.mem_filter.mp hpe).2
  have hlen : (snap.filter (fun pe => decide (pe.th32ProcessID ≠ root))).length
      ≤ snap.length := List.length_filter_le _ _
  have hroot := complete_of_acyclicBelow (acyclicBelow_of_unique hu1 hno)
  generalize hs : snap.filter (fun pe => decide (pe.th32ProcessID ≠ root)) = snap1
    at hu1 hlen hroot
  have hk : ∀ p, kidsOf snap root p = kidsOf snap1 root p := by
    intro p
    rw [← hs, kidsOf_filter]
  have hdl := dfs_length_le hu1 hroot
  obtain ⟨l, hrun, hperm⟩ := visitLoop_perm hu1 hroot fuel [root] out
    (by intro s hs; left; simpa using hs)
    (by simp only [List.map_cons, List.map_nil, List.sum_cons, List.sum_nil]; omega)
  simp only [List.flatMap_cons, List.flatMap_nil, List.append_nil] at hperm
  refine ⟨l, by rw [visitLoop_congr hk, hrun], ?_, ?_, ?_⟩
  · exact hperm.nodup_iff.mpr (dfs_nodup hu1 _ root hroot)
  · intro hmem
    exact not_mem_dfs_self _ root hroot _ (hperm.mem_iff.mp hmem)
  · rw [hperm.length_eq]
    omega

/-! ## Further lemmas for the claims -/

theorem kids_eq_nil_of_no_child {snap : List PROCESSENTRY32} {root : DWORD}
    (hnone : ∀ pe ∈ snap, pe.th32ParentProcessID ≠ root) : kids snap root = [] := by
  rw [List.eq_nil_iff_forall_not_mem]
  intro c hc
  obtain ⟨pe, hpe, _, hpar, _⟩ := mem_kids.mp hc
  exact hnone pe hpe hpar

theorem kidsOf_eq_nil_of_no_child {snap : List PROCESSENTRY32} {root : DWORD}
    (hnone : ∀ pe ∈ snap, pe.th32ParentProcessID ≠ root) : kidsOf snap root root = [] := by
  rw [List.eq_nil_iff_forall_not_mem]
  intro c hc
  obtain ⟨pe, hpe, _, hpar, _⟩ := mem_kidsOf.mp hc
  exact hnone pe hpe hpar

theorem GetDescendants_cyclic :
    ∀ (fuel : Nat) (p : DWORD) (st : List DWORD × List Event), p = 1 ∨ p = 2 →
      GetDescendants cyclicEnv fuel p st = none := by
  intro fuel
  induction fuel with
  | zero => intro p st _; rfl
  | succ fuel ih =>
    intro p st hp
    rw [GetDescendants_unfold cyclicEnv cyclicSnap (fun _ => rfl)]
    rcases hp with rfl | rfl
    · have hk : kids cyclicSnap 1 = [2] := by decide
      rw [hk]
      simp [ih 2 _ (Or.inr rfl)]
    · have hk : kids cyclicSnap 2 = [1] := by decide
      rw [hk]
      simp [ih 1 _ (Or.inl rfl)]

theorem visitStep_appends {snap : List PROCESSENTRY32} {root : DWORD}
    {st st1 : List DWORD × List DWORD} (h : visitStep snap root st = some st1) :
    ∃ K, st1.1 = st.1 ++ K ∧ root ∉ K := by
  obtain ⟨out, S⟩ := st
  rcases List.eq_nil_or_concat S with rfl | ⟨S1, s, rfl⟩
  · rw [visitStep_nil] at h
    cases h
  · rw [List.concat_eq_append, visitStep_concat] at h
    simp only [Option.some.injEq] at h
    refine ⟨kidsOf snap root s, by rw [← h], ?_⟩
    intro hmem
    obtain ⟨_, _, _, _, hne⟩ := mem_kidsOf.mp hmem
    exact hne rfl

theorem visitIter_appends {snap : List PROCESSENTRY32} {root : DWORD} :
    ∀ (n : Nat) (st : List DWORD × List DWORD),
      ∃ l, (visitIter snap root n st).1 = st.1 ++ l ∧ root ∉ l := by
  intro n
  induction n with
  | zero => intro st; exact ⟨[], by simp [visitIter], by simp⟩
  | succ n ih =>
    intro st
    rw [visitIter]
    cases hstep : visitStep snap root st with
    | none => exact ⟨[], by simp, by simp⟩
    | some st1 =>
      obtain ⟨K, hK, hnK⟩ := visitStep_appends hstep
      obtain ⟨l, hl, hnl⟩ := ih st1
      refine ⟨K ++ l, ?_, ?_⟩
      · simp only [hl, hK, List.append_assoc]
      · intro hmem
        rcases List.mem_append.mp hmem with h | h
        · exact hnK h
        · exact hnl h

theorem visitLoop_eq_visitIter {snap : List PROCESSENTRY32} {root : DWORD} :
    ∀ (fuel : Nat) (st : List DWORD × List DWORD) (r : List DWORD),
      visitLoop snap root fuel st = some r → r = (visitIter snap root fuel st).1 := by
  intro fuel
  induction fuel with
  | zero => intro st r h; cases h
  | succ fuel ih =>
    intro st r h
    rw [visitLoop] at h
    rw [visitIter]
    cases hstep : visitStep snap root st with
    | none =>
      rw [hstep] at h
      simp only [Option.some.injEq] at h
      exact h.symm
    | some st1 =>
      rw [hstep] at h
      exact ih st1 r h

/-- The value `create_job_for_process` returns, by the outcome of its three
fallible calls. -/
theorem create_job_for_process_value (env : JobEnv) (processId : DWORD) (tr : List JobEvent) :
    (create_job_for_process env processId tr).1
      = if env.CreateJobObjectA tr = 0 then 0
        else if env.SetInformationJobObject
            (tr ++ [JobEvent.createJob (env.CreateJobObjectA tr)])
            (env.CreateJobObjectA tr) = false then 0
        else if env.OpenProcess
            (tr ++ [JobEvent.createJob (env.CreateJobObjectA tr)]
              ++ [JobEvent.setInformation (env.CreateJobObjectA tr)
                (env.SetInformationJobObject
                  (tr ++ [JobEvent.createJob (env.CreateJobObjectA tr)])
                  (env.CreateJobObjectA tr))])
            processId = 0 then 0
        else env.CreateJobObjectA tr := by
  unfold create_job_for_process
  dsimp only
  split_ifs <;> simp_all

/-- The run of `create_job_for_process` when the job object is created and its
configuration fails: the job handle is closed and 0 is returned. -/
theorem create_job_for_process_unconfigured (env : JobEnv) (processId : DWORD)
    (tr : List JobEvent) (h1 : env.CreateJobObjectA tr ≠ 0)
    (h2 : env.SetInformationJobObject
      (tr ++ [JobEvent.createJob (env.CreateJobObjectA tr)]) (env.CreateJobObjectA tr) = false) :
    create_job_for_process env processId tr
      = (0, tr ++ [JobEvent.createJob (env.CreateJobObjectA tr),
          JobEvent.setInformation (env.CreateJobObjectA tr) false,
          JobEvent.closeJob (env.CreateJobObjectA tr)
            (env.CloseHandle
              (tr ++ [JobEvent.createJob (env.CreateJobObjectA tr),
                JobEvent.setInformation (env.CreateJobObjectA tr) false])
              (env.CreateJobObjectA tr))]) := by
  unfold create_job_for_process
  dsimp only
  simp [h1, h2]

/-- The run of `create_job_for_process` when the job object is created and
configured and the process is opened: the assignment is tried, the process
handle is closed, the job handle is returned. -/
theorem create_job_for_process_assigned (env : JobEnv) (processId : DWORD)
    (tr : List JobEvent) (h1 : env.CreateJobObjectA tr ≠ 0)
    (h2 : env.SetInformationJobObject
      (tr ++ [JobEvent.createJob (env.CreateJobObjectA tr)]) (env.CreateJobObjectA tr) = true)
    (h3 : env.OpenProcess
      (tr ++ [JobEvent.createJob (env.CreateJobObjectA tr),
        JobEvent.setInformation (env.CreateJobObjectA tr) true]) processId ≠ 0) :
    create_job_for_process env processId tr
      = (env.CreateJobObjectA tr,
          tr ++ [JobEvent.createJob (env.CreateJobObjectA tr),
            JobEvent.setInformation (env.CreateJobObjectA tr) true,
            JobEvent.openProcess processId
              (env.OpenProcess
                (tr ++ [JobEvent.createJob (env.CreateJobObjectA tr),
                  JobEvent.setInformation (env.CreateJobObjectA tr) true]) processId),
            JobEvent.assignProcess (env.CreateJobObjectA tr)
              (env.OpenProcess
                (tr ++ [JobEvent.createJob (env.CreateJobObjectA tr),
                  JobEvent.setInformation (env.CreateJobObjectA tr) true]) processId)
              (env.AssignProcessToJobObject
                (tr ++ [JobEvent.createJob (env.CreateJobObjectA tr),
                  JobEvent.setInformation (env.CreateJobObjectA tr) true,
                  JobEvent.openProcess processId
                    (env.OpenProcess
                      (tr ++ [JobEvent.createJob (env.CreateJobObjectA tr),
                        JobEvent.setInformation (env.CreateJobObjectA tr) true]) processId)])
                (env.CreateJobObjectA tr)
                (env.OpenProcess
                  (tr ++ [JobEvent.createJob (env.CreateJobObjectA tr),
                    JobEvent.setInformation (env.CreateJobObjectA tr) true]) processId)),
            JobEvent.closeProcess
              (env.OpenProcess
                (tr ++ [JobEvent.createJob (env.CreateJobObjectA tr),
                  JobEvent.setInformation (env.CreateJobObjectA tr) true]) processId)]) := by
  unfold create_job_for_process
  dsimp only
  simp [h1, h2, h3]

theorem terminate_job_zero (env : JobEnv) (tr : List JobEvent) :
    terminate_job env 0 tr = (false, tr) := by
  simp [terminate_job]

theorem terminate_job_nonzero (env : JobEnv) (jobHandle : HANDLE) (tr : List JobEvent)
    (h : jobHandle ≠ 0) :
    terminate_job env jobHandle tr
      = (env.CloseHandle
          (tr ++ [JobEvent.terminateJob jobHandle (env.TerminateJobObject tr jobHandle)])
          jobHandle,
        tr ++ [JobEvent.terminateJob jobHandle (env.TerminateJobObject tr jobHandle),
          JobEvent.closeJob jobHandle
            (env.CloseHandle
              (tr ++ [JobEvent.terminateJob jobHandle (env.TerminateJobObject tr jobHandle)])
              jobHandle)]) := by
  simp [terminate_job, h]

theorem openHandles_append_failed (open0 : List HANDLE) (tr : List JobEvent)
    (h : HANDLE) (terminated : Bool) :
    openHandles open0
        (tr ++ [JobEvent.terminateJob h terminated, JobEvent.closeJob h false])
      = openHandles open0 tr := by
  unfold openHandles
  apply List.filter_congr
  intro x _
  simp

theorem not_mem_openHandles_of_closed (open0 : List HANDLE) (tr : List JobEvent)
    (h : HANDLE) (hclosed : JobEvent.closeJob h true ∈ tr) : h ∉ openHandles open0 tr := by
  unfold openHandles
  simp [hclosed]

/-! ## Lemmas on the liveness report and the desktop names -/

theorem toInt32_of_lt {n : Nat} (h : n < 2 ^ 31) : toInt32 n = (n : Int) := by
  have h1 : n % 2 ^ 32 = n := Nat.mod_eq_of_lt (by omega)
  simp only [toInt32, h1, if_pos h]

theorem length_livenessChecks (env : LiveEnv) :
    ∀ (pids : List DWORD) (tr : List LiveEvent),
      (livenessChecks env pids tr).length = pids.length := by
  intro pids
  induction pids with
  | nil => intro tr; rfl
  | cons pid rest ih => intro tr; simp [livenessChecks, ih]

/-- The loop of `CheckOrphans` adds to the count the number of checks that
found the pid alive and prints one line per pid, `[ORPHAN!]` or `[DEAD]` by
the result of its check. -/
theorem checkLoop_eq (env : LiveEnv) :
    ∀ (pids : List DWORD) (count : Nat) (lines : List Report) (tr : List LiveEvent),
      (checkLoop env pids (count, lines, tr)).1
          = count + (livenessChecks env pids tr).count true ∧
        (checkLoop env pids (count, lines, tr)).2.1
          = lines ++ List.zipWith reportLine pids (livenessChecks env pids tr) := by
  intro pids
  induction pids with
  | nil => intro count lines tr; simp [checkLoop, livenessChecks]
  | cons pid rest ih =>
    intro count lines tr
    rw [checkLoop, livenessChecks]
    cases halive : (IsProcessAlive env pid tr).1 with
    | true =>
      simp only [halive, if_true]
      obtain ⟨h1, h2⟩ := ih (count + 1) (lines ++ [Report.orphan pid])
        (IsProcessAlive env pid tr).2
      rw [h1, h2]
      simp [reportLine, List.count_cons, Nat.add_comm, Nat.add_left_comm]
    | false =>
      simp only [halive, Bool.false_eq_true, if_false]
      obtain ⟨h1, h2⟩ := ih count (lines ++ [Report.dead pid]) (IsProcessAlive env pid tr).2
      rw [h1, h2]
      simp [reportLine, List.count_cons]

theorem desktopNamesLoop_ten :
    desktopNamesLoop 10 ""
      = "Desktop 1|Desktop 2|Desktop 3|Desktop 4|Desktop 5|Desktop 6|Desktop 7|Desktop 8|Desktop 9|Desktop 10" := by
  decide

/-! ## Lemmas on the process table that forgets the processes killed -/

theorem killedPids_append (a b : List Event) :
    killedPids (a ++ b) = killedPids a ++ killedPids b := by
  simp [killedPids, List.filterMap_append]

theorem killedPids_of_quiet : ∀ q : List Event, Quiet q → killedPids q = [] := by
  intro q
  induction q with
  | nil => intro _; rfl
  | cons e q ih =>
    intro hq
    have hsplit : Quiet [e] ∧ Quiet q := by
      obtain ⟨h1, h2⟩ := hq
      have h1' : openAttempts ([e] ++ q) = [] := h1
      have h2' : terminateCalls ([e] ++ q) = [] := h2
      rw [openAttempts_append, List.append_eq_nil] at h1'
      rw [terminateCalls_append, List.append_eq_nil] at h2'
      exact ⟨⟨h1'.1, h2'.1⟩, ⟨h1'.2, h2'.2⟩⟩
    have hq1 : killedPids [e] = [] := by
      cases e with
      | terminateProcess pid ok =>
        have := hsplit.1.2
        simp [terminateCalls] at this
      | snapshot ok => rfl
      | closeSnapshot => rfl
      | openProcess pid ok => rfl
      | closeProcess pid => rfl
    have : killedPids ([e] ++ q) = [] := by
      rw [killedPids_append, hq1, ih hsplit.2]
      rfl
    exact this

theorem liveSnap_quiet (snap0 : List PROCESSENTRY32) (tr q : List Event) (hq : Quiet q) :
    liveSnap snap0 (tr ++ q) = liveSnap snap0 tr := by
  unfold liveSnap
  rw [killedPids_append, killedPids_of_quiet q hq, List.append_nil]

theorem foldlM_congr_inv {α σ : Type} (J : σ → Prop) (g1 g2 : σ → α → Option σ)
    (hagree : ∀ s a, J s → g1 s a = g2 s a)
    (hkeep : ∀ s a t, J s → g2 s a = some t → J t) :
    ∀ (l : List α) (s : σ), J s → l.foldlM g1 s = l.foldlM g2 s := by
  intro l
  induction l with
  | nil => intro s _; rfl
  | cons a l ih =>
    intro s hs
    simp only [List.foldlM_cons]
    rw [hagree s a hs]
    cases hg : g2 s a with
    | none => rfl
    | some t => exact ih t (hkeep s a t hs hg)

/-- Two operating systems that hand out the same snapshots after `tr0`, as
long as nothing is opened or terminated, give `GetDescendants` the same run. -/
theorem GetDescendants_congr_quiet (env1 env2 : Env) (tr0 : List Event)
    (hagree : ∀ q, Quiet q →
      env1.CreateToolhelp32Snapshot (tr0 ++ q) = env2.CreateToolhelp32Snapshot (tr0 ++ q)) :
    ∀ (fuel : Nat) (p : DWORD) (s : List DWORD × List Event),
      (∃ q, s.2 = tr0 ++ q ∧ Quiet q) →
      GetDescendants env1 fuel p s = GetDescendants env2 fuel p s := by
  intro fuel
  induction fuel with
  | zero => intro p s _; rfl
  | succ fuel ih =>
    intro p s hs
    obtain ⟨q, hq, hquiet⟩ := hs
    rw [GetDescendants, GetDescendants]
    have hsnap : env1.CreateToolhelp32Snapshot s.2 = env2.CreateToolhelp32Snapshot s.2 := by
      rw [hq]; exact hagree q hquiet
    rw [hsnap]
    cases env2.CreateToolhelp32Snapshot s.2 with
    | none => rfl
    | some snap =>
      dsimp only
      congr 1
      refine foldlM_congr_inv (fun t => ∃ q, t.2 = tr0 ++ q ∧ Quiet q) _ _ ?_ ?_ snap _ ?_
      · intro t pe ht
        by_cases hc : pe.th32ParentProcessID = p ∧ pe.th32ProcessID ≠ p
        · simp only [if_pos hc]
          exact ih _ _ ht
        · simp only [if_neg hc]
      · intro t pe u ht hu
        by_cases hc : pe.th32ParentProcessID = p ∧ pe.th32ProcessID ≠ p
        · rw [if_pos hc] at hu
          obtain ⟨_, e, he, hqe⟩ := GetDescendants_extends env2 _ _ _ _ hu
          obtain ⟨q1, hq1, hquiet1⟩ := ht
          refine ⟨q1 ++ e, ?_, quiet_append hquiet1 hqe⟩
          rw [he]
          show t.2 ++ e = tr0 ++ (q1 ++ e)
          rw [hq1, List.append_assoc]
        · rw [if_neg hc] at hu
          simp only [Option.some.injEq] at hu
          rw [← hu]
          exact ht
      · refine ⟨q ++ [Event.snapshot true], ?_, quiet_append hquiet ⟨rfl, rfl⟩⟩
        show s.2 ++ [Event.snapshot true] = tr0 ++ (q ++ [Event.snapshot true])
        rw [hq, List.append_assoc]

/-- In the process table that forgets the processes killed, a resolution that
returned walked the snapshot of the processes alive at its start. -/
theorem resolve_table (snap0 : List PROCESSENTRY32) (canOpen canKill : DWORD → Bool)
    {fuel : Nat} {p : DWORD} {out desc : List DWORD} {tr0 tr1 : List Event}
    (hres : GetDescendants (tableEnv snap0 canOpen canKill) fuel p (out, tr0)
      = some (desc, tr1)) :
    ∃ f, fuel = f + 1 ∧ complete (liveSnap snap0 tr0) f p = true ∧
      desc = out ++ dfs (liveSnap snap0 tr0) f p ∧
      tr1 = tr0 ++ dfsTrace (liveSnap snap0 tr0) f p := by
  have hcongr := GetDescendants_congr_quiet (tableEnv snap0 canOpen canKill)
    (staticEnv (liveSnap snap0 tr0) canOpen canKill) tr0
    (by
      intro q hq
      show some (liveSnap snap0 (tr0 ++ q)) = some (liveSnap snap0 tr0)
      rw [liveSnap_quiet snap0 tr0 q hq])
    fuel p (out, tr0) ⟨[], by simp, quiet_nil⟩
  rw [hcongr] at hres
  exact resolve_static (staticEnv (liveSnap snap0 tr0) canOpen canKill)
    (liveSnap snap0 tr0) (fun _ => rfl) hres

/-- In the process table that forgets the processes killed, when every listed
process that is alive can be opened and terminated, the sweep loop leaves
`allKilled` as it was and every entry it passed killed. -/
theorem killLoop_table (snap0 : List PROCESSENTRY32) (canOpen canKill : DWORD → Bool)
    (desc : List DWORD) (hsucc : ∀ d ∈ desc, canOpen d = true ∧ canKill d = true) :
    ∀ (k : Nat), k ≤ desc.length → ∀ st : Bool × List Event,
      ∃ evs, killLoop (tableEnv snap0 canOpen canKill) desc k st = (st.1, st.2 ++ evs) ∧
        ∀ d ∈ desc.take k, d ∈ killedPids (st.2 ++ evs) := by
  intro k
  induction k with
  | zero => intro _ st; exact ⟨[], by simp [killLoop], by simp⟩
  | succ k ih =>
    intro hk st
    have hmem : desc.getD k 0 ∈ desc := getD_mem desc (Nat.lt_of_succ_le hk)
    obtain ⟨hco, hck⟩ := hsucc _ hmem
    have hO : ∀ t, (tableEnv snap0 canOpen canKill).OpenProcess t (desc.getD k 0)
        = decide (desc.getD k 0 ∉ killedPids t) := by
      intro t
      show (canOpen (desc.getD k 0) && decide (desc.getD k 0 ∉ killedPids t)) = _
      rw [hco, Bool.true_and]
    have hT : ∀ t, (tableEnv snap0 canOpen canKill).TerminateProcess t (desc.getD k 0)
        = true := fun _ => hck
    rw [take_succ_getD desc (Nat.lt_of_succ_le hk), killLoop]
    by_cases halive : desc.getD k 0 ∈ killedPids st.2
    · simp only [hO, halive, not_true_eq_false, decide_False, Bool.false_eq_true, if_false]
      obtain ⟨evs, he, hall⟩ := ih (Nat.le_of_succ_le hk)
        (st.1, st.2 ++ [Event.openProcess (desc.getD k 0) false])
      refine ⟨[Event.openProcess (desc.getD k 0) false] ++ evs, ?_, ?_⟩
      · rw [he]; simp only [List.append_assoc]
      · intro d hd
        rw [← List.append_assoc]
        rcases List.mem_append.mp hd with hd | hd
        · exact hall d hd
        · rw [List.mem_singleton] at hd
          rw [hd, killedPids_append, killedPids_append]
          exact List.mem_append_left _ (List.mem_append_left _ halive)
    · simp only [hO, hT, halive, not_false_eq_true, decide_True, if_true]
      obtain ⟨evs, he, hall⟩ := ih (Nat.le_of_succ_le hk)
        (st.1, st.2 ++ [Event.openProcess (desc.getD k 0) true] ++
          [Event.terminateProcess (desc.getD k 0) true, Event.closeProcess (desc.getD k 0)])
      refine ⟨[Event.openProcess (desc.getD k 0) true] ++
        ([Event.terminateProcess (desc.getD k 0) true,
          Event.closeProcess (desc.getD k 0)] ++ evs), ?_, ?_⟩
      · rw [he]; simp only [List.append_assoc]
      · intro d hd
        rcases List.mem_append.mp hd with hd | hd
        · have := hall d hd
          simpa only [List.append_assoc] using this
        · rw [List.mem_singleton] at hd
          rw [hd]
          simp [killedPids, List.filterMap_append]

/-- In the process table that forgets the processes killed, the root is
killed once the last block of `KillProcessTree` has run, if it can be opened
and terminated while alive. -/
theorem killRoot_table (snap0 : List PROCESSENTRY32) (canOpen canKill : DWORD → Bool)
    (root : DWORD) (hco : canOpen root = true) (hck : canKill root = true)
    (tr : List Event) :
    ∃ evs, killRoot (tableEnv snap0 canOpen canKill) root tr = tr ++ evs ∧
      root ∈ killedPids (tr ++ evs) := by
  unfold killRoot
  have hO : (tableEnv snap0 canOpen canKill).OpenProcess tr root
      = decide (root ∉ killedPids tr) := by
    show (canOpen root && decide (root ∉ killedPids tr)) = _
    rw [hco, Bool.true_and]
  have hT : ∀ t, (tableEnv snap0 canOpen canKill).TerminateProcess t root = true :=
    fun _ => hck
  by_cases halive : root ∈ killedPids tr
  · simp only [hO, halive, not_true_eq_false, decide_False, Bool.false_eq_true, if_false]
    exact ⟨_, rfl, by rw [killedPids_append]; exact List.mem_append_left _ halive⟩
  · simp only [hO, hT, halive, not_false_eq_true, decide_True, if_true]
    refine ⟨[Event.openProcess root true, Event.terminateProcess root true,
      Event.closeProcess root], by simp, ?_⟩
    simp [killedPids, List.filterMap_append]

/-- A call of `GetDescendants` on a pid that no record of the captured
snapshot names as its parent returns its output list as it got it. -/
theorem GetDescendants_no_child (env : Env) (snap : List PROCESSENTRY32)
    (root : DWORD) (out : List DWORD) (tr : List Event)
    (hsnap : env.CreateToolhelp32Snapshot tr = some snap)
    (hnone : ∀ pe ∈ snap, pe.th32ParentProcessID ≠ root) (fuel : Nat) :
    GetDescendants env (fuel + 1) root (out, tr)
      = some (out, tr ++ [Event.snapshot true, Event.closeSnapshot]) := by
  rw [GetDescendants]
  simp only [hsnap]
  rw [foldlM_ite_filter
    (fun pe : PROCESSENTRY32 => pe.th32ParentProcessID = root ∧ pe.th32ProcessID ≠ root)
    (fun s pe => GetDescendants env fuel pe.th32ProcessID (s.1 ++ [pe.th32ProcessID], s.2))]
  have hk := kids_eq_nil_of_no_child hnone
  rw [kids, List.map_eq_nil_iff] at hk
  rw [hk]
  simp

/-! ## Lemmas on the result of the sweep -/

/-- The sweep loop ends with `allKilled` false exactly when it started so or
one of its `TerminateProcess` calls failed; each of its `TerminateProcess`
calls is on an entry it passed and follows a successful `OpenProcess` on it. -/
theorem killLoop_result (env : Env) (desc : List DWORD) :
    ∀ (k : Nat), k ≤ desc.length → ∀ st : Bool × List Event,
      ∃ evs, (killLoop env desc k st).2 = st.2 ++ evs ∧
        ((killLoop env desc k st).1 = false
          ↔ st.1 = false ∨ ∃ d, Event.terminateProcess d false ∈ evs) ∧
        ∀ d ok, Event.terminateProcess d ok ∈ evs →
          d ∈ desc.take k ∧ Event.openProcess d true ∈ evs := by
  intro k
  induction k with
  | zero => intro _ st; exact ⟨[], by simp [killLoop], by simp [killLoop], by simp⟩
  | succ k ih =>
    intro hk st
    have hk1 : k ≤ desc.length := Nat.le_of_succ_le hk
    rw [take_succ_getD desc (Nat.lt_of_succ_le hk)]
    rw [killLoop]
    cases ho : env.OpenProcess st.2 (desc.getD k 0) with
    | true =>
      cases ht : env.TerminateProcess
          (st.2 ++ [Event.openProcess (desc.getD k 0) true]) (desc.getD k 0) with
      | true =>
        simp only [ht, if_true]
        obtain ⟨evs, he, hiff, hterm⟩ := ih hk1
          (st.1, st.2 ++ [Event.openProcess (desc.getD k 0) true] ++
            [Event.terminateProcess (desc.getD k 0) true, Event.closeProcess (desc.getD k 0)])
        refine ⟨[Event.openProcess (desc.getD k 0) true] ++
            ([Event.terminateProcess (desc.getD k 0) true,
              Event.closeProcess (desc.getD k 0)] ++ evs), ?_, ?_, ?_⟩
        · rw [he]; simp only [List.append_assoc]
        · rw [hiff]
          simp
        · intro d ok hd
          simp only [List.cons_append, List.nil_append, List.mem_cons, Event.terminateProcess.injEq,
            reduceCtorEq, false_or] at hd
          rcases hd with ⟨rfl, _⟩ | hd
          · simp
          · obtain ⟨h1, h2⟩ := hterm d ok hd
            exact ⟨List.mem_append_left _ h1, by simp [h2]⟩
      | false =>
        simp only [ht, if_true, Bool.false_eq_true, if_false]
        obtain ⟨evs, he, hiff, hterm⟩ := ih hk1
          (false, st.2 ++ [Event.openProcess (desc.getD k 0) true] ++
            [Event.terminateProcess (desc.getD k 0) false, Event.closeProcess (desc.getD k 0)])
        refine ⟨[Event.openProcess (desc.getD k 0) true] ++
            ([Event.terminateProcess (desc.getD k 0) false,
              Event.closeProcess (desc.getD k 0)] ++ evs), ?_, ?_, ?_⟩
        · rw [he]; simp only [List.append_assoc]
        · rw [hiff]
          simp only [true_or, true_iff]
          exact Or.inr ⟨desc.getD k 0, by simp⟩
        · intro d ok hd
          simp only [List.cons_append, List.nil_append, List.mem_cons, Event.terminateProcess.injEq,
            reduceCtorEq, false_or] at hd
          rcases hd with ⟨rfl, _⟩ | hd
          · simp
          · obtain ⟨h1, h2⟩ := hterm d ok hd
            exact ⟨List.mem_append_left _ h1, by simp [h2]⟩
    | false =>
      simp only [Bool.false_eq_true, if_false]
      obtain ⟨evs, he, hiff, hterm⟩ := ih hk1
        (st.1, st.2 ++ [Event.openProcess (desc.getD k 0) false])
      refine ⟨[Event.openProcess (desc.getD k 0) false] ++ evs, ?_, ?_, ?_⟩
      · rw [he]; simp only [List.append_assoc]
      · rw [hiff]
        simp
      · intro d ok hd
        simp only [List.cons_append, List.nil_append, List.mem_cons, reduceCtorEq,
          false_or] at hd
        obtain ⟨h1, h2⟩ := hterm d ok hd
        exact ⟨List.mem_append_left _ h1, by simp [h2]⟩

/-! ## Lemmas on the number of snapshots -/

theorem snapshotCalls_append (a b : List Event) :
    snapshotCalls (a ++ b) = snapshotCalls a + snapshotCalls b := by
  simp [snapshotCalls, List.countP_append]

theorem reads_trans {a b : Nat} {s t u : List DWORD × List Event}
    (h1 : Reads a s t) (h2 : Reads b t u) : Reads (a + b) s u := by
  obtain ⟨l1, e1, rfl, hc1⟩ := h1
  obtain ⟨l2, e2, rfl, hc2⟩ := h2
  refine ⟨l1 ++ l2, e1 ++ e2, by simp, ?_⟩
  rw [snapshotCalls_append, hc1, hc2, List.length_append]
  omega

theorem foldlM_reads {α : Type}
    (g : List DWORD × List Event → α → Option (List DWORD × List Event)) :
    ∀ (l : List α), (∀ a ∈ l, ∀ s t, g s a = some t → Reads 0 s t) →
      ∀ s t, l.foldlM g s = some t → Reads 0 s t := by
  intro l
  induction l with
  | nil =>
    intro _ s t h
    simp at h
    rw [← h]
    exact ⟨[], [], by simp, rfl⟩
  | cons a l ih =>
    intro hg s t h
    simp only [List.foldlM_cons] at h
    cases hga : g s a with
    | none => rw [hga] at h; simp at h
    | some s1 =>
      rw [hga] at h
      exact reads_trans (hg a (List.mem_cons_self _ _) s s1 hga)
        (ih (fun b hb => hg b (List.mem_cons_of_mem _ hb)) s1 t h)

/-- Whatever the operating system answers, a call of `GetDescendants` that
returns has called `CreateToolhelp32Snapshot` once more than it has appended
pids: once for itself and once for every descendant it found. -/
theorem GetDescendants_reads (env : Env) :
    ∀ (fuel : Nat) (p : DWORD) (s t : List DWORD × List Event),
      GetDescendants env fuel p s = some t → Reads 1 s t := by
  intro fuel
  induction fuel with
  | zero => intro p s t h; simp [GetDescendants] at h
  | succ fuel ih =>
    intro p s t h
    rw [GetDescendants] at h
    cases hsnap : env.CreateToolhelp32Snapshot s.2 with
    | none =>
      rw [hsnap] at h
      simp only [Option.some.injEq] at h
      rw [← h]
      exact ⟨[], [Event.snapshot false], by simp, rfl⟩
    | some snap =>
      rw [hsnap] at h
      simp only [Option.map_eq_some'] at h
      obtain ⟨u, hu, hut⟩ := h
      have h1 : Reads 0 (s.1, s.2 ++ [Event.snapshot true]) u := by
        refine foldlM_reads _ snap ?_ _ _ hu
        intro pe _ a b hab
        by_cases hc : pe.th32ParentProcessID = p ∧ pe.th32ProcessID ≠ p
        · rw [if_pos hc] at hab
          obtain ⟨l, evs, rfl, hcount⟩ := ih _ _ _ hab
          exact ⟨pe.th32ProcessID :: l, evs, by simp, by simp [hcount]⟩
        · rw [if_neg hc] at hab
          simp only [Option.some.injEq] at hab
          rw [← hab]
          exact ⟨[], [], by simp, rfl⟩
      have h0 : Reads 1 s (s.1, s.2 ++ [Event.snapshot true]) :=
        ⟨[], [Event.snapshot true], by simp, rfl⟩
      have h2 : Reads 0 u t := by
        rw [← hut]
        exact ⟨[], [Event.closeSnapshot], by simp, rfl⟩
      exact reads_trans (reads_trans h0 h1) h2

/-! ## Lemmas on snapshots without a cycle through the root -/

/-- Along a rank that grows from the parent to the child on every record that
does not name itself, a reachable pid has a greater rank or is the start. -/
theorem reachable_rank {snap : List PROCESSENTRY32} (rank : DWORD → Nat)
    (hrank : ∀ pe ∈ snap, pe.th32ProcessID ≠ pe.th32ParentProcessID →
      rank pe.th32ParentProcessID < rank pe.th32ProcessID) :
    ∀ a x, Reachable snap a x → rank a < rank x ∨ x = a := by
  intro a x h
  induction h with
  | child pe hmem hpar =>
    by_cases hself : pe.th32ProcessID = pe.th32ParentProcessID
    · exact Or.inr (hself.trans hpar)
    · exact Or.inl (hpar ▸ hrank pe hmem hself)
  | step pe hmem _ ih =>
    by_cases hself : pe.th32ProcessID = pe.th32ParentProcessID
    · rw [hself]; exact ih
    · have hlt := hrank pe hmem hself
      rcases ih with h | h
      · exact Or.inl (Nat.lt_trans h hlt)
      · exact Or.inl (h ▸ hlt)

/-- With unique pids, when the record of `root` names `root` itself, `root`
is reachable from no other pid. -/
theorem reachable_selfloop {snap : List PROCESSENTRY32} (hu : UniquePids snap)
    {root : DWORD} {pe1 : PROCESSENTRY32} (hmem1 : pe1 ∈ snap)
    (hpid1 : pe1.th32ProcessID = root) (hpar1 : pe1.th32ParentProcessID = root) :
    ∀ a x, Reachable snap a x → x = root → a = root := by
  intro a x h
  induction h with
  | child pe hmem hpar =>
    intro hx
    have heq : pe = pe1 := record_unique hu hmem hmem1 (hx.trans hpid1.symm)
    rw [← hpar, heq, hpar1]
  | step pe hmem _ ih =>
    intro hx
    have heq : pe = pe1 := record_unique hu hmem hmem1 (hx.trans hpid1.symm)
    exact ih (by rw [heq, hpar1])

/-- A snapshot with unique pids and no cycle through `root` forms a tree
under `root`. -/
theorem acyclicBelow_of_noCycle {snap : List PROCESSENTRY32} (hu : UniquePids snap)
    {root : DWORD} (hno : NoCycleThroughRoot snap root) : AcyclicBelow snap root := by
  intro pe hpe hne hbelow hcyc
  have hpp : Reachable snap pe.th32ParentProcessID pe.th32ParentProcessID :=
    reachable_trans (Reachable.child pe hpe rfl) hcyc
  have hrr : Reachable snap root root := by
    rcases hbelow with h | h
    · rw [h] at hpp; exact hpp
    · exact reachable_trans h (cycle_through_root hu h hpp)
  obtain ⟨pe1, hmem1, hpid1, hpar1⟩ := record_of_reachable hrr
  by_cases hself : pe1.th32ParentProcessID = root
  · have hback : pe.th32ParentProcessID = root := by
      rcases hbelow with h | h
      · exact h
      · exact reachable_selfloop hu hmem1 hpid1 hself _ _
          (cycle_through_root hu h hpp) rfl
    rw [hback] at hcyc hne
    exact hne (reachable_selfloop hu hmem1 hpid1 hself _ _ hcyc rfl)
  · rcases hpar1 with h | h
    · exact hself h
    · exact hno pe1 hmem1 hpid1 hself h

/-! ## Lemmas on the order of the iterative walk -/

theorem lt_length_of_getElem? {α : Type} {l : List α} {i : Nat} {a : α}
    (h : l[i]? = some a) : i < l.length := by
  by_contra hge
  rw [List.getElem?_eq_none (Nat.le_of_not_lt hge)] at h
  cases h

/-- One turn of the `while` loop keeps the order: the pids pushed name the
popped pid as their parent, and the popped pid is `root` or already listed. -/
theorem parentsFirst_append {snap : List PROCESSENTRY32} {root s : DWORD} {l : List DWORD}
    (hs : s = root ∨ s ∈ l) (hl : ParentsFirst snap root l) :
    ParentsFirst snap root (l ++ kidsOf snap root s) := by
  intro i x hx
  by_cases hi : i < l.length
  · rw [List.getElem?_append_left hi] at hx
    obtain ⟨pe, hpe, hpid, hpar⟩ := hl i x hx
    refine ⟨pe, hpe, hpid, ?_⟩
    rcases hpar with h | ⟨j, hj, hjp⟩
    · exact Or.inl h
    · exact Or.inr ⟨j, hj, by rw [List.getElem?_append_left (by omega)]; exact hjp⟩
  · rw [List.getElem?_append_right (Nat.le_of_not_lt hi)] at hx
    have hmem : x ∈ kidsOf snap root s := List.mem_iff_getElem?.mpr ⟨_, hx⟩
    obtain ⟨pe, hpe, hpid, hpar, _⟩ := mem_kidsOf.mp hmem
    refine ⟨pe, hpe, hpid, ?_⟩
    rcases hs with h | h
    · exact Or.inl (hpar.trans h)
    · obtain ⟨j, hj⟩ := List.mem_iff_getElem?.mp h
      have hjl := lt_length_of_getElem? hj
      exact Or.inr ⟨j, by omega, by rw [List.getElem?_append_left hjl, hj, hpar]⟩

/-- Whenever the `while` loop of `GetAllDescendants` exits, the pids it has
appended stand parents first. -/
theorem visitLoop_parentsFirst {snap : List PROCESSENTRY32} {root : DWORD}
    (out0 : List DWORD) :
    ∀ (fuel : Nat) (l S res : List DWORD), (∀ s ∈ S, s = root ∨ s ∈ l) →
      ParentsFirst snap root l →
      visitLoop snap root fuel (out0 ++ l, S) = some res →
      ∃ l1, res = out0 ++ l1 ∧ ParentsFirst snap root l1 := by
  intro fuel
  induction fuel with
  | zero => intro l S res _ _ h; simp [visitLoop] at h
  | succ fuel ih =>
    intro l S res hS hl h
    rw [visitLoop] at h
    rcases List.eq_nil_or_concat S with rfl | ⟨S1, s, rfl⟩
    · rw [visitStep_nil] at h
      simp only [Option.some.injEq] at h
      exact ⟨l, h.symm, hl⟩
    · rw [List.concat_eq_append, visitStep_concat] at h
      simp only [List.append_assoc] at h
      refine ih (l ++ kidsOf snap root s) _ res ?_ ?_ h
      · intro t ht
        rcases List.mem_append.mp ht with h1 | h1
        · rcases hS t (by rw [List.concat_eq_append]; exact List.mem_append_left _ h1)
            with h2 | h2
          · exact Or.inl h2
          · exact Or.inr (List.mem_append_left _ h2)
        · exact Or.inr (List.mem_append_right _ h1)
      · exact parentsFirst_append
          (hS s (by rw [List.concat_eq_append]; simp)) hl

/-! ## Lemmas on the teardown of `main` -/

/-- The clean-up loop of `main` makes one `OpenProcess` attempt on each listed
pid, in list order, and takes no snapshot. -/
theorem cleanupLoop_attempts (env : Env) :
    ∀ (pids : List DWORD) (tr : List Event),
      ∃ evs, cleanupLoop env pids tr = tr ++ evs ∧ openAttempts evs = pids ∧
        snapshotCalls evs = 0 := by
  intro pids
  induction pids with
  | nil => intro tr; exact ⟨[], by simp [cleanupLoop], rfl, rfl⟩
  | cons pid rest ih =>
    intro tr
    rw [cleanupLoop]
    cases ho : env.OpenProcess tr pid with
    | true =>
      simp only [if_true]
      obtain ⟨evs, he, ha, hs⟩ := ih (tr ++ [Event.openProcess pid true] ++
        [Event.terminateProcess pid
          (env.TerminateProcess (tr ++ [Event.openProcess pid true]) pid),
         Event.closeProcess pid])
      refine ⟨[Event.openProcess pid true] ++
        ([Event.terminateProcess pid
          (env.TerminateProcess (tr ++ [Event.openProcess pid true]) pid),
         Event.closeProcess pid] ++ evs), ?_, ?_, ?_⟩
      · rw [he]; simp only [List.append_assoc]
      · rw [openAttempts_append, openAttempts_append, ha]; simp [openAttempts]
      · rw [snapshotCalls_append, snapshotCalls_append, hs]; simp [snapshotCalls]
    | false =>
      simp only [Bool.false_eq_true, if_false]
      obtain ⟨evs, he, ha, hs⟩ := ih (tr ++ [Event.openProcess pid false])
      refine ⟨[Event.openProcess pid false] ++ evs, ?_, ?_, ?_⟩
      · rw [he]; simp only [List.append_assoc]
      · rw [openAttempts_append, ha]; simp [openAttempts]
      · rw [snapshotCalls_append, hs]; simp [snapshotCalls]

/-- The job branch of the kill step: the trigger, then one attempt on the
shell, and no snapshot. -/
theorem killStep_job (m : MainEnv) (fuel : Nat) (shellPid : DWORD) (tr : List MainEvent) :
    ∃ e1 : List Event, killStep m false fuel shellPid tr
        = some (tr ++ [MainEvent.terminateJob (m.TerminateJobObject tr)] ++
            e1.map MainEvent.os) ∧
      openAttempts e1 = [shellPid] ∧ snapshotCalls e1 = 0 := by
  unfold killStep
  simp only [Bool.false_eq_true, if_false]
  cases ho : m.OpenProcess (tr ++ [MainEvent.terminateJob (m.TerminateJobObject tr)])
      shellPid with
  | true =>
    simp only [if_true]
    exact ⟨[Event.openProcess shellPid true,
      Event.terminateProcess shellPid
        (m.TerminateProcess (tr ++ [MainEvent.terminateJob (m.TerminateJobObject tr)] ++
          [MainEvent.os (Event.openProcess shellPid true)]) shellPid),
      Event.closeProcess shellPid], by simp, rfl, rfl⟩
  | false =>
    simp only [Bool.false_eq_true, if_false]
    exact ⟨[Event.openProcess shellPid false], by simp, rfl, rfl⟩

/-! ## Lemmas on the window enumeration -/

theorem wrapInt32_of_range {z : Int} (hlo : -(2 ^ 31) ≤ z) (hhi : z < 2 ^ 31) :
    wrapInt32 z = z := by
  unfold wrapInt32
  omega

theorem EnumWindowsCallback_full {w : TopWindow} {data : EnumWindowsData}
    (h : data.currentCount ≥ data.maxWindows) :
    EnumWindowsCallback w data = (false, data) := by
  unfold EnumWindowsCallback
  rw [if_pos h]

theorem EnumWindowsCallback_skip {w : TopWindow} {data : EnumWindowsData}
    (h : ¬ data.currentCount ≥ data.maxWindows)
    (hskip : w.IsWindowVisible = false ∨ w.GetWindowTextLength = 0 ∨ w.GetWindowRect = none) :
    EnumWindowsCallback w data = (true, data) := by
  unfold EnumWindowsCallback
  rw [if_neg h]
  by_cases h1 : w.IsWindowVisible = false ∨ w.GetWindowTextLength = 0
  · rw [if_pos h1]
  · rw [if_neg h1]
    rcases hskip with h2 | h2 | h2
    · exact absurd (Or.inl h2) h1
    · exact absurd (Or.inr h2) h1
    · rw [h2]

theorem EnumWindowsCallback_store {w : TopWindow} {data : EnumWindowsData} {rect : RECT}
    (h : ¬ data.currentCount ≥ data.maxWindows)
    (hvis : w.IsWindowVisible = true) (hlen : w.GetWindowTextLength ≠ 0)
    (hrect : w.GetWindowRect = some rect) :
    EnumWindowsCallback w data
      = (true, ⟨data.windows ++ [(data.currentCount,
            ⟨w.GetWindowTextA.take 255, rect.left, rect.top,
              wrapInt32 (rect.right - rect.left), wrapInt32 (rect.bottom - rect.top),
              w.hwnd⟩)],
          data.maxWindows, wrapInt32 (data.currentCount + 1)⟩) := by
  unfold EnumWindowsCallback
  rw [if_neg h, if_neg (by simp [hvis, hlen]), hrect]

/-- The enumeration keeps `currentCount` equal to the number of stores and at
most `maxWindows`; the stores go to the indices from the starting count up,
one after the other, each recording a window that qualifies. -/
theorem EnumWindows_inv (all : List TopWindow) :
    ∀ (top : List TopWindow) (data : EnumWindowsData), (∀ w ∈ top, w ∈ all) →
      data.currentCount = data.windows.length → data.currentCount ≤ data.maxWindows →
      data.maxWindows < 2 ^ 31 →
      (EnumWindows top data).1.maxWindows = data.maxWindows ∧
      (EnumWindows top data).1.currentCount = (EnumWindows top data).1.windows.length ∧
      (EnumWindows top data).1.currentCount ≤ data.maxWindows ∧
      ∃ new, (EnumWindows top data).1.windows = data.windows ++ new ∧
        new.map Prod.fst = (List.range' data.windows.length new.length).map Int.ofNat ∧
        ∀ e ∈ new, Recorded all e := by
  intro top
  induction top with
  | nil =>
    intro data _ hc hle _
    exact ⟨rfl, hc, hle, [], by simp [EnumWindows], rfl, by simp⟩
  | cons w rest ih =>
    intro data hall hc hle hmax
    have hrest : ∀ v ∈ rest, v ∈ all := fun v hv => hall v (List.mem_cons_of_mem _ hv)
    rw [EnumWindows]
    by_cases hfull : data.currentCount ≥ data.maxWindows
    · rw [EnumWindowsCallback_full hfull]
      dsimp only
      rw [if_neg (by simp)]
      exact ⟨rfl, hc, hle, [], by simp, rfl, by simp⟩
    · by_cases hskip : w.IsWindowVisible = false ∨ w.GetWindowTextLength = 0 ∨
          w.GetWindowRect = none
      · rw [EnumWindowsCallback_skip hfull hskip]
        simp only [if_true]
        exact ih data hrest hc hle hmax
      · have hvis : w.IsWindowVisible = true := by
          cases hv : w.IsWindowVisible with
          | true => rfl
          | false => exact absurd (Or.inl hv) hskip
        have hlen : w.GetWindowTextLength ≠ 0 := fun h => hskip (Or.inr (Or.inl h))
        obtain ⟨rect, hrect⟩ : ∃ rect, w.GetWindowRect = some rect := by
          cases hr : w.GetWindowRect with
          | none => exact absurd (Or.inr (Or.inr hr)) hskip
          | some rect => exact ⟨rect, rfl⟩
        rw [EnumWindowsCallback_store hfull hvis hlen hrect]
        dsimp only
        rw [if_pos rfl]
        have hwrap : wrapInt32 (data.currentCount + 1) = data.currentCount + 1 :=
          wrapInt32_of_range (by omega) (by omega)
        rw [hwrap]
        obtain ⟨h1, h2, h3, new, h4, h5, h6⟩ := ih
          ⟨data.windows ++ [(data.currentCount,
              ⟨w.GetWindowTextA.take 255, rect.left, rect.top,
                wrapInt32 (rect.right - rect.left), wrapInt32 (rect.bottom - rect.top),
                w.hwnd⟩)],
            data.maxWindows, data.currentCount + 1⟩ hrest
          (by simp [hc]) (by simp only; omega) hmax
        refine ⟨h1, h2, h3, (data.currentCount,
              ⟨w.GetWindowTextA.take 255, rect.left, rect.top,
                wrapInt32 (rect.right - rect.left), wrapInt32 (rect.bottom - rect.top),
                w.hwnd⟩) :: new, ?_, ?_, ?_⟩
        · rw [h4]; simp
        · simp only [List.length_append, List.length_singleton] at h5
          simp only [List.map_cons, List.length_cons, List.range'_succ, h5, hc]
          rfl
        · intro e he
          rcases List.mem_cons.mp he with rfl | he
          · exact ⟨w, hall w (List.mem_cons_self _ _), rfl, hvis, hlen, rect, hrect,
              rfl, rfl, rfl⟩
          · exact h6 e he

/-! ## Lemmas on launching and positioning -/

theorem toDWORD_toInt32 {pid : Nat} (h : pid < 2 ^ 32) : toDWORD (toInt32 pid) = pid := by
  unfold toDWORD toInt32
  rw [Nat.mod_eq_of_lt h]
  split_ifs with hlt
  · have : ((pid : Nat) : Int) % 2 ^ 32 = pid := Int.emod_eq_of_lt (by omega) (by omega)
    rw [this]
    exact Int.toNat_ofNat pid
  · have : (((pid : Nat) : Int) - 2 ^ 32) % 2 ^ 32 = pid := by
      rw [Int.sub_emod, Int.emod_self, Int.sub_zero, Int.emod_emod]
      exact Int.emod_eq_of_lt (by omega) (by omega)
    rw [this]
    exact Int.toNat_ofNat pid

theorem toDWORD_zero : toDWORD 0 = 0 := rfl

theorem tdiv_toNat_of_lt {timeoutMs : Int} (h : timeoutMs < 100) :
    (Int.tdiv timeoutMs 100).toNat = 0 := by
  by_cases h0 : 0 ≤ timeoutMs
  · rw [Int.tdiv_eq_zero_of_lt h0 h]
    rfl
  · have hneg : timeoutMs = -(-timeoutMs) := by omega
    have h1 : 0 ≤ (-timeoutMs).tdiv 100 := Int.tdiv_nonneg (by omega) (by omega)
    rw [hneg, Int.neg_tdiv]
    omega

theorem pollResults_append (a b : List WinEvent) :
    pollResults (a ++ b) = pollResults a ++ pollResults b := by
  simp [pollResults, List.filterMap_append]

theorem positioningLoop_found (env : WinEnv) (processId : DWORD)
    (fragment : Option (List Char)) (n : Nat) (st : HWND × List WinEvent) (h : st.1 ≠ 0) :
    positioningLoop env processId fragment n st = st := by
  cases n with
  | zero => rfl
  | succ n => rw [positioningLoop, if_pos h]

/-- The polling loop, entered with no window: it polls until a poll finds a
window or the attempts are used up; every event is a `Sleep(100)` or a poll. -/
theorem positioningLoop_polls (env : WinEnv) (processId : DWORD)
    (fragment : Option (List Char)) :
    ∀ (n : Nat) (tr0 : List WinEvent),
      ∃ evs k target,
        positioningLoop env processId fragment n (0, tr0) = (target, tr0 ++ evs) ∧
        pollResults evs = List.replicate k 0 ++ (if target = 0 then [] else [target]) ∧
        k + (if target = 0 then 0 else 1) ≤ n ∧ (target = 0 → k = n) ∧
        ∀ e ∈ evs, e = WinEvent.sleep 100 ∨ ∃ found, e = WinEvent.enumWindows found := by
  intro n
  induction n with
  | zero =>
    intro tr0
    exact ⟨[], 0, 0, by simp [positioningLoop], by simp [pollResults], by simp, by simp,
      by simp⟩
  | succ n ih =>
    intro tr0
    rw [positioningLoop, if_neg (by simp)]
    dsimp only
    generalize hfound : FindWindowByProcessAndTitle processId fragment
      (env.EnumWindows (tr0 ++ [WinEvent.sleep 100])) = found
    by_cases hz : found = 0
    · subst hz
      obtain ⟨evs, k, target, hrun, hpoll, hle, hex, hev⟩ :=
        ih (tr0 ++ [WinEvent.sleep 100] ++ [WinEvent.enumWindows 0])
      refine ⟨[WinEvent.sleep 100, WinEvent.enumWindows 0] ++ evs, k + 1, target, ?_, ?_,
        by omega, fun h => by rw [hex h], ?_⟩
      · rw [hrun]; simp
      · rw [pollResults_append, hpoll]
        simp [pollResults, List.replicate_succ]
      · intro e he
        rcases List.mem_append.mp he with h | h
        · simp only [List.mem_cons, List.mem_singleton, List.not_mem_nil, or_false] at h
          rcases h with rfl | rfl
          · exact Or.inl rfl
          · exact Or.inr ⟨0, rfl⟩
        · exact hev e h
    · rw [positioningLoop_found env processId fragment n _ hz]
      refine ⟨[WinEvent.sleep 100, WinEvent.enumWindows found], 0, found, by simp, ?_,
        by simp [hz], fun h => absurd h hz, ?_⟩
      · simp [pollResults, hz]
      · intro e he
        simp only [List.mem_cons, List.mem_singleton, List.not_mem_nil, or_false] at he
        rcases he with rfl | rfl
        · exact Or.inl rfl
        · exact Or.inr ⟨found, rfl⟩

/-! ## Lemmas on the SSH session -/

theorem launches_append (a b : List WinEvent) :
    launches (a ++ b) = launches a ++ launches b := by
  simp [launches, List.filterMap_append]

theorem keyEvents_append (a b : List WinEvent) :
    keyEvents (a ++ b) = keyEvents a ++ keyEvents b := by
  simp [keyEvents, List.filterMap_append]

theorem after_refl (a : List WinEvent) : After a a := ⟨[], by simp, rfl⟩

theorem after_append {a b : List WinEvent} (h : After a b) (evs : List WinEvent)
    (he : launches evs = []) : After a (b ++ evs) := by
  obtain ⟨e1, rfl, h1⟩ := h
  exact ⟨e1 ++ evs, by simp, by rw [launches_append, h1, he]; rfl⟩

theorem after_sleep {a b : List WinEvent} (h : After a b) (ms : Nat) :
    After a (b ++ [WinEvent.sleep ms]) := after_append h _ rfl

theorem after_keystrokes (env : WinEnv) {a : List WinEvent} :
    ∀ (text : List Nat) (b : List WinEvent), After a b → After a (keystrokes env text b) := by
  intro text
  induction text with
  | nil => intro b h; exact h
  | cons c rest ih =>
    intro b h
    rw [keystrokes]
    dsimp only
    split_ifs
    · exact ih _ (after_append h _ rfl)
    · exact ih _ (after_append h _ rfl)
    · exact ih _ (after_append h _ rfl)

theorem after_send (env : WinEnv) (hwnd : HWND) (text : String) {a b : List WinEvent}
    (h : After a b) : After a (send_text_to_window env hwnd text b).2 := by
  unfold send_text_to_window
  split_ifs
  · apply after_keystrokes
    exact after_append h _ rfl
  · exact after_append h _ rfl

theorem after_position (env : WinEnv) (hwnd : HWND) (x y width height : Int)
    {a b : List WinEvent} (h : After a b) :
    After a (position_window_by_hwnd env hwnd x y width height b).2 := by
  unfold position_window_by_hwnd
  split_ifs
  · dsimp only
    refine after_append ?_ _ rfl
    exact after_append h _ rfl
  · exact after_append h _ rfl

theorem after_sshWaitLoop (env : WinEnv) {a : List WinEvent} :
    ∀ (n : Nat) (st : HWND × List WinEvent), After a st.2 →
      After a (sshWaitLoop env n st).2 := by
  intro n
  induction n with
  | zero => intro st h; exact h
  | succ n ih =>
    intro st h
    rw [sshWaitLoop]
    dsimp only
    split_ifs
    · exact h
    · apply ih
      refine after_append ?_ _ rfl
      exact after_append h _ rfl
    · exact after_append h _ rfl

/-- The command line `execute_ssh_session` builds. -/
theorem ssh_command_line (port : Int) (username host : String) :
    "cmd /k " ++ ((if port ≠ 22 then "ssh " ++ ("-p " ++ toString port ++ " ") else "ssh ")
        ++ (username ++ "@" ++ host))
      = if port = 22 then "cmd /k ssh " ++ username ++ "@" ++ host
        else "cmd /k ssh -p " ++ toString port ++ " " ++ username ++ "@" ++ host := by
  have h1 : "cmd /k " ++ "ssh " = "cmd /k ssh " := by decide
  have h2 : "cmd /k " ++ "ssh " ++ "-p " = "cmd /k ssh -p " := by decide
  by_cases hp : port = 22
  · rw [if_neg (not_not.mpr hp), if_pos hp, ← h1]
    simp only [String.append_assoc]
  · rw [if_pos hp, if_neg hp, ← h2]
    simp only [String.append_assoc]

/-- When the launch fails, `execute_ssh_session` returns 0 after that one call. -/
theorem execute_ssh_session_failed (env : WinEnv) (host username password : String)
    (port : Int) (remote_dir remote_command : Option String) (x y width height : Int)
    (tr : List WinEvent) (line : String)
    (hline : "cmd /k " ++ ((if port ≠ 22 then "ssh " ++ ("-p " ++ toString port ++ " ")
        else "ssh ") ++ (username ++ "@" ++ host)) = line)
    (hfail : env.CreateProcessA tr line none = none) :
    execute_ssh_session env host username password port remote_dir remote_command
        x y width height tr
      = (0, tr ++ [WinEvent.createProcess line none none]) := by
  unfold execute_ssh_session execute_command
  dsimp only
  rw [hline, hfail]
  dsimp only
  rw [toDWORD_zero, if_pos rfl]

/-- When the launch gives a process id, everything `execute_ssh_session` does
after the launch and the close of its two handles launches nothing. -/
theorem execute_ssh_session_launched (env : WinEnv) (host username password : String)
    (port : Int) (remote_dir remote_command : Option String) (x y width height : Int)
    (tr : List WinEvent) (line : String) (pid : DWORD)
    (hline : "cmd /k " ++ ((if port ≠ 22 then "ssh " ++ ("-p " ++ toString port ++ " ")
        else "ssh ") ++ (username ++ "@" ++ host)) = line)
    (hpid : env.CreateProcessA tr line none = some pid) :
    After (tr ++ [WinEvent.createProcess line none (some pid), WinEvent.closeProcessHandles])
      (execute_ssh_session env host username password port remote_dir remote_command
        x y width height tr).2 := by
  unfold execute_ssh_session execute_command
  dsimp only
  rw [hline, hpid]
  dsimp only
  cases remote_dir <;> cases remote_command <;> dsimp only <;> split_ifs <;>
    repeat (first
      | exact after_refl _
      | apply after_send
      | apply after_position
      | apply after_sleep
      | apply after_sshWaitLoop)

/-! ## Lemmas on the attempts of a sweep -/

theorem attemptOutcomes_fst (env : Env) :
    ∀ (l : List DWORD) (tr : List Event), (attemptOutcomes env l tr).map Prod.fst = l := by
  intro l
  induction l with
  | nil => intro tr; rfl
  | cons pid rest ih =>
    intro tr
    rw [attemptOutcomes]
    split_ifs
    · rw [List.map_cons, ih]
    · rw [List.map_cons, ih]

theorem attemptOutcomes_append (env : Env) :
    ∀ (a b : List DWORD) (tr : List Event),
      attemptOutcomes env (a ++ b) tr
        = attemptOutcomes env a tr ++
          attemptOutcomes env b (tr ++ (attemptOutcomes env a tr).flatMap attemptEvents) := by
  intro a
  induction a with
  | nil => intro b tr; simp [attemptOutcomes]
  | cons pid rest ih =>
    intro b tr
    rw [List.cons_append, attemptOutcomes, attemptOutcomes]
    split_ifs
    · rw [ih]
      simp [attemptEvents, List.append_assoc]
    · rw [ih]
      simp [attemptEvents, List.append_assoc]

/-- The sweep loop of `KillProcessTree` makes the attempts on the entries it
passes, last entry first, one whole attempt after the other. -/
theorem killLoop_outcomes (env : Env) (desc : List DWORD) :
    ∀ (k : Nat), k ≤ desc.length → ∀ st : Bool × List Event,
      (killLoop env desc k st).2
        = st.2 ++ (attemptOutcomes env (desc.take k).reverse st.2).flatMap attemptEvents := by
  intro k
  induction k with
  | zero => intro _ st; simp [killLoop, attemptOutcomes]
  | succ k ih =>
    intro hk st
    have hk1 : k ≤ desc.length := Nat.le_of_succ_le hk
    rw [take_succ_getD desc (Nat.lt_of_succ_le hk), List.reverse_append,
      List.reverse_singleton, List.singleton_append]
    rw [killLoop, attemptOutcomes]
    cases ho : env.OpenProcess st.2 (desc.getD k 0) with
    | true =>
      cases ht : env.TerminateProcess
          (st.2 ++ [Event.openProcess (desc.getD k 0) true]) (desc.getD k 0) with
      | true =>
        simp only [ht, if_true]
        rw [ih hk1]
        simp [attemptEvents, List.append_assoc]
      | false =>
        simp only [ht, if_true, Bool.false_eq_true, if_false]
        rw [ih hk1]
        simp [attemptEvents, List.append_assoc]
    | false =>
      simp only [Bool.false_eq_true, if_false]
      rw [ih hk1]
      simp [attemptEvents, List.append_assoc]

/-- The root block of `KillProcessTree` is one attempt on the root. -/
theorem killRoot_outcomes (env : Env) (root : DWORD) (tr : List Event) :
    killRoot env root tr
      = tr ++ (attemptOutcomes env [root] tr).flatMap attemptEvents := by
  unfold killRoot
  rw [attemptOutcomes]
  cases ho : env.OpenProcess tr root with
  | true => simp [attemptEvents, attemptOutcomes, List.append_assoc]
  | false => simp [attemptEvents, attemptOutcomes]

/-- A pass of `KillProcessTree` whose resolution returned is, after the
resolution, the attempts on the resolved descendants, last entry first, and
then the attempt on the root. -/
theorem KillProcessTree_outcomes (env : Env) (fuel : Nat) (root : DWORD) (tr0 : List Event)
    (desc : List DWORD) (tr1 : List Event)
    (hres : GetDescendants env fuel root ([], tr0) = some (desc, tr1))
    (hlen : desc.length < 2 ^ 31) :
    ∃ ret e1, KillProcessTree env fuel root tr0
        = some (ret, tr0 ++ (e1 ++
            (attemptOutcomes env (desc.reverse ++ [root]) tr1).flatMap attemptEvents)) ∧
      tr1 = tr0 ++ e1 ∧ Quiet e1 := by
  obtain ⟨ret, e1, e2, e3, hk, htr1, hq1, hloop, _, hroot, _, _⟩ :=
    KillProcessTree_pass env fuel root tr0 desc tr1 hres hlen
  have h2 := killLoop_outcomes env desc desc.length (Nat.le_refl _) (true, tr1)
  rw [hloop, List.take_length] at h2
  have he2 : e2 = (attemptOutcomes env desc.reverse tr1).flatMap attemptEvents :=
    List.append_cancel_left h2
  have h3 := killRoot_outcomes env root (tr1 ++ e2)
  rw [hroot] at h3
  have he3 : e3 = (attemptOutcomes env [root] (tr1 ++ e2)).flatMap attemptEvents :=
    List.append_cancel_left h3
  refine ⟨ret, e1, ?_, htr1, hq1⟩
  rw [hk, attemptOutcomes_append, List.flatMap_append, ← he2, ← he3]
  simp [List.append_assoc]

theorem openAttempts_attempts (as : List (DWORD × Option Bool)) :
    openAttempts (as.flatMap attemptEvents) = as.map Prod.fst := by
  induction as with
  | nil => rfl
  | cons a rest ih =>
    obtain ⟨pid, o⟩ := a
    rw [List.flatMap_cons, openAttempts_append, ih]
    cases o <;> simp [attemptEvents, openAttempts]

theorem attemptOutcomes_singleton (env : Env) (pid : DWORD) (tr : List Event) :
    attemptOutcomes env [pid] tr
      = [(pid, if env.OpenProcess tr pid then
          some (env.TerminateProcess (tr ++ [Event.openProcess pid true]) pid)
        else none)] := by
  rw [attemptOutcomes]
  split_ifs <;> rfl

/-- Whenever the `while` loop of `GetAllDescendants` exits, the pids it has
appended are closed under the children it pushes: each pushed child of the
root and of a listed pid is listed. -/
theorem visitLoop_closed {snap : List PROCESSENTRY32} {root : DWORD}
    (out0 : List DWORD) :
    ∀ (fuel : Nat) (l S res : List DWORD),
      (∀ p, (p = root ∨ p ∈ l) → p ∈ S ∨ ∀ c ∈ kidsOf snap root p, c ∈ l) →
      visitLoop snap root fuel (out0 ++ l, S) = some res →
      ∃ l1, res = out0 ++ l1 ∧
        ∀ p, (p = root ∨ p ∈ l1) → ∀ c ∈ kidsOf snap root p, c ∈ l1 := by
  intro fuel
  induction fuel with
  | zero => intro l S res _ h; simp [visitLoop] at h
  | succ fuel ih =>
    intro l S res hinv h
    rw [visitLoop] at h
    rcases List.eq_nil_or_concat S with rfl | ⟨S1, s, rfl⟩
    · rw [visitStep_nil] at h
      simp only [Option.some.injEq] at h
      refine ⟨l, h.symm, ?_⟩
      intro p hp
      rcases hinv p hp with h1 | h1
      · simp at h1
      · exact h1
    · rw [List.concat_eq_append, visitStep_concat] at h
      simp only [List.append_assoc] at h
      refine ih (l ++ kidsOf snap root s) _ res ?_ h
      intro p hp
      by_cases hpk : p ∈ kidsOf snap root s
      · exact Or.inl (List.mem_append_right _ hpk)
      · have hp1 : p = root ∨ p ∈ l := by
          rcases hp with h1 | h1
          · exact Or.inl h1
          · rcases List.mem_append.mp h1 with h2 | h2
            · exact Or.inr h2
            · exact absurd h2 hpk
        rcases hinv p hp1 with h1 | h1
        · rw [List.concat_eq_append] at h1
          rcases List.mem_append.mp h1 with h2 | h2
          · exact Or.inl (List.mem_append_left _ h2)
          · rw [List.mem_singleton] at h2
            subst h2
            exact Or.inr (fun c hc => List.mem_append_right _ hc)
        · exact Or.inr (fun c hc => List.mem_append_left _ (h1 c hc))

/-- A list closed under the pushed children holds every pid other than the
root that is reachable from the root. -/
theorem mem_of_reachable_closed {snap : List PROCESSENTRY32} {root : DWORD} {l : List DWORD}
    (hclosed : ∀ p, (p = root ∨ p ∈ l) → ∀ c ∈ kidsOf snap root p, c ∈ l) :
    ∀ x, Reachable snap root x → x ≠ root → x ∈ l := by
  intro x h
  induction h with
  | child pe hmem hpar =>
    intro hne
    exact hclosed root (Or.inl rfl) _ (mem_kidsOf.mpr ⟨pe, hmem, rfl, hpar, hne⟩)
  | step pe hmem _ ih =>
    intro hne
    by_cases hp : pe.th32ParentProcessID = root
    · exact hclosed root (Or.inl rfl) _ (mem_kidsOf.mpr ⟨pe, hmem, rfl, hp, hne⟩)
    · exact hclosed _ (Or.inr (ih hp)) _ (mem_kidsOf.mpr ⟨pe, hmem, rfl, rfl, hne⟩)

/-- Every pid of a list that stands parents first is reachable from the root. -/
theorem reachable_of_parentsFirst {snap : List PROCESSENTRY32} {root : DWORD} {l : List DWORD}
    (hpf : ParentsFirst snap root l) :
    ∀ (i : Nat) (x : DWORD), l[i]? = some x → Reachable snap root x := by
  intro i
  induction i using Nat.strong_induction_on with
  | _ i ih =>
    intro x hx
    obtain ⟨pe, hpe, hpid, hpar⟩ := hpf i x hx
    rw [← hpid]
    rcases hpar with h | ⟨j, hj, hjp⟩
    · exact Reachable.child pe hpe h
    · exact Reachable.step pe hpe (ih j hj _ hjp)

/-! ## The claims -/

/-- C1. For every process table `snap` with unique pids and an acyclic parent
relation (of fewer than `2^31` records) that stays the same during the pass,
and every root: if every `OpenProcess` and every `TerminateProcess` call
succeeds, then with more fuel than records `KillProcessTree` returns `true`,
and its trace holds a successful `TerminateProcess` on the root and on every
pid reachable from the root in the snapshot.  The sweep uses no job object. -/
theorem C1_tree_walk_kills_whole_tree (env : Env) (snap : List PROCESSENTRY32)
    (hstatic : ∀ h, env.CreateToolhelp32Snapshot h = some snap)
    (hu : UniquePids snap) (hac : Acyclic snap) (hsize : snap.length < 2 ^ 31)
    (hopen : ∀ h pid, env.OpenProcess h pid = true)
    (hterm : ∀ h pid, env.TerminateProcess h pid = true)
    (rootPid : DWORD) (tr0 : List Event) :
    ∀ fuel, snap.length < fuel →
      ∃ evs, KillProcessTree env fuel rootPid tr0 = some (true, tr0 ++ evs) ∧
        ∀ x, (x = rootPid ∨ Reachable snap rootPid x) →
          Event.terminateProcess x true ∈ evs := by
  intro fuel hfuel
  obtain ⟨f, rfl⟩ : ∃ f, fuel = f + 1 := ⟨fuel - 1, by omega⟩
  have hcomp : complete snap f rootPid = true :=
    complete_mono (Nat.le_of_lt_succ hfuel)
      (complete_of_acyclicBelow (acyclicBelow_of_acyclic hac rootPid))
  have hres : GetDescendants env (f + 1) rootPid ([], tr0)
      = some (dfs snap f rootPid, tr0 ++ dfsTrace snap f rootPid) := by
    rw [GetDescendants_static env snap hstatic, if_pos hcomp, List.nil_append]
  have hlen : (dfs snap f rootPid).length < 2 ^ 31 :=
    Nat.lt_of_le_of_lt (dfs_length_le hu hcomp) hsize
  obtain ⟨ret, e1, e2, e3, hk, _, _, hloop, _, hroot, _, _⟩ :=
    KillProcessTree_pass env (f + 1) rootPid tr0 _ _ hres hlen
  obtain ⟨e2', hloop', hkilled⟩ := killLoop_allSucceed env (dfs snap f rootPid) hopen hterm
    (dfs snap f rootPid).length (Nat.le_refl _) (true, tr0 ++ dfsTrace snap f rootPid)
  rw [hloop] at hloop'
  simp only [Prod.mk.injEq, List.append_cancel_left_eq] at hloop'
  obtain ⟨hret, he2⟩ := hloop'
  subst hret
  subst he2
  rw [List.take_length] at hkilled
  have he3 : Event.terminateProcess rootPid true ∈ e3 := by
    unfold killRoot at hroot
    simp only [hopen, hterm, if_true, List.append_assoc, List.append_cancel_left_eq] at hroot
    rw [← hroot]
    simp
  refine ⟨e1 ++ e2 ++ e3, hk, ?_⟩
  intro x hx
  have hx1 : x = rootPid ∨ x ∈ dfs snap f rootPid := by
    rcases hx with hx | hx
    · exact Or.inl hx
    · exact mem_dfs_of_reachable hcomp hx
  rcases hx1 with rfl | hx1
  · exact List.mem_append_right _ he3
  · exact List.mem_append_left _ (List.mem_append_right _ (hkilled x hx1))

theorem C1_tree_walk_kills_whole_tree_witness :
    ∃ evs, KillProcessTree obligingEnv 7 1 [] = some (true, [] ++ evs) ∧
      ∀ x, (x = 1 ∨ Reachable sampleSnap 1 x) → Event.terminateProcess x true ∈ evs :=
  C1_tree_walk_kills_whole_tree obligingEnv sampleSnap (fun _ => rfl)
    (by unfold UniquePids; decide) (acyclic_of_rank (fun x => x) (by decide)) (by decide)
    (fun _ _ => rfl) (fun _ _ => rfl) 1 [] 7 (by decide)

/-- C2. For every process table `snap` with unique pids that stays the same
during the resolution, and every root under which it forms a tree: with
fuel for two turns more than the snapshot has records, `GetDescendants` and
`GetAllDescendants` both return, and the pids
each of them appended form a list without duplicates in which a pid occurs if
and only if it differs from the root and is reachable from the root along
`parentPid` edges; so each list has exactly as many entries as the root has
transitive descendants. -/
theorem C2_resolution_is_exact (env : Env) (snap : List PROCESSENTRY32)
    (hstatic : ∀ h, env.CreateToolhelp32Snapshot h = some snap)
    (rootPid : DWORD) (hu : UniquePids snap) (hac : AcyclicBelow snap rootPid)
    (out : List DWORD) (tr : List Event) :
    ∀ fuel, snap.length + 2 ≤ fuel →
      ∃ l1 tr1 l2 tr2,
        GetDescendants env fuel rootPid (out, tr) = some (out ++ l1, tr1) ∧
        ExactDescendants snap rootPid l1 ∧
        GetAllDescendants env fuel rootPid (out, tr) = some (out ++ l2, tr2) ∧
        ExactDescendants snap rootPid l2 := by
  have hroot := complete_of_acyclicBelow hac
  generalize hg : snap.length = g at hroot
  intro fuel hfuel
  have hf2 : (dfs snap g rootPid).length + 2 ≤ fuel := by
    have := dfs_length_le hu hroot
    omega
  obtain ⟨f, rfl⟩ : ∃ f, fuel = f + 1 := ⟨fuel - 1, by omega⟩
  have hgf : g ≤ f := by omega
  have hcomp : complete snap f rootPid = true := complete_mono hgf hroot
  have hexact : ExactDescendants snap rootPid (dfs snap g rootPid) :=
    exactDescendants_of (dfs_nodup hu g rootPid hroot) (fun x => mem_dfs_iff hroot)
  obtain ⟨l2, hrun, hperm⟩ := visitLoop_perm hu hroot (f + 1) [rootPid] out
    (by intro s hs; left; simpa using hs)
    (by simp only [List.map_cons, List.map_nil, List.sum_cons, List.sum_nil]; omega)
  simp only [List.flatMap_cons, List.flatMap_nil, List.append_nil] at hperm
  refine ⟨dfs snap g rootPid, tr ++ dfsTrace snap f rootPid, l2,
    tr ++ [Event.snapshot true, Event.closeSnapshot], ?_, hexact, ?_, ?_⟩
  · rw [GetDescendants_static env snap hstatic, if_pos hcomp,
      dfs_of_complete_le hgf hroot]
  · rw [GetAllDescendants]
    simp only [hstatic, hrun, Option.map_some']
  · exact exactDescendants_of (hperm.nodup_iff.mpr hexact.1)
      (fun x => (hperm.mem_iff).trans (hexact.2.1 x))

theorem C2_resolution_is_exact_witness :
    ∃ l1 tr1 l2 tr2,
      GetDescendants obligingEnv 8 1 ([], []) = some ([] ++ l1, tr1) ∧
      ExactDescendants sampleSnap 1 l1 ∧
      GetAllDescendants obligingEnv 8 1 ([], []) = some ([] ++ l2, tr2) ∧
      ExactDescendants sampleSnap 1 l2 :=
  C2_resolution_is_exact obligingEnv sampleSnap (fun _ => rfl) 1
    (by unfold UniquePids; decide)
    (acyclicBelow_of_acyclic (acyclic_of_rank (fun x => x) (by decide)) 1) [] [] 8
    (by decide)

/-- C4 (root can be attempted twice).  For every behaviour of the operating
system, a pass of `KillProcessTree` whose resolution returned `descendants`
is, after the resolution, the attempts on the resolved descendants (last
entry first) and then one attempt on the root: the root is opened last, and
`TerminateProcess` is called on it exactly when that open gives a handle,
whatever the attempts before it gave.  The root is attempted once more than
it occurs in `descendants`: exactly once when the process table stays the
same during the resolution, for then the root is not listed, but `GetDescendants` guards
only against a record that is its own parent and can list the root when the
table changes between its captures; the root is then also attempted inside
the sweep, before descendants that are still to come. -/
theorem C4_root_is_last_and_once_more_than_listed (env : Env) (fuel : Nat)
    (rootPid : DWORD) (tr0 : List Event) (descendants : List DWORD) (tr1 : List Event)
    (hres : GetDescendants env fuel rootPid ([], tr0) = some (descendants, tr1))
    (hlen : descendants.length < 2 ^ 31) :
    ∃ ret e1 swept o,
      KillProcessTree env fuel rootPid tr0
        = some (ret, tr0 ++ (e1 ++ (swept ++ [(rootPid, o)]).flatMap attemptEvents)) ∧
      tr1 = tr0 ++ e1 ∧ Quiet e1 ∧
      swept = attemptOutcomes env descendants.reverse tr1 ∧
      swept.map Prod.fst = descendants.reverse ∧
      o = (if env.OpenProcess (tr1 ++ swept.flatMap attemptEvents) rootPid then
          some (env.TerminateProcess
            (tr1 ++ swept.flatMap attemptEvents ++ [Event.openProcess rootPid true]) rootPid)
        else none) ∧
      openAttempts (e1 ++ (swept ++ [(rootPid, o)]).flatMap attemptEvents)
        = descendants.reverse ++ [rootPid] ∧
      (openAttempts (e1 ++ (swept ++ [(rootPid, o)]).flatMap attemptEvents)).count rootPid
        = descendants.count rootPid + 1 ∧
      (∀ snap, (∀ h, env.CreateToolhelp32Snapshot h = some snap) → rootPid ∉ descendants) := by
  obtain ⟨ret, e1, hk, htr1, hq1⟩ :=
    KillProcessTree_outcomes env fuel rootPid tr0 descendants tr1 hres hlen
  rw [attemptOutcomes_append, attemptOutcomes_singleton] at hk
  have hfst := attemptOutcomes_fst env descendants.reverse tr1
  have hatt : openAttempts (e1 ++ (attemptOutcomes env descendants.reverse tr1 ++
      [(rootPid, if env.OpenProcess
          (tr1 ++ (attemptOutcomes env descendants.reverse tr1).flatMap attemptEvents)
          rootPid then
        some (env.TerminateProcess
          (tr1 ++ (attemptOutcomes env descendants.reverse tr1).flatMap attemptEvents ++
            [Event.openProcess rootPid true]) rootPid)
        else none)]).flatMap attemptEvents) = descendants.reverse ++ [rootPid] := by
    rw [openAttempts_append, hq1.1, List.nil_append, openAttempts_attempts, List.map_append,
      hfst]
    rfl
  refine ⟨ret, e1, _, _, hk, htr1, hq1, rfl, hfst, rfl, hatt, ?_, ?_⟩
  · rw [hatt, List.count_append, List.count_reverse]
    simp
  · intro snap hstatic
    obtain ⟨f, _, hcomp, hdesc, _⟩ := resolve_static env snap hstatic hres
    rw [hdesc, List.nil_append]
    exact not_mem_dfs_self f rootPid hcomp f

theorem C4_root_is_last_and_once_more_than_listed_witness :
    (GetDescendants racingEnv 4 1 ([], [])
        = some ([2, 1], [Event.snapshot true, Event.snapshot true, Event.snapshot true,
            Event.closeSnapshot, Event.closeSnapshot, Event.closeSnapshot]) ∧
      (KillProcessTree racingEnv 4 1 []).map (fun r => terminateCalls r.2)
        = some [1, 2, 1]) ∧
    ∃ ret e1 swept o,
      KillProcessTree racingEnv 4 1 []
        = some (ret, [] ++ (e1 ++ (swept ++ [(1, o)]).flatMap attemptEvents)) ∧
      [Event.snapshot true, Event.snapshot true, Event.snapshot true,
          Event.closeSnapshot, Event.closeSnapshot, Event.closeSnapshot] = [] ++ e1 ∧
      Quiet e1 ∧
      swept = attemptOutcomes racingEnv [2, 1].reverse
        [Event.snapshot true, Event.snapshot true, Event.snapshot true,
          Event.closeSnapshot, Event.closeSnapshot, Event.closeSnapshot] ∧
      swept.map Prod.fst = [2, 1].reverse ∧
      o = (if racingEnv.OpenProcess
            ([Event.snapshot true, Event.snapshot true, Event.snapshot true,
              Event.closeSnapshot, Event.closeSnapshot, Event.closeSnapshot] ++
              swept.flatMap attemptEvents) 1 then
          some (racingEnv.TerminateProcess
            ([Event.snapshot true, Event.snapshot true, Event.snapshot true,
              Event.closeSnapshot, Event.closeSnapshot, Event.closeSnapshot] ++
              swept.flatMap attemptEvents ++ [Event.openProcess 1 true]) 1)
        else none) ∧
      openAttempts (e1 ++ (swept ++ [(1, o)]).flatMap attemptEvents) = [2, 1].reverse ++ [1] ∧
      (openAttempts (e1 ++ (swept ++ [(1, o)]).flatMap attemptEvents)).count 1
        = [2, 1].count 1 + 1 ∧
      (∀ snap, (∀ h, racingEnv.CreateToolhelp32Snapshot h = some snap) → 1 ∉ [2, 1]) :=
  ⟨⟨by decide, by decide⟩,
    C4_root_is_last_and_once_more_than_listed racingEnv 4 1 [] [2, 1]
      [Event.snapshot true, Event.snapshot true, Event.snapshot true,
        Event.closeSnapshot, Event.closeSnapshot, Event.closeSnapshot] (by decide) (by decide)⟩

/-- C5, the code at the failing input.  On the two-record snapshot in which 1
is the child of 2 and 2 the child of 1, `GetDescendants` from root 1 returns
for no amount of fuel: its recursion does not end.  `GetAllDescendants` on the
same snapshot and root exits after two turns with the one descendant 2. -/
theorem C5_GetDescendants_diverges_on_cycle :
    (∀ fuel, GetDescendants cyclicEnv fuel 1 ([], []) = none) ∧
      GetAllDescendants cyclicEnv 3 1 ([], [])
        = some ([2], [Event.snapshot true, Event.closeSnapshot]) :=
  ⟨fun fuel => GetDescendants_cyclic fuel 1 _ (Or.inl rfl), rfl⟩

/-- C6. For every snapshot, with or without parent cycles or duplicate records,
and every root: after any number `n` of turns of the `while` loop of
`GetAllDescendants` (so also along a run that never exits) the pids appended to
the output so far do not include the root, and whenever `GetAllDescendants`
returns, whatever snapshot the operating system handed it, the pids it
appended do not include the root. -/
theorem C6_root_never_appended (rootPid : DWORD) (out : List DWORD) :
    (∀ (snap : List PROCESSENTRY32) (n : Nat),
        ∃ l, (visitIter snap rootPid n (out, [rootPid])).1 = out ++ l ∧ rootPid ∉ l) ∧
      ∀ (env : Env) (tr : List Event) (fuel : Nat) (r : List DWORD × List Event),
        GetAllDescendants env fuel rootPid (out, tr) = some r →
          ∃ l, r.1 = out ++ l ∧ rootPid ∉ l := by
  refine ⟨fun snap n => visitIter_appends n (out, [rootPid]), ?_⟩
  intro env tr fuel r hres
  rw [GetAllDescendants] at hres
  cases hsnap : env.CreateToolhelp32Snapshot tr with
  | none =>
    simp only [hsnap, Option.some.injEq] at hres
    rw [← hres]
    exact ⟨[], by simp, by simp⟩
  | some snap =>
    simp only [hsnap, Option.map_eq_some'] at hres
    obtain ⟨o, ho, hr⟩ := hres
    rw [← hr]
    rw [visitLoop_eq_visitIter fuel _ o ho]
    exact visitIter_appends fuel (out, [rootPid])

theorem C6_root_never_appended_witness :
    ∃ l, ([2], [Event.snapshot true, Event.closeSnapshot]).1 = [] ++ l ∧ 1 ∉ l :=
  (C6_root_never_appended 1 []).2 cyclicEnv [] 3
    ([2], [Event.snapshot true, Event.closeSnapshot]) rfl

/-- C7. When the snapshot the call captures holds no record that names `root`
as its parent, `GetDescendants` (with fuel for its one activation) and
`GetAllDescendants` (with fuel for its two loop tests) both return: they hand
back the output list they were given, unchanged, and their only calls are the
capture and the release of the snapshot. -/
theorem C7_no_children_no_change (env : Env) (snap : List PROCESSENTRY32)
    (rootPid : DWORD) (out : List DWORD) (tr : List Event)
    (hsnap : env.CreateToolhelp32Snapshot tr = some snap)
    (hnone : ∀ pe ∈ snap, pe.th32ParentProcessID ≠ rootPid) (fuel : Nat) :
    GetDescendants env (fuel + 1) rootPid (out, tr)
        = some (out, tr ++ [Event.snapshot true, Event.closeSnapshot]) ∧
      GetAllDescendants env (fuel + 2) rootPid (out, tr)
        = some (out, tr ++ [Event.snapshot true, Event.closeSnapshot]) := by
  constructor
  · rw [GetDescendants]
    simp only [hsnap]
    rw [foldlM_ite_filter
      (fun pe : PROCESSENTRY32 =>
        pe.th32ParentProcessID = rootPid ∧ pe.th32ProcessID ≠ rootPid)
      (fun s pe =>
        GetDescendants env fuel pe.th32ProcessID (s.1 ++ [pe.th32ProcessID], s.2))]
    have hk := kids_eq_nil_of_no_child hnone
    rw [kids, List.map_eq_nil_iff] at hk
    rw [hk]
    simp
  · rw [GetAllDescendants]
    simp only [hsnap]
    have hstep : visitStep snap rootPid (out, [rootPid]) = some (out, []) := by
      have := visitStep_concat snap rootPid out [] rootPid
      rw [kidsOf_eq_nil_of_no_child hnone] at this
      simpa using this
    rw [visitLoop, hstep]
    simp only [visitLoop, visitStep_nil]
    simp

theorem C7_no_children_no_change_witness :
    GetDescendants obligingEnv (0 + 1) 5 ([9], [])
        = some ([9], [] ++ [Event.snapshot true, Event.closeSnapshot]) ∧
      GetAllDescendants obligingEnv (0 + 2) 5 ([9], [])
        = some ([9], [] ++ [Event.snapshot true, Event.closeSnapshot]) :=
  C7_no_children_no_change obligingEnv sampleSnap 5 [9] [] rfl (by decide) 0

/-- C8, the claim refuted.  The operating system refuses the snapshot at the
start of the pass, and yet the pass is not aborted: the root 7 is opened and
receives a terminate request, and the caller gets `true`, the value of a pass
in which every kill succeeded. -/
theorem C8_counterexample :
    noSnapshotEnv.CreateToolhelp32Snapshot [] = none ∧
    KillProcessTree noSnapshotEnv 1 7 []
      = some (true, [Event.snapshot false, Event.openProcess 7 true,
          Event.terminateProcess 7 true, Event.closeProcess 7]) :=
  ⟨rfl, rfl⟩

/-- C8, as the code has it.  When the snapshot cannot be captured,
`GetDescendants` returns without a descendant and without a signal, and
`KillProcessTree` goes on: it makes no attempt on any descendant, makes its
attempt on the root (terminating it when it can be opened) and returns `true`. -/
theorem C8_snapshot_failure_still_kills_root (env : Env) (fuel : Nat) (rootPid : DWORD)
    (tr0 : List Event) (hfail : env.CreateToolhelp32Snapshot tr0 = none) :
    GetDescendants env (fuel + 1) rootPid ([], tr0) = some ([], tr0 ++ [Event.snapshot false]) ∧
    ∃ evs, KillProcessTree env (fuel + 1) rootPid tr0
        = some (true, tr0 ++ (Event.snapshot false :: evs)) ∧
      openAttempts evs = [rootPid] ∧
      terminateCalls evs
        = if env.OpenProcess (tr0 ++ [Event.snapshot false]) rootPid then [rootPid] else [] := by
  have hres : GetDescendants env (fuel + 1) rootPid ([], tr0)
      = some ([], tr0 ++ [Event.snapshot false]) := by
    rw [GetDescendants]
    simp only [hfail]
  refine ⟨hres, ?_⟩
  simp only [KillProcessTree, hres, List.length_nil]
  have h0 : (toInt32 0).toNat = 0 := by decide
  rw [h0]
  simp only [killLoop, killRoot]
  cases ho : env.OpenProcess (tr0 ++ [Event.snapshot false]) rootPid with
  | true =>
    simp only [if_true]
    exact ⟨[Event.openProcess rootPid true,
      Event.terminateProcess rootPid
        (env.TerminateProcess (tr0 ++ [Event.snapshot false] ++ [Event.openProcess rootPid true])
          rootPid),
      Event.closeProcess rootPid], by simp, by simp [openAttempts], by simp [terminateCalls]⟩
  | false =>
    simp only [Bool.false_eq_true, if_false]
    exact ⟨[Event.openProcess rootPid false], by simp, by simp [openAttempts],
      by simp [terminateCalls]⟩

theorem C8_snapshot_failure_still_kills_root_witness :
    GetDescendants noSnapshotEnv (0 + 1) 7 ([], []) = some ([], [] ++ [Event.snapshot false]) ∧
    ∃ evs, KillProcessTree noSnapshotEnv (0 + 1) 7 []
        = some (true, [] ++ (Event.snapshot false :: evs)) ∧
      openAttempts evs = [7] ∧
      terminateCalls evs
        = if noSnapshotEnv.OpenProcess ([] ++ [Event.snapshot false]) 7 then [7] else [] :=
  C8_snapshot_failure_still_kills_root noSnapshotEnv 0 7 [] rfl

/-- C9. For every resolved descendant list and every pattern of per-process
failures (the oracles `OpenProcess` and `TerminateProcess` of the environment
are arbitrary), a pass of `KillProcessTree` returns, and the `OpenProcess`
attempts of the whole pass are exactly one on each entry of the list, from the
last entry to the first, and then one on the root: no failure skips an attempt. -/
theorem C9_one_open_attempt_each (env : Env) (fuel : Nat) (rootPid : DWORD)
    (tr0 : List Event) (descendants : List DWORD) (tr1 : List Event)
    (hres : GetDescendants env fuel rootPid ([], tr0) = some (descendants, tr1))
    (hlen : descendants.length < 2 ^ 31) :
    ∃ ret evs, KillProcessTree env fuel rootPid tr0 = some (ret, tr0 ++ evs) ∧
      openAttempts evs = descendants.reverse ++ [rootPid] := by
  obtain ⟨ret, e1, e2, e3, hk, _, hq1, _, ha2, _, ha3, _⟩ :=
    KillProcessTree_pass env fuel rootPid tr0 descendants tr1 hres hlen
  refine ⟨ret, e1 ++ e2 ++ e3, hk, ?_⟩
  rw [openAttempts_append, openAttempts_append, hq1.1, ha2, ha3, List.nil_append]

theorem C9_one_open_attempt_each_witness :
    ∃ ret evs, KillProcessTree stubbornEnv 3 1 [] = some (ret, [] ++ evs) ∧
      openAttempts evs = [2, 3, 4, 5].reverse ++ [1] :=
  C9_one_open_attempt_each stubbornEnv 3 1 [] [2, 3, 4, 5] (dfsTrace sampleSnap 2 1)
    (by rfl) (by decide)

/-- C10. If none of the resolved descendants can be opened any more, a pass of
`KillProcessTree` returns `true` (it never signals an error) and its trace
holds no `TerminateProcess` call on any resolved descendant. -/
theorem C10_already_dead_descendants (env : Env) (fuel : Nat) (rootPid : DWORD)
    (tr0 : List Event) (descendants : List DWORD) (tr1 : List Event)
    (hres : GetDescendants env fuel rootPid ([], tr0) = some (descendants, tr1))
    (hlen : descendants.length < 2 ^ 31)
    (hdead : ∀ d ∈ descendants, ∀ h, env.OpenProcess h d = false) :
    ∃ evs, KillProcessTree env fuel rootPid tr0 = some (true, tr0 ++ evs) ∧
      ∀ d ∈ descendants, d ∉ terminateCalls evs := by
  obtain ⟨ret, e1, e2, e3, hk, _, hq1, hloop, _, _, _, ht3⟩ :=
    KillProcessTree_pass env fuel rootPid tr0 descendants tr1 hres hlen
  obtain ⟨e2', hloop', hq2⟩ :=
    killLoop_unopenable env descendants hdead descendants.length (Nat.le_refl _) (true, tr1)
  rw [hloop] at hloop'
  simp only [Prod.mk.injEq, List.append_cancel_left_eq] at hloop'
  obtain ⟨hret, he2⟩ := hloop'
  subst hret
  subst he2
  refine ⟨e1 ++ e2 ++ e3, hk, ?_⟩
  intro d hd hmem
  rw [terminateCalls_append, terminateCalls_append, hq1.2, hq2, List.nil_append,
    List.nil_append] at hmem
  rcases ht3 with h3 | ⟨h3, hopen⟩
  · rw [h3] at hmem
    cases hmem
  · rw [h3, List.mem_singleton] at hmem
    subst hmem
    rw [hdead d hd] at hopen
    cases hopen

theorem C10_already_dead_descendants_witness :
    ∃ evs, KillProcessTree allGoneEnv 3 1 [] = some (true, [] ++ evs) ∧
      ∀ d ∈ [2, 3, 4, 5], d ∉ terminateCalls evs :=
  C10_already_dead_descendants allGoneEnv 3 1 [] [2, 3, 4, 5] (dfsTrace sampleSnap 2 1)
    (by rfl) (by decide)
    (by
      intro d hd h
      have hne : d ≠ 1 := by
        rintro rfl
        simp at hd
      simp [allGoneEnv, staticEnv, hne])

/-- C11. Over a process table in which a successful `TerminateProcess` removes
the process from every later snapshot and makes it unopenable: after a pass of
`KillProcessTree` in which the root and every resolved descendant could be
opened and terminated while alive, the pass returned `true`, and a second pass
on the same root (with any fuel, at least one) resolves no descendant, finds
the root unopenable, makes no `TerminateProcess` call and returns `true`. -/
theorem C11_second_pass_has_nothing_to_kill (snap0 : List PROCESSENTRY32)
    (canOpen canKill : DWORD → Bool) (fuel : Nat) (rootPid : DWORD) (tr0 : List Event)
    (descendants : List DWORD) (tr1 : List Event)
    (hres : GetDescendants (tableEnv snap0 canOpen canKill) fuel rootPid ([], tr0)
      = some (descendants, tr1))
    (hlen : descendants.length < 2 ^ 31)
    (hsucc : ∀ d, d = rootPid ∨ d ∈ descendants → canOpen d = true ∧ canKill d = true) :
    ∃ evs,
      KillProcessTree (tableEnv snap0 canOpen canKill) fuel rootPid tr0
        = some (true, tr0 ++ evs) ∧
      ∀ fuel2,
        GetDescendants (tableEnv snap0 canOpen canKill) (fuel2 + 1) rootPid ([], tr0 ++ evs)
          = some ([], tr0 ++ evs ++ [Event.snapshot true, Event.closeSnapshot]) ∧
        KillProcessTree (tableEnv snap0 canOpen canKill) (fuel2 + 1) rootPid (tr0 ++ evs)
          = some (true, tr0 ++ evs ++ [Event.snapshot true, Event.closeSnapshot,
              Event.openProcess rootPid false]) := by
  obtain ⟨f, _, hcomp, hdesc, htr1⟩ := resolve_table snap0 canOpen canKill hres
  rw [List.nil_append] at hdesc
  obtain ⟨e2, hloop, hkilled⟩ := killLoop_table snap0 canOpen canKill descendants
    (fun d hd => hsucc d (Or.inr hd)) descendants.length (Nat.le_refl _) (true, tr1)
  rw [List.take_length] at hkilled
  obtain ⟨e3, hroot, hrootKilled⟩ := killRoot_table snap0 canOpen canKill rootPid
    (hsucc rootPid (Or.inl rfl)).1 (hsucc rootPid (Or.inl rfl)).2 (tr1 ++ e2)
  have hpass : KillProcessTree (tableEnv snap0 canOpen canKill) fuel rootPid tr0
      = some (true, tr1 ++ e2 ++ e3) := by
    rw [KillProcessTree_eq _ fuel rootPid tr0 descendants tr1 hres hlen, hloop]
    dsimp only
    rw [hroot]
  refine ⟨dfsTrace (liveSnap snap0 tr0) f rootPid ++ e2 ++ e3, ?_, ?_⟩
  · rw [hpass, htr1]
    simp only [List.append_assoc]
  · have htr : tr0 ++ (dfsTrace (liveSnap snap0 tr0) f rootPid ++ e2 ++ e3)
        = tr1 ++ e2 ++ e3 := by
      rw [htr1]
      simp only [List.append_assoc]
    rw [htr]
    have hnone : ∀ pe ∈ liveSnap snap0 (tr1 ++ e2 ++ e3),
        pe.th32ParentProcessID ≠ rootPid := by
      intro pe hpe hpar
      unfold liveSnap at hpe
      obtain ⟨hmem, halive⟩ := List.mem_filter.mp hpe
      simp only [decide_eq_true_eq] at halive
      by_cases hself : pe.th32ProcessID = rootPid
      · rw [hself] at halive
        exact halive hrootKilled
      · have halive0 : pe.th32ProcessID ∉ killedPids tr0 := by
          intro hk
          apply halive
          rw [htr1]
          simp only [killedPids_append, List.mem_append]
          exact Or.inl (Or.inl (Or.inl hk))
        have hpe0 : pe ∈ liveSnap snap0 tr0 := by
          unfold liveSnap
          exact List.mem_filter.mpr ⟨hmem, by simpa using halive0⟩
        have hkid : pe.th32ProcessID ∈ kids (liveSnap snap0 tr0) rootPid :=
          mem_kids.mpr ⟨pe, hpe0, rfl, hpar, hself⟩
        have hin : pe.th32ProcessID ∈ descendants := by
          rw [hdesc]
          exact kids_subset_dfs hcomp hkid
        apply halive
        rw [killedPids_append]
        exact List.mem_append_left _ (hkilled _ hin)
    intro fuel2
    have hres2 := GetDescendants_no_child (tableEnv snap0 canOpen canKill)
      (liveSnap snap0 (tr1 ++ e2 ++ e3)) rootPid [] (tr1 ++ e2 ++ e3) rfl hnone fuel2
    refine ⟨hres2, ?_⟩
    have h0 : (toInt32 0).toNat = 0 := by decide
    have hclosed : (tableEnv snap0 canOpen canKill).OpenProcess
        (tr1 ++ e2 ++ e3 ++ [Event.snapshot true, Event.closeSnapshot]) rootPid = false := by
      show (canOpen rootPid && decide (rootPid ∉ killedPids
        (tr1 ++ e2 ++ e3 ++ [Event.snapshot true, Event.closeSnapshot]))) = false
      have : rootPid ∈ killedPids
          (tr1 ++ e2 ++ e3 ++ [Event.snapshot true, Event.closeSnapshot]) := by
        rw [killedPids_append]
        exact List.mem_append_left _ hrootKilled
      rw [decide_eq_false (not_not.mpr this), Bool.and_false]
    simp only [KillProcessTree, hres2, List.length_nil, h0, killLoop, killRoot, hclosed,
      Bool.false_eq_true, if_false]
    simp

theorem C11_second_pass_has_nothing_to_kill_witness :
    ∃ evs,
      KillProcessTree (tableEnv sampleSnap (fun _ => true) (fun _ => true)) 3 1 []
        = some (true, [] ++ evs) ∧
      ∀ fuel2,
        GetDescendants (tableEnv sampleSnap (fun _ => true) (fun _ => true)) (fuel2 + 1) 1
            ([], [] ++ evs)
          = some ([], [] ++ evs ++ [Event.snapshot true, Event.closeSnapshot]) ∧
        KillProcessTree (tableEnv sampleSnap (fun _ => true) (fun _ => true)) (fuel2 + 1) 1
            ([] ++ evs)
          = some (true, [] ++ evs ++ [Event.snapshot true, Event.closeSnapshot,
              Event.openProcess 1 false]) :=
  C11_second_pass_has_nothing_to_kill sampleSnap (fun _ => true) (fun _ => true) 3 1 []
    [2, 3, 4, 5] (dfsTrace sampleSnap 2 1) (by decide) (by decide)
    (fun _ _ => ⟨rfl, rfl⟩)

/-- C12. `create_job_for_process` returns 0 when `CreateJobObjectA` gives no
handle, and more precisely returns 0 exactly when `CreateJobObjectA` fails,
`SetInformationJobObject` fails or `OpenProcess` on the target fails; in
every other case it returns the job handle, which is not 0. -/
theorem C12_zero_exactly_on_the_three_failures (env : JobEnv) (processId : DWORD)
    (tr : List JobEvent) :
    let hJob := env.CreateJobObjectA tr
    let tr1 := tr ++ [JobEvent.createJob hJob]
    let configured := env.SetInformationJobObject tr1 hJob
    let tr2 := tr1 ++ [JobEvent.setInformation hJob configured]
    let hProcess := env.OpenProcess tr2 processId
    (hJob = 0 → (create_job_for_process env processId tr).1 = 0) ∧
    ((create_job_for_process env processId tr).1 = 0
      ↔ hJob = 0 ∨ configured = false ∨ hProcess = 0) ∧
    ((create_job_for_process env processId tr).1 ≠ 0
      → (create_job_for_process env processId tr).1 = hJob) := by
  intro hJob tr1 configured tr2 hProcess
  have key : (create_job_for_process env processId tr).1
      = if hJob = 0 then 0 else if configured = false then 0
        else if hProcess = 0 then 0 else hJob :=
    create_job_for_process_value env processId tr
  rw [key]
  clear_value hJob configured hProcess
  by_cases h1 : hJob = 0
  · simp [h1]
  · cases configured with
    | false => simp [h1]
    | true =>
      by_cases h3 : hProcess = 0
      · simp [h1, h3]
      · simp [h1, h3]

theorem C12_zero_exactly_on_the_three_failures_witness :
    (create_job_for_process (fixedJobEnv 0 true 9 true true true) 42 []).1 = 0 :=
  (C12_zero_exactly_on_the_three_failures (fixedJobEnv 0 true 9 true true true) 42 []).1 rfl

/-- C13, the claim refuted.  The job object 7 is created and its configuration
fails: `create_job_for_process` closes the job handle and hands its caller 0,
not a usable group. -/
theorem C13_counterexample :
    create_job_for_process (fixedJobEnv 7 false 9 true true true) 42 []
      = (0, [JobEvent.createJob 7, JobEvent.setInformation 7 false,
          JobEvent.closeJob 7 true]) := by
  decide

/-- C13, as the code has it.  If the job object is created and
`SetInformationJobObject` fails, `create_job_for_process` closes the job
handle and returns 0, without opening the process: no group, degraded or not,
reaches the caller. -/
theorem C13_unconfigured_job_is_closed (env : JobEnv) (processId : DWORD)
    (tr : List JobEvent) (hcreated : env.CreateJobObjectA tr ≠ 0)
    (hfail : env.SetInformationJobObject
      (tr ++ [JobEvent.createJob (env.CreateJobObjectA tr)]) (env.CreateJobObjectA tr) = false) :
    ∃ closed, create_job_for_process env processId tr
      = (0, tr ++ [JobEvent.createJob (env.CreateJobObjectA tr),
          JobEvent.setInformation (env.CreateJobObjectA tr) false,
          JobEvent.closeJob (env.CreateJobObjectA tr) closed]) :=
  ⟨_, create_job_for_process_unconfigured env processId tr hcreated hfail⟩

theorem C13_unconfigured_job_is_closed_witness :
    ∃ closed, create_job_for_process (fixedJobEnv 7 false 9 true true true) 42 []
      = (0, [] ++ [JobEvent.createJob
            ((fixedJobEnv 7 false 9 true true true).CreateJobObjectA []),
          JobEvent.setInformation
            ((fixedJobEnv 7 false 9 true true true).CreateJobObjectA []) false,
          JobEvent.closeJob
            ((fixedJobEnv 7 false 9 true true true).CreateJobObjectA []) closed]) :=
  C13_unconfigured_job_is_closed (fixedJobEnv 7 false 9 true true true) 42 []
    (by decide) rfl

/-- C14. Whenever the job object is created and configured and the process is
opened, `create_job_for_process` returns the job handle, which is not 0, and
closes no job handle on the way, whatever `AssignProcessToJobObject`
answered: its answer, `assigned`, is recorded in the trace and changes
neither the returned value nor the other events. -/
theorem C14_rejected_assignment_is_not_fatal (env : JobEnv) (processId : DWORD)
    (tr : List JobEvent) (hcreated : env.CreateJobObjectA tr ≠ 0)
    (hconfigured : env.SetInformationJobObject
      (tr ++ [JobEvent.createJob (env.CreateJobObjectA tr)]) (env.CreateJobObjectA tr) = true)
    (hopened : env.OpenProcess
      (tr ++ [JobEvent.createJob (env.CreateJobObjectA tr),
        JobEvent.setInformation (env.CreateJobObjectA tr) true]) processId ≠ 0) :
    ∃ hProcess assigned evs,
      create_job_for_process env processId tr = (env.CreateJobObjectA tr, tr ++ evs) ∧
      evs = [JobEvent.createJob (env.CreateJobObjectA tr),
        JobEvent.setInformation (env.CreateJobObjectA tr) true,
        JobEvent.openProcess processId hProcess,
        JobEvent.assignProcess (env.CreateJobObjectA tr) hProcess assigned,
        JobEvent.closeProcess hProcess] ∧
      jobCloses evs = [] :=
  ⟨_, _, _, create_job_for_process_assigned env processId tr hcreated hconfigured hopened,
    rfl, rfl⟩

theorem C14_rejected_assignment_is_not_fatal_witness :
    ∃ hProcess assigned evs,
      create_job_for_process (fixedJobEnv 7 true 9 false true true) 42 []
        = ((fixedJobEnv 7 true 9 false true true).CreateJobObjectA [], [] ++ evs) ∧
      evs = [JobEvent.createJob ((fixedJobEnv 7 true 9 false true true).CreateJobObjectA []),
        JobEvent.setInformation ((fixedJobEnv 7 true 9 false true true).CreateJobObjectA [])
          true,
        JobEvent.openProcess 42 hProcess,
        JobEvent.assignProcess ((fixedJobEnv 7 true 9 false true true).CreateJobObjectA [])
          hProcess assigned,
        JobEvent.closeProcess hProcess] ∧
      jobCloses evs = [] :=
  C14_rejected_assignment_is_not_fatal (fixedJobEnv 7 true 9 false true true) 42 []
    (by decide) rfl (by decide)

/-- C15, the claim refuted.  `TerminateJobObject` fails on the job handle 7 and
`CloseHandle` succeeds: `terminate_job` returns `true`. -/
theorem C15_counterexample :
    terminate_job (fixedJobEnv 7 true 9 true false true) 7 []
      = (true, [JobEvent.terminateJob 7 false, JobEvent.closeJob 7 true]) := by
  decide

/-- C15, as the code has it.  For every job handle other than 0,
`terminate_job` returns the result of its `CloseHandle` call and drops the
result, `terminated`, of `TerminateJobObject`: it returns `false` exactly when
closing the handle fails. -/
theorem C15_returns_the_close_result (env : JobEnv) (jobHandle : HANDLE)
    (tr : List JobEvent) (hnonzero : jobHandle ≠ 0) :
    ∃ terminated closed,
      terminate_job env jobHandle tr
        = (closed, tr ++ [JobEvent.terminateJob jobHandle terminated,
            JobEvent.closeJob jobHandle closed]) ∧
      terminated = env.TerminateJobObject tr jobHandle ∧
      closed = env.CloseHandle (tr ++ [JobEvent.terminateJob jobHandle terminated]) jobHandle :=
  ⟨_, _, terminate_job_nonzero env jobHandle tr hnonzero, rfl, rfl⟩

theorem C15_returns_the_close_result_witness :
    ∃ terminated closed,
      terminate_job (fixedJobEnv 7 true 9 true false true) 7 []
        = (closed, [] ++ [JobEvent.terminateJob 7 terminated, JobEvent.closeJob 7 closed]) ∧
      terminated = (fixedJobEnv 7 true 9 true false true).TerminateJobObject [] 7 ∧
      closed = (fixedJobEnv 7 true 9 true false true).CloseHandle
        ([] ++ [JobEvent.terminateJob 7 terminated]) 7 :=
  C15_returns_the_close_result (fixedJobEnv 7 true 9 true false true) 7 [] (by decide)

/-- C16, the claim refuted.  In the handle table that holds the open job
handle 5, the first `terminate_job(5)` returns `true` and the second returns
`false`: two calls do not yield the result of one. -/
theorem C16_counterexample :
    (terminate_job (handleTableEnv [5]) 5 []).1 = true ∧
      (terminate_job (handleTableEnv [5]) 5 (terminate_job (handleTableEnv [5]) 5 []).2).1
        = false := by
  decide

/-- C16, as the code has it.  Over every handle table, a second `terminate_job`
on the same job handle leaves the table of open handles as the first call left
it, and returns `false`; the first call returns `true` exactly when the handle
is not 0 and was open.  So the state is that of one call, the returned value
is not whenever the first call closed the handle. -/
theorem C16_second_call_changes_nothing (open0 : List HANDLE) (jobHandle : HANDLE)
    (tr : List JobEvent) :
    openHandles open0
        (terminate_job (handleTableEnv open0) jobHandle
          (terminate_job (handleTableEnv open0) jobHandle tr).2).2
      = openHandles open0 (terminate_job (handleTableEnv open0) jobHandle tr).2 ∧
    (terminate_job (handleTableEnv open0) jobHandle
      (terminate_job (handleTableEnv open0) jobHandle tr).2).1 = false ∧
    ((terminate_job (handleTableEnv open0) jobHandle tr).1 = true
      ↔ jobHandle ≠ 0 ∧ jobHandle ∈ openHandles open0 tr) := by
  by_cases h0 : jobHandle = 0
  · subst h0
    simp [terminate_job_zero]
  · have hT : ∀ t, (handleTableEnv open0).TerminateJobObject t jobHandle
        = decide (jobHandle ∈ openHandles open0 t) := fun _ => rfl
    have hC : ∀ t, (handleTableEnv open0).CloseHandle t jobHandle
        = decide (jobHandle ∈ openHandles open0 t) := fun _ => rfl
    have hstep : ∀ t b, openHandles open0 (t ++ [JobEvent.terminateJob jobHandle b])
        = openHandles open0 t := by
      intro t b
      unfold openHandles
      apply List.filter_congr
      intro x _
      simp
    by_cases hopen : jobHandle ∈ openHandles open0 tr
    · have h1 : terminate_job (handleTableEnv open0) jobHandle tr
          = (true, tr ++ [JobEvent.terminateJob jobHandle true,
              JobEvent.closeJob jobHandle true]) := by
        rw [terminate_job_nonzero _ _ _ h0, hT, hC, hstep]
        simp [hopen]
      have hgone : jobHandle ∉ openHandles open0
          (tr ++ [JobEvent.terminateJob jobHandle true, JobEvent.closeJob jobHandle true]) :=
        not_mem_openHandles_of_closed _ _ _ (by simp)
      have h2 : terminate_job (handleTableEnv open0) jobHandle
          (tr ++ [JobEvent.terminateJob jobHandle true, JobEvent.closeJob jobHandle true])
          = (false, tr ++ [JobEvent.terminateJob jobHandle true,
              JobEvent.closeJob jobHandle true]
              ++ [JobEvent.terminateJob jobHandle false,
                JobEvent.closeJob jobHandle false]) := by
        rw [terminate_job_nonzero _ _ _ h0, hT, hC, hstep]
        simp [hgone]
      rw [h1]
      dsimp only
      rw [h2]
      exact ⟨openHandles_append_failed _ _ _ _, rfl, by simp [h0, hopen]⟩
    · have h1 : terminate_job (handleTableEnv open0) jobHandle tr
          = (false, tr ++ [JobEvent.terminateJob jobHandle false,
              JobEvent.closeJob jobHandle false]) := by
        rw [terminate_job_nonzero _ _ _ h0, hT, hC, hstep]
        simp [hopen]
      have hgone : jobHandle ∉ openHandles open0
          (tr ++ [JobEvent.terminateJob jobHandle false, JobEvent.closeJob jobHandle false]) := by
        rw [openHandles_append_failed]
        exact hopen
      have h2 : terminate_job (handleTableEnv open0) jobHandle
          (tr ++ [JobEvent.terminateJob jobHandle false, JobEvent.closeJob jobHandle false])
          = (false, tr ++ [JobEvent.terminateJob jobHandle false,
              JobEvent.closeJob jobHandle false]
              ++ [JobEvent.terminateJob jobHandle false,
                JobEvent.closeJob jobHandle false]) := by
        rw [terminate_job_nonzero _ _ _ h0, hT, hC, hstep]
        simp [hgone]
      rw [h1]
      dsimp only
      rw [h2]
      exact ⟨openHandles_append_failed _ _ _ _, rfl, by simp [hopen]⟩

/-- C17. For handle 0 `terminate_job` returns `false` and makes no call into
the operating system.  For every other job handle its calls are exactly one
`TerminateJobObject` followed by exactly one `CloseHandle` on that handle,
whether `TerminateJobObject` succeeded (`terminated`) or not. -/
theorem C17_terminate_then_close_once (env : JobEnv) (jobHandle : HANDLE)
    (tr : List JobEvent) :
    (jobHandle = 0 → terminate_job env jobHandle tr = (false, tr)) ∧
    (jobHandle ≠ 0 → ∃ terminated closed,
      terminated = env.TerminateJobObject tr jobHandle ∧
      terminate_job env jobHandle tr
        = (closed, tr ++ [JobEvent.terminateJob jobHandle terminated,
            JobEvent.closeJob jobHandle closed])) := by
  constructor
  · intro h
    rw [h]
    exact terminate_job_zero env tr
  · intro h
    exact ⟨_, _, rfl, terminate_job_nonzero env jobHandle tr h⟩

theorem C17_terminate_then_close_once_witness :
    ∃ terminated closed,
      terminated = (fixedJobEnv 7 true 9 true false true).TerminateJobObject [] 7 ∧
      terminate_job (fixedJobEnv 7 true 9 true false true) 7 []
        = (closed, [] ++ [JobEvent.terminateJob 7 terminated, JobEvent.closeJob 7 closed]) :=
  (C17_terminate_then_close_once (fixedJobEnv 7 true 9 true false true) 7 []).2 (by decide)

/-- C18. For every list of pids (fewer than `2^31`, so that `int orphanCount`
holds the count), `CheckOrphans` makes its liveness checks on the listed pids
as it reports, prints for each listed pid exactly one line, `[ORPHAN!]` when
its check found it alive and `[DEAD]` when not, then reports as orphan count
the number of listed pids found alive, and prints `ALL CLEAN` instead exactly
when that number is 0. -/
theorem C18_orphan_report_counts_the_living (env : LiveEnv) (pids : List DWORD)
    (tr : List LiveEvent) (hlen : pids.length < 2 ^ 31) :
    (livenessChecks env pids tr).length = pids.length ∧
    (CheckOrphans env pids tr).1
      = List.zipWith reportLine pids (livenessChecks env pids tr)
        ++ [if (livenessChecks env pids tr).count true = 0 then Report.allClean
            else Report.orphansDetected ((livenessChecks env pids tr).count true)] := by
  refine ⟨length_livenessChecks env pids tr, ?_⟩
  obtain ⟨h1, h2⟩ := checkLoop_eq env pids 0 [] tr
  have hle : (livenessChecks env pids tr).count true ≤ pids.length := by
    rw [← length_livenessChecks env pids tr]
    exact List.count_le_length _ _
  unfold CheckOrphans
  dsimp only
  rw [h1, h2, Nat.zero_add, List.nil_append, toInt32_of_lt (by omega)]
  by_cases h0 : (livenessChecks env pids tr).count true = 0
  · simp [h0]
  · have hpos : ((List.count true (livenessChecks env pids tr) : Nat) : Int) > 0 := by omega
    simp [h0, hpos]

theorem C18_orphan_report_counts_the_living_witness :
    (livenessChecks (fixedLiveEnv [2, 3] (fun p => if p = 3 then 259 else 1)) [2, 3, 4]
        []).length = [2, 3, 4].length ∧
    (CheckOrphans (fixedLiveEnv [2, 3] (fun p => if p = 3 then 259 else 1)) [2, 3, 4] []).1
      = List.zipWith reportLine [2, 3, 4]
          (livenessChecks (fixedLiveEnv [2, 3] (fun p => if p = 3 then 259 else 1))
            [2, 3, 4] [])
        ++ [if (livenessChecks (fixedLiveEnv [2, 3] (fun p => if p = 3 then 259 else 1))
              [2, 3, 4] []).count true = 0 then Report.allClean
            else Report.orphansDetected
              ((livenessChecks (fixedLiveEnv [2, 3] (fun p => if p = 3 then 259 else 1))
                [2, 3, 4] []).count true)] :=
  C18_orphan_report_counts_the_living
    (fixedLiveEnv [2, 3] (fun p => if p = 3 then 259 else 1)) [2, 3, 4] [] (by decide)

/-- C19. `get_desktop_names` returns 0 and leaves the buffer alone when `names`
is null, when `maxLength < 1` and when `maxLength <= 100`; for every buffer
and every `maxLength > 100` it writes the ten names joined by `|` and the
terminating NUL at the front of the buffer and returns 100, the length of
that string. -/
theorem C19_get_desktop_names (maxLength : Int) :
    get_desktop_names none maxLength = (0, none) ∧
    (∀ buf : List Char, maxLength < 1 ∨ maxLength ≤ 100 →
      get_desktop_names (some buf) maxLength = (0, some buf)) ∧
    (∀ buf : List Char, 100 < maxLength →
      get_desktop_names (some buf) maxLength
        = (100, some ("Desktop 1|Desktop 2|Desktop 3|Desktop 4|Desktop 5|Desktop 6|Desktop 7|Desktop 8|Desktop 9|Desktop 10".toList
            ++ [Char.ofNat 0] ++ buf.drop 101))) ∧
    "Desktop 1|Desktop 2|Desktop 3|Desktop 4|Desktop 5|Desktop 6|Desktop 7|Desktop 8|Desktop 9|Desktop 10".length
      = 100 := by
  have hlen : "Desktop 1|Desktop 2|Desktop 3|Desktop 4|Desktop 5|Desktop 6|Desktop 7|Desktop 8|Desktop 9|Desktop 10".length
      = 100 := by decide
  have h32 : toInt32 100 = 100 := by decide
  refine ⟨rfl, ?_, ?_, hlen⟩
  · intro buf h
    unfold get_desktop_names
    dsimp only
    rw [desktopNamesLoop_ten, hlen]
    by_cases h1 : maxLength < 1
    · rw [if_pos h1]
    · rw [if_neg h1, if_pos (by omega)]
  · intro buf h
    unfold get_desktop_names
    dsimp only
    rw [desktopNamesLoop_ten, hlen, if_neg (by omega), if_neg (by omega), h32]

theorem C19_get_desktop_names_witness :
    get_desktop_names (some (List.replicate 1024 (Char.ofNat 0))) 1024
      = (100, some ("Desktop 1|Desktop 2|Desktop 3|Desktop 4|Desktop 5|Desktop 6|Desktop 7|Desktop 8|Desktop 9|Desktop 10".toList
          ++ [Char.ofNat 0] ++ (List.replicate 1024 (Char.ofNat 0)).drop 101)) :=
  (C19_get_desktop_names 1024).2.2.1 (List.replicate 1024 (Char.ofNat 0)) (by decide)

/-- C20, the code at the failing input.  In the snapshot where root 1 has the
children 2 and 4 and 2 has the child 3, so that 4 lies one level and 3 two
levels below the root, `GetDescendants` resolves `[2, 3, 4]` and the sweep of
`KillProcessTree` targets 4, then 3, then 2, then the root: the shallower 4 is
targeted before the deeper 3. -/
theorem C20_sweep_targets_shallower_before_deeper :
    (GetDescendants forkEnv 3 1 ([], [])).map (fun r => r.1) = some [2, 3, 4] ∧
    (KillProcessTree forkEnv 3 1 []).map (fun r => openAttempts r.2) = some [4, 3, 2, 1] ∧
    levelBelow forkSnap 1 0 = [2, 4] ∧ levelBelow forkSnap 1 1 = [3] := by
  decide

/-- C21. For every behaviour of the operating system, a pass of
`KillProcessTree` whose resolution returned `descendants` consists of the
events `e1` of the resolution, the events `e2` of the sweep over the
descendants and the events `e3` of the root block, and it returns `false` if
and only if one of the `TerminateProcess` calls of the sweep failed; each call
of the sweep is on a resolved descendant and follows a successful
`OpenProcess` on it.  A descendant that cannot be opened causes no such call,
and the events of the root block do not enter the result. -/
theorem C21_false_iff_a_descendant_kill_failed (env : Env) (fuel : Nat) (rootPid : DWORD)
    (tr0 : List Event) (descendants : List DWORD) (tr1 : List Event)
    (hres : GetDescendants env fuel rootPid ([], tr0) = some (descendants, tr1))
    (hlen : descendants.length < 2 ^ 31) :
    ∃ ret e1 e2 e3,
      KillProcessTree env fuel rootPid tr0 = some (ret, tr0 ++ (e1 ++ e2 ++ e3)) ∧
      tr1 = tr0 ++ e1 ∧ killRoot env rootPid (tr1 ++ e2) = tr1 ++ e2 ++ e3 ∧
      Quiet e1 ∧ openAttempts e2 = descendants.reverse ∧ openAttempts e3 = [rootPid] ∧
      (ret = false ↔ ∃ d, Event.terminateProcess d false ∈ e2) ∧
      (∀ d ok, Event.terminateProcess d ok ∈ e2 →
        d ∈ descendants ∧ Event.openProcess d true ∈ e2) := by
  obtain ⟨ret, e1, e2, e3, hk, htr1, hq1, hloop, ha2, hroot, ha3, _⟩ :=
    KillProcessTree_pass env fuel rootPid tr0 descendants tr1 hres hlen
  obtain ⟨evs, he, hiff, hterm⟩ :=
    killLoop_result env descendants descendants.length (Nat.le_refl _) (true, tr1)
  rw [hloop] at he hiff
  simp only [List.append_cancel_left_eq] at he
  subst he
  rw [List.take_length] at hterm
  refine ⟨ret, e1, e2, e3, hk, htr1, hroot, hq1, ha2, ha3, ?_, hterm⟩
  rw [hiff]
  simp

theorem C21_false_iff_a_descendant_kill_failed_witness :
    ∃ ret e1 e2 e3,
      KillProcessTree stubbornEnv 3 1 [] = some (ret, [] ++ (e1 ++ e2 ++ e3)) ∧
      dfsTrace sampleSnap 2 1 = [] ++ e1 ∧
      killRoot stubbornEnv 1 (dfsTrace sampleSnap 2 1 ++ e2)
        = dfsTrace sampleSnap 2 1 ++ e2 ++ e3 ∧
      Quiet e1 ∧ openAttempts e2 = [2, 3, 4, 5].reverse ∧ openAttempts e3 = [1] ∧
      (ret = false ↔ ∃ d, Event.terminateProcess d false ∈ e2) ∧
      (∀ d ok, Event.terminateProcess d ok ∈ e2 →
        d ∈ [2, 3, 4, 5] ∧ Event.openProcess d true ∈ e2) :=
  C21_false_iff_a_descendant_kill_failed stubbornEnv 3 1 [] [2, 3, 4, 5]
    (dfsTrace sampleSnap 2 1) (by rfl) (by decide)

/-- C22, the claim refuted.  In job mode, with the shell 1 and the resolved
descendants 2 and 3 outside the job: after `TerminateJobObject` (returning
`false` or `true`) the kill step takes no snapshot and attempts the shell
alone; no descendant is attempted before the orphan report, which lists both
as orphans; they are attempted only by the clean-up loop after the report, in
list order.  In tree mode on the same system the report is clean. -/
theorem C22_counterexample :
    main_teardown (escapedEnv false) false 0 1 [2, 3] []
      = some ([Report.orphan 2, Report.orphan 3, Report.orphansDetected 2],
          [MainEvent.terminateJob false,
           MainEvent.os (Event.openProcess 1 true),
           MainEvent.os (Event.terminateProcess 1 true),
           MainEvent.os (Event.closeProcess 1),
           MainEvent.closeJob, MainEvent.closePty, MainEvent.sleep 1000,
           MainEvent.live (LiveEvent.openQuery 2 true),
           MainEvent.live (LiveEvent.getExitCode 2 259),
           MainEvent.live (LiveEvent.closeQuery 2),
           MainEvent.live (LiveEvent.openQuery 3 true),
           MainEvent.live (LiveEvent.getExitCode 3 259),
           MainEvent.live (LiveEvent.closeQuery 3),
           MainEvent.os (Event.openProcess 2 true),
           MainEvent.os (Event.terminateProcess 2 true),
           MainEvent.os (Event.closeProcess 2),
           MainEvent.os (Event.openProcess 3 true),
           MainEvent.os (Event.terminateProcess 3 true),
           MainEvent.os (Event.closeProcess 3)]) ∧
    (main_teardown (escapedEnv true) false 0 1 [2, 3] []).map Prod.fst
      = some [Report.orphan 2, Report.orphan 3, Report.orphansDetected 2] ∧
    (main_teardown (escapedEnv true) true 3 1 [2, 3] []).map Prod.fst
      = some [Report.dead 2, Report.dead 3, Report.allClean] := by
  refine ⟨by decide, by decide, by decide⟩

/-- C22 (amended). In `main` of `test_kill.cpp` the job trigger and the tree
walk are alternatives.  In job mode, whatever `TerminateJobObject` returned,
the kill step that follows it takes no snapshot and makes one `OpenProcess`
attempt, on the shell; then come the closes, the wait and the orphan report,
and only after the report does the clean-up loop attempt the resolved
descendants, one attempt each, in list order.  In tree mode
`TerminateJobObject` is never called (the run either is out of fuel in the
resolution of `KillProcessTree` or returns a trace without the trigger). -/
theorem C22_job_trigger_replaces_the_tree_walk (m : MainEnv) (fuel : Nat)
    (shellPid : DWORD) (descendants : List DWORD) (tr : List MainEvent) :
    (∃ (e1 : List Event) (e2 : List LiveEvent) (e3 : List Event) (report : List Report),
      main_teardown m false fuel shellPid descendants tr
        = some (report,
            tr ++ [MainEvent.terminateJob (m.TerminateJobObject tr)] ++
              e1.map MainEvent.os ++
              [MainEvent.closeJob, MainEvent.closePty, MainEvent.sleep 1000] ++
              e2.map MainEvent.live ++ e3.map MainEvent.os) ∧
      openAttempts e1 = [shellPid] ∧ snapshotCalls e1 = 0 ∧
      openAttempts e3 = descendants ∧ snapshotCalls e3 = 0) ∧
    (main_teardown m true fuel shellPid descendants tr = none ∨
      ∃ report evs, main_teardown m true fuel shellPid descendants tr
          = some (report, tr ++ evs) ∧
        ∀ ok, MainEvent.terminateJob ok ∉ evs) := by
  constructor
  · obtain ⟨e1, hk, ha1, hs1⟩ := killStep_job m fuel shellPid tr
    unfold main_teardown
    rw [hk]
    dsimp only
    obtain ⟨e3, he, ha, hs⟩ := cleanupLoop_attempts
      (treeEnv m (tr ++ [MainEvent.terminateJob (m.TerminateJobObject tr)] ++
          e1.map MainEvent.os ++
          [MainEvent.closeJob, MainEvent.closePty, MainEvent.sleep 1000] ++
        (CheckOrphans (liveEnv m (tr ++ [MainEvent.terminateJob (m.TerminateJobObject tr)] ++
          e1.map MainEvent.os ++
          [MainEvent.closeJob, MainEvent.closePty, MainEvent.sleep 1000]))
          descendants []).2.map MainEvent.live)) descendants []
    rw [he, List.nil_append]
    exact ⟨e1, _, e3, _, rfl, ha1, hs1, ha, hs⟩
  · unfold main_teardown killStep
    simp only [if_true]
    cases hk : KillProcessTree (treeEnv m tr) fuel shellPid [] with
    | none => left; simp
    | some k =>
      right
      simp only [Option.map_some']
      refine ⟨_, _, by simp only [List.append_assoc]; rfl, ?_⟩
      intro ok hmem
      simp at hmem

/-- C23. Over a process table `snap` with unique pids and no parent cycle
through the root that stays the same during the resolution, with fuel for two
turns more than the snapshot has records, the recursive `GetDescendants` and
the iterative `GetAllDescendants` both return and the lists they appended are
permutations of each other, so they hold the same pids; and the three copies
of `GetAllDescendants` return the same result, here and on every input. -/
theorem C23_recursive_and_iterative_agree (env : Env) (snap : List PROCESSENTRY32)
    (hstatic : ∀ h, env.CreateToolhelp32Snapshot h = some snap)
    (rootPid : DWORD) (hu : UniquePids snap) (hno : NoCycleThroughRoot snap rootPid)
    (out : List DWORD) (tr : List Event) (fuel : Nat) (hfuel : snap.length + 2 ≤ fuel) :
    (∃ l1 tr1 l2 tr2,
      GetDescendants env fuel rootPid (out, tr) = some (out ++ l1, tr1) ∧
      GetAllDescendants env fuel rootPid (out, tr) = some (out ++ l2, tr2) ∧
      l1.Perm l2 ∧ (∀ x, x ∈ l1 ↔ x ∈ l2) ∧
      GetAllDescendants_kill_dll env fuel rootPid (out, tr) = some (out ++ l2, tr2) ∧
      GetAllDescendants_conpty_tree env fuel rootPid (out, tr) = some (out ++ l2, tr2)) ∧
    ∀ (env1 : Env) (fuel1 : Nat) (root1 : DWORD) (st : List DWORD × List Event),
      GetAllDescendants_kill_dll env1 fuel1 root1 st = GetAllDescendants env1 fuel1 root1 st ∧
      GetAllDescendants_conpty_tree env1 fuel1 root1 st
        = GetAllDescendants env1 fuel1 root1 st := by
  refine ⟨?_, fun _ _ _ _ => ⟨rfl, rfl⟩⟩
  have hroot := complete_of_acyclicBelow (acyclicBelow_of_noCycle hu hno)
  generalize hg : snap.length = g at hroot
  have hf2 : (dfs snap g rootPid).length + 2 ≤ fuel := by
    have := dfs_length_le hu hroot
    omega
  obtain ⟨f, rfl⟩ : ∃ f, fuel = f + 1 := ⟨fuel - 1, by omega⟩
  have hgf : g ≤ f := by omega
  have hcomp : complete snap f rootPid = true := complete_mono hgf hroot
  obtain ⟨l2, hrun, hperm⟩ := visitLoop_perm hu hroot (f + 1) [rootPid] out
    (by intro s hs; left; simpa using hs)
    (by simp only [List.map_cons, List.map_nil, List.sum_cons, List.sum_nil]; omega)
  simp only [List.flatMap_cons, List.flatMap_nil, List.append_nil] at hperm
  have hall : GetAllDescendants env (f + 1) rootPid (out, tr)
      = some (out ++ l2, tr ++ [Event.snapshot true, Event.closeSnapshot]) := by
    rw [GetAllDescendants]
    simp only [hstatic, hrun, Option.map_some']
  refine ⟨dfs snap g rootPid, tr ++ dfsTrace snap f rootPid, l2,
    tr ++ [Event.snapshot true, Event.closeSnapshot], ?_, hall, hperm.symm,
    fun x => hperm.symm.mem_iff, hall, hall⟩
  rw [GetDescendants_static env snap hstatic, if_pos hcomp, dfs_of_complete_le hgf hroot]

theorem C23_recursive_and_iterative_agree_witness :
    (∃ l1 tr1 l2 tr2,
      GetDescendants obligingEnv 8 1 ([], []) = some ([] ++ l1, tr1) ∧
      GetAllDescendants obligingEnv 8 1 ([], []) = some ([] ++ l2, tr2) ∧
      l1.Perm l2 ∧ (∀ x, x ∈ l1 ↔ x ∈ l2) ∧
      GetAllDescendants_kill_dll obligingEnv 8 1 ([], []) = some ([] ++ l2, tr2) ∧
      GetAllDescendants_conpty_tree obligingEnv 8 1 ([], []) = some ([] ++ l2, tr2)) ∧
    ∀ (env1 : Env) (fuel1 : Nat) (root1 : DWORD) (st : List DWORD × List Event),
      GetAllDescendants_kill_dll env1 fuel1 root1 st = GetAllDescendants env1 fuel1 root1 st ∧
      GetAllDescendants_conpty_tree env1 fuel1 root1 st
        = GetAllDescendants env1 fuel1 root1 st :=
  C23_recursive_and_iterative_agree obligingEnv sampleSnap (fun _ => rfl) 1
    (by unfold UniquePids; decide)
    (by
      intro pe hpe hpid _ hreach
      have hrank := reachable_rank (fun x => x) (by decide : ∀ pe ∈ sampleSnap,
        pe.th32ProcessID ≠ pe.th32ParentProcessID →
          pe.th32ParentProcessID < pe.th32ProcessID) _ _ hreach
      have hpar : pe.th32ParentProcessID = 0 := by
        simp only [sampleSnap, List.mem_cons, List.mem_singleton, List.not_mem_nil,
          or_false] at hpe
        rcases hpe with rfl | rfl | rfl | rfl | rfl | rfl <;> simp_all
      rw [hpar] at hrank
      simp at hrank)
    [] [] 8 (by decide)

/-- C24. For every snapshot with unique pids (parent cycles allowed) and every
root, with fuel for two turns more than the snapshot has records
`GetAllDescendants` returns, the list `l` it appended holds exactly the pids
other than the root that are reachable from the root, each once, and in `l`
the parent of each pid (the parent its record names) is the root or stands at
an earlier index; so in the list read backwards every child is met before its
parent. -/
theorem C24_parents_precede_children (env : Env) (snap : List PROCESSENTRY32)
    (rootPid : DWORD) (hu : UniquePids snap) (out : List DWORD) (tr : List Event)
    (hsnap : env.CreateToolhelp32Snapshot tr = some snap)
    (fuel : Nat) (hfuel : snap.length + 2 ≤ fuel) :
    ∃ l, GetAllDescendants env fuel rootPid (out, tr)
        = some (out ++ l, tr ++ [Event.snapshot true, Event.closeSnapshot]) ∧
      ExactDescendants snap rootPid l ∧
      (∀ (i : Nat) (pe : PROCESSENTRY32), pe ∈ snap → l[i]? = some pe.th32ProcessID →
        pe.th32ParentProcessID = rootPid ∨
          ∃ j : Nat, j < i ∧ l[j]? = some pe.th32ParentProcessID) ∧
      (∀ (i k : Nat) (pe : PROCESSENTRY32), pe ∈ snap →
        l.reverse[i]? = some pe.th32ProcessID →
        l.reverse[k]? = some pe.th32ParentProcessID → i < k) := by
  obtain ⟨l, hrun, hnd, hroot, _⟩ := visitLoop_unique hu rootPid out fuel hfuel
  have hpf : ParentsFirst snap rootPid l := by
    obtain ⟨l1, hl1, hp⟩ := visitLoop_parentsFirst out fuel [] [rootPid] (out ++ l)
      (by intro s hs; left; simpa using hs)
      (by intro i x hx; simp at hx)
      (by rw [List.append_nil]; exact hrun)
    rw [List.append_cancel_left hl1]
    exact hp
  have hclosed : ∀ p, (p = rootPid ∨ p ∈ l) → ∀ c ∈ kidsOf snap rootPid p, c ∈ l := by
    have hinv : ∀ p, (p = rootPid ∨ p ∈ ([] : List DWORD)) →
        p ∈ [rootPid] ∨ ∀ c ∈ kidsOf snap rootPid p, c ∈ ([] : List DWORD) := by
      intro p hp
      rcases hp with h | h
      · exact Or.inl (by simp [h])
      · simp at h
    obtain ⟨l1, hl1, hc⟩ := visitLoop_closed out fuel [] [rootPid] (out ++ l) hinv
      (by rw [List.append_nil]; exact hrun)
    rw [List.append_cancel_left hl1]
    exact hc
  have hexact : ExactDescendants snap rootPid l := by
    refine exactDescendants_of hnd (fun x => ⟨fun hx => ⟨?_, ?_⟩, fun hx => ?_⟩)
    · rintro rfl; exact hroot hx
    · obtain ⟨i, hi⟩ := List.mem_iff_getElem?.mp hx
      exact reachable_of_parentsFirst hpf i x hi
    · exact mem_of_reachable_closed hclosed x hx.2 hx.1
  have hpar : ∀ (i : Nat) (pe : PROCESSENTRY32), pe ∈ snap →
      l[i]? = some pe.th32ProcessID →
      pe.th32ParentProcessID = rootPid ∨
        ∃ j : Nat, j < i ∧ l[j]? = some pe.th32ParentProcessID := by
    intro i pe hpe hi
    obtain ⟨pe1, hpe1, hpid, h⟩ := hpf i _ hi
    rw [record_unique hu hpe1 hpe hpid] at h
    exact h
  refine ⟨l, ?_, hexact, hpar, ?_⟩
  · rw [GetAllDescendants]
    simp only [hsnap, hrun, Option.map_some']
  · intro i k pe hpe hi hk
    have hil : i < l.length := by
      have := lt_length_of_getElem? hi
      rwa [List.length_reverse] at this
    have hkl : k < l.length := by
      have := lt_length_of_getElem? hk
      rwa [List.length_reverse] at this
    rw [List.getElem?_reverse hil] at hi
    rw [List.getElem?_reverse hkl] at hk
    rcases hpar _ pe hpe hi with h | ⟨j, hj, hjp⟩
    · exfalso
      apply hroot
      rw [← h]
      exact List.mem_iff_getElem?.mpr ⟨_, hk⟩
    · have hjl := lt_length_of_getElem? hjp
      have hjk : j = l.length - 1 - k := List.getElem?_inj hjl hnd (hjp.trans hk.symm)
      omega

theorem C24_parents_precede_children_witness :
    ∃ l, l = [2, 4, 5, 3] ∧
      GetAllDescendants obligingEnv 8 1 ([], [])
        = some ([] ++ l, [] ++ [Event.snapshot true, Event.closeSnapshot]) ∧
      ExactDescendants sampleSnap 1 l ∧
      (∀ (i : Nat) (pe : PROCESSENTRY32), pe ∈ sampleSnap → l[i]? = some pe.th32ProcessID →
        pe.th32ParentProcessID = 1 ∨
          ∃ j : Nat, j < i ∧ l[j]? = some pe.th32ParentProcessID) ∧
      (∀ (i k : Nat) (pe : PROCESSENTRY32), pe ∈ sampleSnap →
        l.reverse[i]? = some pe.th32ProcessID →
        l.reverse[k]? = some pe.th32ParentProcessID → i < k) := by
  obtain ⟨l, h1, h2, h3, h4⟩ := C24_parents_precede_children obligingEnv sampleSnap 1
    (by unfold UniquePids; decide) [] [] rfl 8 (by decide)
  have hrun : GetAllDescendants obligingEnv 8 1 ([], [])
      = some ([2, 4, 5, 3], [Event.snapshot true, Event.closeSnapshot]) := by decide
  have hl : l = [2, 4, 5, 3] := by
    rw [hrun] at h1
    simp only [List.nil_append, Option.some.injEq, Prod.mk.injEq, and_true] at h1
    exact h1.symm
  exact ⟨l, hl, h1, h2, h3, h4⟩

/-- C25 (the opposite holds). Whatever the operating system answers, a call
`GetDescendants(root)` that returns `n` descendants has called
`CreateToolhelp32Snapshot` `n + 1` times: every activation of the recursion
reads the process table anew, so the `n` pids come from `n + 1` separate
reads, not from a single capture. -/
theorem C25_one_snapshot_per_activation (env : Env) (fuel : Nat) (rootPid : DWORD)
    (tr0 : List Event) (descendants : List DWORD) (tr1 : List Event)
    (hres : GetDescendants env fuel rootPid ([], tr0) = some (descendants, tr1)) :
    ∃ evs, tr1 = tr0 ++ evs ∧ snapshotCalls evs = descendants.length + 1 := by
  obtain ⟨l, evs, heq, hc⟩ := GetDescendants_reads env fuel rootPid _ _ hres
  simp only [List.nil_append, Prod.mk.injEq] at heq
  obtain ⟨rfl, rfl⟩ := heq
  exact ⟨evs, rfl, hc⟩

theorem C25_one_snapshot_per_activation_witness :
    GetDescendants forkEnv 3 1 ([], []) = some ([2, 3, 4], dfsTrace forkSnap 2 1) ∧
    ∃ evs, dfsTrace forkSnap 2 1 = [] ++ evs ∧ snapshotCalls evs = [2, 3, 4].length + 1 :=
  ⟨by rfl, C25_one_snapshot_per_activation forkEnv 3 1 [] [2, 3, 4]
    (dfsTrace forkSnap 2 1) (by rfl)⟩

/-- C26. In `create_job_for_process`, once `CreateJobObjectA` has given a job
handle, the events after the creation either hold no close of a job handle and
the handle is returned, or they close the job handle exactly once and 0 is
returned; the process handles closed are exactly the process handles opened,
at most one. -/
theorem C26_handles_closed_exactly_once (env : JobEnv) (processId : DWORD)
    (tr : List JobEvent) (hjob : env.CreateJobObjectA tr ≠ 0) :
    ∃ evs, (create_job_for_process env processId tr).2
        = tr ++ JobEvent.createJob (env.CreateJobObjectA tr) :: evs ∧
      (((create_job_for_process env processId tr).1 = env.CreateJobObjectA tr ∧
          jobCloses evs = []) ∨
        ((create_job_for_process env processId tr).1 = 0 ∧
          jobCloses evs = [env.CreateJobObjectA tr])) ∧
      processCloses evs = processOpens evs ∧ (processOpens evs).length ≤ 1 := by
  unfold create_job_for_process
  dsimp only
  rw [if_neg hjob]
  split_ifs with h2 h3
  · exact ⟨_, by simp only [List.append_assoc, List.singleton_append]; rfl,
      by simp [jobCloses], by simp [processCloses, processOpens], by simp [processOpens]⟩
  · exact ⟨_, by simp only [List.append_assoc, List.singleton_append]; rfl,
      by simp [jobCloses], by simp_all [processCloses, processOpens],
      by simp_all [processOpens]⟩
  · exact ⟨_, by simp only [List.append_assoc, List.singleton_append]; rfl,
      by simp [jobCloses], by simp_all [processCloses, processOpens],
      by simp_all [processOpens]⟩

theorem C26_handles_closed_exactly_once_witness :
    ∃ evs, (create_job_for_process (fixedJobEnv 7 true 9 false true true) 4 []).2
        = [] ++ JobEvent.createJob ((fixedJobEnv 7 true 9 false true true).CreateJobObjectA [])
            :: evs ∧
      (((create_job_for_process (fixedJobEnv 7 true 9 false true true) 4 []).1
            = (fixedJobEnv 7 true 9 false true true).CreateJobObjectA [] ∧
          jobCloses evs = []) ∨
        ((create_job_for_process (fixedJobEnv 7 true 9 false true true) 4 []).1 = 0 ∧
          jobCloses evs = [(fixedJobEnv 7 true 9 false true true).CreateJobObjectA []])) ∧
      processCloses evs = processOpens evs ∧ (processOpens evs).length ≤ 1 :=
  C26_handles_closed_exactly_once (fixedJobEnv 7 true 9 false true true) 4 [] (by decide)

/-- C27. The functions `IsProcessAlive` and `IsAlive` return `true` exactly
when the process can be opened and the exit code read after
`GetExitCodeProcess` equals `STILL_ACTIVE`, which is 259; the two functions
agree. -/
theorem C27_alive_iff_opened_and_still_active (env : LiveEnv) (pid : DWORD)
    (tr : List LiveEvent) :
    ((IsProcessAlive env pid tr).1 = true ↔
      env.OpenProcess tr pid = true ∧
        env.GetExitCodeProcess (tr ++ [LiveEvent.openQuery pid true]) pid = STILL_ACTIVE) ∧
    ((IsAlive env pid tr).1 = true ↔
      env.OpenProcess tr pid = true ∧
        env.GetExitCodeProcess (tr ++ [LiveEvent.openQuery pid true]) pid = STILL_ACTIVE) ∧
    IsAlive env pid tr = IsProcessAlive env pid tr ∧ STILL_ACTIVE = 259 := by
  refine ⟨?_, ?_, rfl, rfl⟩
  · unfold IsProcessAlive
    cases h : env.OpenProcess tr pid <;> simp
  · unfold IsAlive
    cases h : env.OpenProcess tr pid <;> simp

/-- C28. For every `int` value of `maxWindows` and every list of top-level
windows, `enumerate_windows` returns 0 without calling `EnumWindows` and
without a store when `windows` is null or `maxWindows <= 0`; otherwise it
calls `EnumWindows` and the value `count` it returns lies in
`[0, maxWindows]` and is the number of stores, the stores go to the indices
`0, ..., count - 1` in this order, so each index is below `maxWindows`, and
each store records a window that is visible, has a text length other than 0
and a readable rectangle. -/
theorem C28_enumerate_windows (windows : Option (List WindowData)) (maxWindows : Int)
    (top : List TopWindow) (hint : maxWindows < 2 ^ 31) :
    (windows = none ∨ maxWindows ≤ 0 →
      enumerate_windows windows maxWindows top = (0, [], none)) ∧
    (windows ≠ none → 0 < maxWindows →
      ∃ count writes visited,
        enumerate_windows windows maxWindows top = (count, writes, some visited) ∧
        0 ≤ count ∧ count ≤ maxWindows ∧ count = writes.length ∧
        writes.map Prod.fst = (List.range writes.length).map Int.ofNat ∧
        (∀ e ∈ writes, 0 ≤ e.1 ∧ e.1 < maxWindows) ∧
        ∀ e ∈ writes, Recorded top e) := by
  constructor
  · intro h
    unfold enumerate_windows
    rw [if_pos h]
  · intro hw hm
    unfold enumerate_windows
    rw [if_neg (by rintro (h | h); exact hw h; omega)]
    obtain ⟨_, h2, h3, new, h4, h5, h6⟩ := EnumWindows_inv top top ⟨[], maxWindows, 0⟩
      (fun _ h => h) rfl (by simp only; omega) hint
    simp only [List.nil_append, List.length_nil] at h4 h5
    rw [← h4, ← List.range_eq_range'] at h5
    rw [← h4] at h6
    dsimp only at h3
    refine ⟨_, _, _, rfl, by rw [h2]; omega, h3, h2, h5, ?_, h6⟩
    intro e he
    have hmem : e.1 ∈ (List.range (EnumWindows top ⟨[], maxWindows, 0⟩).1.windows.length).map
        Int.ofNat := by
      rw [← h5]
      exact List.mem_map_of_mem _ he
    obtain ⟨k, hk, hke⟩ := List.mem_map.mp hmem
    rw [List.mem_range] at hk
    rw [← hke]
    rw [h2] at h3
    constructor
    · exact Int.ofNat_nonneg k
    · have : (k : Int) < ((EnumWindows top ⟨[], maxWindows, 0⟩).1.windows.length : Int) :=
        Int.ofNat_lt.mpr hk
      exact lt_of_lt_of_le this h3

theorem C28_enumerate_windows_witness :
    ∃ count writes visited,
      enumerate_windows (some []) 2 sampleWindows = (count, writes, some visited) ∧
      0 ≤ count ∧ count ≤ 2 ∧ count = writes.length ∧
      writes.map Prod.fst = (List.range writes.length).map Int.ofNat ∧
      (∀ e ∈ writes, 0 ≤ e.1 ∧ e.1 < 2) ∧
      ∀ e ∈ writes, Recorded sampleWindows e :=
  (C28_enumerate_windows (some []) 2 sampleWindows (by decide)).2 (by decide) (by decide)

/-- C29. When `CreateProcessA` fails, `execute_command_with_positioning`
returns 0 and its only call is that launch: no poll.  When it gives a process
id (non-zero, 32 bits) the function returns that id as an `int`, whether or
not a window was found or positioned; its polls are `k` polls that find
nothing followed by at most one that finds the window `target`, at most
`timeoutMs / 100` (truncated) in all, none when `timeoutMs < 100`, and when no
poll found a window all `timeoutMs / 100` were made. -/
theorem C29_polls_until_found_or_timeout (env : WinEnv) (command : String)
    (working_dir : Option String) (x y width height : Int)
    (windowTitleFragment : Option (List Char)) (timeoutMs : Int) (tr : List WinEvent) :
    (env.CreateProcessA tr command working_dir = none →
      execute_command_with_positioning env command working_dir x y width height
          windowTitleFragment timeoutMs tr
        = (0, tr ++ [WinEvent.createProcess command working_dir none])) ∧
    (∀ pid, env.CreateProcessA tr command working_dir = some pid → pid ≠ 0 → pid < 2 ^ 32 →
      ∃ evs k target,
        execute_command_with_positioning env command working_dir x y width height
            windowTitleFragment timeoutMs tr
          = (toInt32 pid,
              tr ++ [WinEvent.createProcess command working_dir (some pid),
                WinEvent.closeProcessHandles] ++ evs) ∧
        pollResults evs = List.replicate k 0 ++ (if target = 0 then [] else [target]) ∧
        (pollResults evs).length ≤ (Int.tdiv timeoutMs 100).toNat ∧
        (timeoutMs < 100 → pollResults evs = []) ∧
        (target = 0 → k = (Int.tdiv timeoutMs 100).toNat)) := by
  constructor
  · intro hfail
    unfold execute_command_with_positioning execute_command
    rw [hfail]
    dsimp only
    rw [toDWORD_zero, if_pos rfl]
  · intro pid hpid hne hlt
    unfold execute_command_with_positioning execute_command
    rw [hpid]
    dsimp only
    rw [toDWORD_toInt32 hlt, if_neg hne]
    obtain ⟨evs, k, target, hrun, hpoll, hle, hex, _⟩ :=
      positioningLoop_polls env pid windowTitleFragment (Int.tdiv timeoutMs 100).toNat
        (tr ++ [WinEvent.createProcess command working_dir (some pid),
          WinEvent.closeProcessHandles])
    rw [hrun]
    dsimp only
    have hlen : (pollResults evs).length ≤ (Int.tdiv timeoutMs 100).toNat := by
      rw [hpoll]
      by_cases ht : target = 0
      · simp only [ht, if_true, List.append_nil, List.length_replicate] at hle ⊢
        omega
      · simp only [ht, if_false, List.length_append, List.length_replicate,
          List.length_singleton] at hle ⊢
        omega
    have hnone : timeoutMs < 100 → pollResults evs = [] := by
      intro h
      rw [tdiv_toNat_of_lt h] at hlen
      exact List.length_eq_zero.mp (Nat.le_zero.mp hlen)
    by_cases hpos : target ≠ 0 ∧ x ≥ 0 ∧ y ≥ 0 ∧ width > 0 ∧ height > 0
    · rw [if_pos hpos]
      refine ⟨evs ++ [WinEvent.setWindowPos target x y width height], k, target, ?_, ?_, ?_,
        ?_, hex⟩
      · simp
      · rw [pollResults_append, hpoll]; simp [pollResults]
      · rw [pollResults_append]; simpa [pollResults] using hlen
      · intro h; rw [pollResults_append, hnone h]; simp [pollResults]
    · rw [if_neg hpos]
      exact ⟨evs, k, target, rfl, hpoll, hlen, hnone, hex⟩

theorem C29_polls_until_found_or_timeout_witness :
    ∃ evs k target,
      execute_command_with_positioning slowWindowEnv "code project" none 10 20 800 600
          (some "project".toList) 5000 []
        = (toInt32 4242,
            [] ++ [WinEvent.createProcess "code project" none (some 4242),
              WinEvent.closeProcessHandles] ++ evs) ∧
      pollResults evs = List.replicate k 0 ++ (if target = 0 then [] else [target]) ∧
      (pollResults evs).length ≤ (Int.tdiv 5000 100).toNat ∧
      ((5000 : Int) < 100 → pollResults evs = []) ∧
      (target = 0 → k = (Int.tdiv 5000 100).toNat) :=
  (C29_polls_until_found_or_timeout slowWindowEnv "code project" none 10 20 800 600
    (some "project".toList) 5000 []).2 4242 rfl (by decide) (by decide)

/-- C30. The first call of `execute_ssh_session` is the launch of the command
line `line`, which is `cmd /k ssh <username>@<host>` when `port` is 22 and
`cmd /k ssh -p <port> <username>@<host>` otherwise (the port in decimal), with
no working directory; nothing else is launched; and when that launch fails
the function returns 0 and has made no other call, so no keystroke is sent. -/
theorem C30_ssh_command_line (env : WinEnv) (host username password : String)
    (port : Int) (remote_dir remote_command : Option String) (x y width height : Int)
    (tr : List WinEvent) :
    ∃ line evs,
      (port = 22 → line = "cmd /k ssh " ++ username ++ "@" ++ host) ∧
      (port ≠ 22 →
        line = "cmd /k ssh -p " ++ toString port ++ " " ++ username ++ "@" ++ host) ∧
      (execute_ssh_session env host username password port remote_dir remote_command
          x y width height tr).2
        = tr ++ WinEvent.createProcess line none (env.CreateProcessA tr line none) :: evs ∧
      launches evs = [] ∧
      (env.CreateProcessA tr line none = none →
        execute_ssh_session env host username password port remote_dir remote_command
            x y width height tr
          = (0, tr ++ [WinEvent.createProcess line none none]) ∧
        keyEvents [WinEvent.createProcess line none none] = []) := by
  have hline := ssh_command_line port username host
  generalize hl : (if port = 22 then "cmd /k ssh " ++ username ++ "@" ++ host
    else "cmd /k ssh -p " ++ toString port ++ " " ++ username ++ "@" ++ host) = line at hline
  have h22 : port = 22 → line = "cmd /k ssh " ++ username ++ "@" ++ host := by
    intro h; rw [← hl, if_pos h]
  have hne : port ≠ 22 →
      line = "cmd /k ssh -p " ++ toString port ++ " " ++ username ++ "@" ++ host := by
    intro h; rw [← hl, if_neg h]
  cases hc : env.CreateProcessA tr line none with
  | none =>
    have hres := execute_ssh_session_failed env host username password port remote_dir
      remote_command x y width height tr line hline hc
    exact ⟨line, [], h22, hne, by rw [hres, hc], rfl, fun h => ⟨hres, rfl⟩⟩
  | some pid =>
    obtain ⟨e, he, hlaunch⟩ := execute_ssh_session_launched env host username password port
      remote_dir remote_command x y width height tr line pid hline hc
    refine ⟨line, WinEvent.closeProcessHandles :: e, h22, hne, ?_, ?_, ?_⟩
    · rw [he, hc]; simp
    · rw [show WinEvent.closeProcessHandles :: e = [WinEvent.closeProcessHandles] ++ e from rfl,
        launches_append, hlaunch]
      rfl
    · intro h
      rw [hc] at h
      cases h

theorem C30_ssh_command_line_witness :
    execute_ssh_session (⟨fun _ _ _ => none, fun _ => [], fun _ _ => false, fun _ _ => false,
        fun _ => 0⟩ : WinEnv) "example.org" "alice" "secret" 2222 none (some "ls") 0 0 800 600 []
      = (0, [] ++ [WinEvent.createProcess "cmd /k ssh -p 2222 alice@example.org" none none]) ∧
    (execute_ssh_session consoleEnv "example.org" "alice" "pw" 22 none none 0 0 800 600 []).2.head?
      = some (WinEvent.createProcess "cmd /k ssh alice@example.org" none (some 4242)) := by
  obtain ⟨line, evs, _, hne, _, _, hfail⟩ := C30_ssh_command_line
    (⟨fun _ _ _ => none, fun _ => [], fun _ _ => false, fun _ _ => false, fun _ => 0⟩ : WinEnv)
    "example.org" "alice" "secret" 2222 none (some "ls") 0 0 800 600 []
  have hl := hne (by decide)
  subst hl
  exact ⟨by simpa using (hfail rfl).1, by decide⟩

end Marcha
